import Mathlib

/-!
Square tessellation search (`main.c`): embedding and verification

The program enumerates every tiling of the `n(n+1)/2`-sided square board by
`k` squares of side `k` for `k = 1..n`, by depth-first backtracking.

Embedding conventions.

* The embedding has two layers.  The functions `sumOf1toN`, ..., `runSearch`
  compute in exact arithmetic on `Nat`.  The functions `sumOf1toNInt`, ...,
  `runSearchInt` are the same code with `boardSize` and `totalSquares` held as
  32-bit `int` values: the product `x * (x + 1)` of `sumOf1toN` wraps around
  from `x = 46341` on, and `boardSize` is negative for the input `46341`.  The
  two layers are the same program exactly as long as `n (n + 1) < 2^31`, that
  is `n ≤ 46340` (`runSearchInt_eq`, `visitedInt_exact`, `visited_toInt`).
* The other `int` variables of the search (coordinates, sizes, counters, tile
  identifiers) are non-negative, so they are `Nat`.  The two decrements of the
  program, `squaresCount[i]--` and `placedSoFar--`, yield `none` when the
  counter is `0`.
* Allocation is taken to succeed.
* The global variables are the fields of `State`; every function takes the
  state and returns the state it leaves behind.
* Memory accesses are checked: reading or writing outside an allocated array
  yields `none`.  The recursion of `dfsAllSolutions` is bounded by a fuel
  argument, and running out of fuel also yields `none`.
* The two output routines receive the solution index and read
  `placements[0 .. totalSquares-1]`; a call is recorded as a `Report` appended
  to the field `output`.  Console messages and timing are not modelled.
-/

namespace Tessellation

/-- One record of the array `placements` (`struct PiecePlacement`). -/
structure PiecePlacement where
  id : Nat
  size : Nat
  row : Nat
  col : Nat
deriving DecidableEq, Repr

/-- The board `int **board`: a list of rows. -/
abbrev Board := List (List Nat)

/-- One call of the output routines: the index passed and the records read. -/
structure Report where
  solIndex : Nat
  placements : List PiecePlacement
deriving DecidableEq, Repr

/-- The global variables of the program. -/
structure State where
  boardSize : Nat
  board : Board
  squaresCount : List Nat
  nValue : Nat
  totalSquares : Nat
  placedSoFar : Nat
  placements : List PiecePlacement
  solutionCount : Nat
  output : List Report
deriving DecidableEq, Repr

/-- The function `sumOf1toN`, `x * (x + 1) / 2`, in exact arithmetic.  It is
the value the program computes as long as the product fits an `int`, that is
for `x ≤ 46340`; the computation on `int`, which wraps around beyond, is
`sumOf1toNInt`. -/
def sumOf1toN (x : Nat) : Nat := x * (x + 1) / 2

/-- The read `board[r][c]`; `none` outside the allocated board. -/
def readCell (b : Board) (r c : Nat) : Option Nat :=
  match (b[r]?) with
  | none => none
  | some cells => cells[c]?

/-- The write `board[r][c] = v`; `none` outside the allocated board. -/
def writeCell (b : Board) (r c v : Nat) : Option Board :=
  match (b[r]?) with
  | none => none
  | some cells => if c < cells.length then some (b.set r (cells.set c v)) else none

/-- The index pairs `(rr, cc)` visited by `for rr < size, for cc < size`, in
the order of the two nested loops. -/
def loopIndices (size : Nat) : List (Nat × Nat) :=
  List.product (List.range size) (List.range size)

/-- The nested loops of `canPlace` over the remaining index pairs. -/
def canPlaceLoop (b : Board) (r c : Nat) : List (Nat × Nat) → Option Bool
  | [] => some true
  | (rr, cc) :: rest =>
    match readCell b (r + rr) (c + cc) with
    | none => none
    | some v => if v ≠ 0 then some false else canPlaceLoop b r c rest

/-- The function `canPlace(r, c, size)`: the result and the state left behind. -/
def canPlace (s : State) (r c size : Nat) : Option (Bool × State) :=
  if r + size > s.boardSize ∨ c + size > s.boardSize then some (false, s)
  else
    match canPlaceLoop s.board r c (loopIndices size) with
    | none => none
    | some ok => some (ok, s)

/-- The nested loops of `fillSquare` over the remaining index pairs. -/
def fillSquareLoop (r c val : Nat) : List (Nat × Nat) → Board → Option Board
  | [], b => some b
  | (rr, cc) :: rest, b =>
    match writeCell b (r + rr) (c + cc) val with
    | none => none
    | some b1 => fillSquareLoop r c val rest b1

/-- The function `fillSquare(r, c, size, val)`. -/
def fillSquare (s : State) (r c size val : Nat) : Option State :=
  match fillSquareLoop r c val (loopIndices size) s.board with
  | none => none
  | some b => some { s with board := b }

/-- The nested loops of `findNextEmpty` over the remaining cells. -/
def findNextEmptyLoop (b : Board) : List (Nat × Nat) → Option (Option (Nat × Nat))
  | [] => some none
  | (rr, cc) :: rest =>
    match readCell b rr cc with
    | none => none
    | some v => if v = 0 then some (some (rr, cc)) else findNextEmptyLoop b rest

/-- The function `findNextEmpty(&r, &c)`: `some (r, c)` for return value `1` with the two
out-parameters, `none` for return value `0`; and the state left behind. -/
def findNextEmpty (s : State) : Option (Option (Nat × Nat) × State) :=
  match findNextEmptyLoop s.board (loopIndices s.boardSize) with
  | none => none
  | some res => some (res, s)

/-- The solution branch of `dfsAllSolutions`: `solutionCount++`, then the two
output routines, which read `placements[0 .. totalSquares-1]`. -/
def reportSolution (s : State) : Option State :=
  if s.totalSquares ≤ s.placements.length then
    some { s with
      solutionCount := s.solutionCount + 1
      output := s.output ++ [⟨s.solutionCount + 1, s.placements.take s.totalSquares⟩] }
  else none

/-- The write of the four fields of `placements[k]`. -/
def writePlacement (s : State) (k : Nat) (p : PiecePlacement) : Option State :=
  if k < s.placements.length then some { s with placements := s.placements.set k p }
  else none

/-- The statements of the loop body that put a tile of side `i + 1` at
`(r, c)`, from `squaresCount[i]--` to the write of `placements[placedSoFar - 1]`. -/
def enterTile (s : State) (r c i : Nat) : Option State :=
  match (s.squaresCount[i]?) with
  | none => none
  | some cnt =>
    if cnt = 0 then none
    else
      let s1 : State := { s with
        squaresCount := s.squaresCount.set i (cnt - 1)
        placedSoFar := s.placedSoFar + 1 }
      let thisID := s1.placedSoFar
      match fillSquare s1 r c (i + 1) thisID with
      | none => none
      | some s2 => writePlacement s2 (s2.placedSoFar - 1) ⟨thisID, i + 1, r, c⟩

/-- The statements of the loop body after the recursive call:
`fillSquare(r, c, sz, 0); squaresCount[i]++; placedSoFar--;`. -/
def leaveTile (s : State) (r c i : Nat) : Option State :=
  match fillSquare s r c (i + 1) 0 with
  | none => none
  | some s5 =>
    match (s5.squaresCount[i]?) with
    | none => none
    | some cnt =>
      if s5.placedSoFar = 0 then none
      else
        some { s5 with
          squaresCount := s5.squaresCount.set i (cnt + 1)
          placedSoFar := s5.placedSoFar - 1 }

/-- The body of the loop of `dfsAllSolutions` for the index `i` at the cell
`(r, c)`; the first argument is the recursive call. -/
def dfsBody (call : State → Option State) (r c i : Nat) (s : State) : Option State :=
  match (s.squaresCount[i]?) with
  | none => none
  | some cnt =>
    if cnt > 0 then
      match canPlace s r c (i + 1) with
      | none => none
      | some (false, s0) => some s0
      | some (true, s0) =>
        match enterTile s0 r c i with
        | none => none
        | some s3 =>
          match call s3 with
          | none => none
          | some s4 => leaveTile s4 r c i
    else some s

/-- The loop `for (i = nValue - 1; i >= 0; i--)` of `dfsAllSolutions`; the
counter of the recursion is `i + 1`. -/
def dfsLoop (call : State → Option State) (r c : Nat) : Nat → State → Option State
  | 0, s => some s
  | i + 1, s =>
    match dfsBody call r c i s with
    | none => none
    | some s1 => dfsLoop call r c i s1

/-- The function `dfsAllSolutions()`, with the fuel that bounds the depth of
the recursion. -/
def dfsAllSolutions : Nat → State → Option State
  | 0, _ => none
  | fuel + 1, s =>
    if s.placedSoFar = s.totalSquares then reportSolution s
    else
      match findNextEmpty s with
      | none => none
      | some (none, s0) => some s0
      | some (some (r, c), s0) => dfsLoop (dfsAllSolutions fuel) r c s0.nValue s0

/-- The state set up by `main` for the input `n` before it calls
`dfsAllSolutions`, in exact arithmetic; `mem` is the content of the freshly
allocated, not initialised array `placements`.  The state set up on `int` is
`initStateInt`. -/
def initState (n : Nat) (mem : Nat → PiecePlacement) : State :=
  { boardSize := sumOf1toN n
    board := List.replicate (sumOf1toN n) (List.replicate (sumOf1toN n) 0)
    squaresCount := (List.range n).map (fun i => i + 1)
    nValue := n
    totalSquares := sumOf1toN n
    placedSoFar := 0
    placements := (List.range (sumOf1toN n)).map mem
    solutionCount := 0
    output := [] }

/-- The search as `main` runs it, in exact arithmetic: input check, set-up,
`dfsAllSolutions`.  For an input `n < 1` the program stops before any search,
and there is no final state of a search (`none`).  The search on `int` is
`runSearchInt`. -/
def runSearch (n : Nat) (mem : Nat → PiecePlacement) (fuel : Nat) : Option State :=
  if n < 1 then none else dfsAllSolutions fuel (initState n mem)

/-! ## The SVG output

The numbers that `outputSolutionAsSVG` prints: the size of the drawing, the
grid lines, one rectangle and one text label per placement record.  The file
handling and the text of the attributes are not modelled. -/

/-- A `<line>` element: its two end points. -/
structure SvgLine where
  x1 : Nat
  y1 : Nat
  x2 : Nat
  y2 : Nat
deriving DecidableEq, Repr

/-- A `<rect>` element of a tile: position, extent and hue of the fill. -/
structure SvgRect where
  x : Nat
  y : Nat
  width : Nat
  height : Nat
  hue : Nat
deriving DecidableEq, Repr

/-- A `<text>` element of a tile: position, font size and the number shown. -/
structure SvgText where
  x : Nat
  y : Nat
  fontSize : Nat
  label : Nat
deriving DecidableEq, Repr

/-- What `outputSolutionAsSVG` writes. -/
structure SvgFile where
  solIndex : Nat
  svgWidth : Nat
  svgHeight : Nat
  grid : List SvgLine
  rects : List SvgRect
  texts : List SvgText
deriving DecidableEq, Repr

/-- The constant `cellSize` of `outputSolutionAsSVG`. -/
def cellSize : Nat := 20

/-- The constant `margin` of `outputSolutionAsSVG`. -/
def margin : Nat := 10

/-- The two lines that the grid loop of `outputSolutionAsSVG` draws for the
index `i`: the vertical one, then the horizontal one. -/
def svgGridLines (boardSize i : Nat) : List SvgLine :=
  let x := margin + i * cellSize
  let y := margin + i * cellSize
  [⟨x, margin, x, margin + boardSize * cellSize⟩,
   ⟨margin, y, margin + boardSize * cellSize, y⟩]

/-- The rectangle that the second loop of `outputSolutionAsSVG` draws for the
record `p`. -/
def svgRect (p : PiecePlacement) : SvgRect :=
  let sz := p.size
  let row := p.row
  let col := p.col
  let x := margin + col * cellSize
  let y := margin + row * cellSize
  let w := sz * cellSize
  let h := sz * cellSize
  let hue := (sz * 40) % 360
  ⟨x, y, w, h, hue⟩

/-- The label that the third loop of `outputSolutionAsSVG` draws for the
record `p`. -/
def svgText (p : PiecePlacement) : SvgText :=
  let sz := p.size
  let row := p.row
  let col := p.col
  let x := margin + col * cellSize
  let y := margin + row * cellSize
  let w := sz * cellSize
  let h := sz * cellSize
  ⟨x + w / 2, y + h / 2, cellSize / 2, sz⟩

/-- The function `outputSolutionAsSVG(solIndex)`: it reads
`placements[0 .. totalSquares-1]`; `none` when that is outside the array. -/
def outputSolutionAsSVG (s : State) (solIndex : Nat) : Option SvgFile :=
  if s.totalSquares ≤ s.placements.length then
    some
      { solIndex := solIndex
        svgWidth := margin * 2 + s.boardSize * cellSize
        svgHeight := margin * 2 + s.boardSize * cellSize
        grid := (List.range (s.boardSize + 1)).flatMap (svgGridLines s.boardSize)
        rects := (s.placements.take s.totalSquares).map svgRect
        texts := (s.placements.take s.totalSquares).map svgText }
  else none

/-! ## The program on 32-bit `int`

The definitions above compute `sumOf1toN` in exact arithmetic.  The program
computes it on `int`, where `x * (x + 1)` wraps around from `x = 46341` on.
The definitions of this section are the same functions with `boardSize` and
`totalSquares` held as 32-bit two's complement values, which may be negative;
the other variables of the search stay non-negative.  A `for` loop whose bound
is negative makes no iteration. -/

/-- The value that a 32-bit two's complement `int` holds when the exact
result of an operation is `z`. -/
def wrapInt32 (z : Int) : Int :=
  (z + 2147483648) % 4294967296 - 2147483648

/-- The function `sumOf1toN` as computed on `int`: `x * (x + 1) / 2`, the
division truncating towards zero. -/
def sumOf1toNInt (x : Int) : Int :=
  Int.tdiv (wrapInt32 (x * wrapInt32 (x + 1))) 2

/-- The global variables of the program, `boardSize` and `totalSquares` as
`int` values. -/
structure IntState where
  boardSize : Int
  board : Board
  squaresCount : List Nat
  nValue : Nat
  totalSquares : Int
  placedSoFar : Nat
  placements : List PiecePlacement
  solutionCount : Nat
  output : List Report
deriving DecidableEq, Repr

/-- The function `canPlace(r, c, size)` on `int`. -/
def canPlaceInt (s : IntState) (r c size : Nat) : Option (Bool × IntState) :=
  if wrapInt32 ((r : Int) + (size : Int)) > s.boardSize ∨
      wrapInt32 ((c : Int) + (size : Int)) > s.boardSize then some (false, s)
  else
    match canPlaceLoop s.board r c (loopIndices size) with
    | none => none
    | some ok => some (ok, s)

/-- The function `fillSquare(r, c, size, val)` on `int`. -/
def fillSquareInt (s : IntState) (r c size val : Nat) : Option IntState :=
  match fillSquareLoop r c val (loopIndices size) s.board with
  | none => none
  | some b => some { s with board := b }

/-- The function `findNextEmpty(&r, &c)` on `int`: the two loops run up to
`boardSize`, not at all when it is negative. -/
def findNextEmptyInt (s : IntState) : Option (Option (Nat × Nat) × IntState) :=
  match findNextEmptyLoop s.board (loopIndices s.boardSize.toNat) with
  | none => none
  | some res => some (res, s)

/-- The solution branch of `dfsAllSolutions` on `int`: the output routines
read `placements[i]` for `0 ≤ i < totalSquares`. -/
def reportSolutionInt (s : IntState) : Option IntState :=
  if s.totalSquares ≤ (s.placements.length : Int) then
    some { s with
      solutionCount := s.solutionCount + 1
      output := s.output ++ [⟨s.solutionCount + 1, s.placements.take s.totalSquares.toNat⟩] }
  else none

/-- The write of the four fields of `placements[k]`. -/
def writePlacementInt (s : IntState) (k : Nat) (p : PiecePlacement) : Option IntState :=
  if k < s.placements.length then some { s with placements := s.placements.set k p }
  else none

/-- The statements of the loop body that put a tile, on `int`. -/
def enterTileInt (s : IntState) (r c i : Nat) : Option IntState :=
  match (s.squaresCount[i]?) with
  | none => none
  | some cnt =>
    if cnt = 0 then none
    else
      let s1 : IntState := { s with
        squaresCount := s.squaresCount.set i (cnt - 1)
        placedSoFar := s.placedSoFar + 1 }
      let thisID := s1.placedSoFar
      match fillSquareInt s1 r c (i + 1) thisID with
      | none => none
      | some s2 => writePlacementInt s2 (s2.placedSoFar - 1) ⟨thisID, i + 1, r, c⟩

/-- The statements of the loop body after the recursive call, on `int`. -/
def leaveTileInt (s : IntState) (r c i : Nat) : Option IntState :=
  match fillSquareInt s r c (i + 1) 0 with
  | none => none
  | some s5 =>
    match (s5.squaresCount[i]?) with
    | none => none
    | some cnt =>
      if s5.placedSoFar = 0 then none
      else
        some { s5 with
          squaresCount := s5.squaresCount.set i (cnt + 1)
          placedSoFar := s5.placedSoFar - 1 }

/-- The body of the loop of `dfsAllSolutions` on `int`. -/
def dfsBodyInt (call : IntState → Option IntState) (r c i : Nat) (s : IntState) :
    Option IntState :=
  match (s.squaresCount[i]?) with
  | none => none
  | some cnt =>
    if cnt > 0 then
      match canPlaceInt s r c (i + 1) with
      | none => none
      | some (false, s0) => some s0
      | some (true, s0) =>
        match enterTileInt s0 r c i with
        | none => none
        | some s3 =>
          match call s3 with
          | none => none
          | some s4 => leaveTileInt s4 r c i
    else some s

/-- The loop of `dfsAllSolutions` on `int`. -/
def dfsLoopInt (call : IntState → Option IntState) (r c : Nat) :
    Nat → IntState → Option IntState
  | 0, s => some s
  | i + 1, s =>
    match dfsBodyInt call r c i s with
    | none => none
    | some s1 => dfsLoopInt call r c i s1

/-- The function `dfsAllSolutions()` on `int`, with the fuel that bounds the
depth of the recursion. -/
def dfsAllSolutionsInt : Nat → IntState → Option IntState
  | 0, _ => none
  | fuel + 1, s =>
    if (s.placedSoFar : Int) = s.totalSquares then reportSolutionInt s
    else
      match findNextEmptyInt s with
      | none => none
      | some (none, s0) => some s0
      | some (some (r, c), s0) => dfsLoopInt (dfsAllSolutionsInt fuel) r c s0.nValue s0

/-- The state set up by `main` on `int` for the input `n`: `boardSize` is
what `sumOf1toN` returns, the loop that allocates the rows of the board runs
up to `boardSize`, and `placements` has room for `totalSquares` records. -/
def initStateInt (n : Nat) (mem : Nat → PiecePlacement) : IntState :=
  { boardSize := sumOf1toNInt n
    board := List.replicate (sumOf1toNInt n).toNat (List.replicate (sumOf1toNInt n).toNat 0)
    squaresCount := (List.range n).map (fun i => i + 1)
    nValue := n
    totalSquares := sumOf1toNInt n
    placedSoFar := 0
    placements := (List.range (sumOf1toNInt n).toNat).map mem
    solutionCount := 0
    output := [] }

/-- The search as `main` runs it on `int`. -/
def runSearchInt (n : Nat) (mem : Nat → PiecePlacement) (fuel : Nat) : Option IntState :=
  if n < 1 then none else dfsAllSolutionsInt fuel (initStateInt n mem)

/-- The state of the exact model, its `boardSize` and `totalSquares` read as
`int` values. -/
def toInt (s : State) : IntState :=
  { boardSize := s.boardSize
    board := s.board
    squaresCount := s.squaresCount
    nValue := s.nValue
    totalSquares := s.totalSquares
    placedSoFar := s.placedSoFar
    placements := s.placements
    solutionCount := s.solutionCount
    output := s.output }

/-! ## Predicates used in the statements -/

/-- The board has `n` rows of `n` cells each. -/
def BoardWF (b : Board) (n : Nat) : Prop :=
  b.length = n ∧ ∀ cells ∈ b, cells.length = n

/-- The cell `(r1, c1)` lies in the `size × size` square anchored at `(r, c)`. -/
def inSquare (r c size r1 c1 : Nat) : Prop :=
  r ≤ r1 ∧ r1 < r + size ∧ c ≤ c1 ∧ c1 < c + size

instance (r c size r1 c1 : Nat) : Decidable (inSquare r c size r1 c1) := by
  unfold inSquare; infer_instance

/-- The square at `(r, c)` of side `size` fits on the board and is empty. -/
def SquareFree (s : State) (r c size : Nat) : Prop :=
  r + size ≤ s.boardSize ∧ c + size ≤ s.boardSize ∧
    ∀ i j, i < size → j < size → readCell s.board (r + i) (c + j) = some 0

/-- Row-major order on cells. -/
def cellBefore (p q : Nat × Nat) : Prop := p.1 < q.1 ∨ (p.1 = q.1 ∧ p.2 < q.2)


/-- The records of the tiles currently on the board:
`placements[0 .. placedSoFar-1]`. -/
def placed (s : State) : List PiecePlacement := s.placements.take s.placedSoFar

/-- The tile of the record `p` covers the cell `(r, c)`. -/
def covers (p : PiecePlacement) (r c : Nat) : Prop :=
  inSquare p.row p.col p.size r c

instance (p : PiecePlacement) (r c : Nat) : Decidable (covers p r c) := by
  unfold covers; infer_instance

/-- The number of records of side `k` in a list of records. -/
def countSize (l : List PiecePlacement) (k : Nat) : Nat :=
  l.countP (fun p => decide (p.size = k))

/-- The invariant of the search: the arrays have their allocated sizes, the
inventory and the records add up to the initial supply, and the board holds
exactly the footprints of the records, each filled with its identifier. -/
structure Inv (s : State) : Prop where
  hbs : s.boardSize = sumOf1toN s.nValue
  htot : s.totalSquares = s.boardSize
  hboard : BoardWF s.board s.boardSize
  hcntLen : s.squaresCount.length = s.nValue
  hplLen : s.placements.length = s.totalSquares
  hplaced : s.placedSoFar ≤ s.totalSquares
  hcount : ∀ k, k < s.nValue →
    ∃ cnt, s.squaresCount[k]? = some cnt ∧ cnt + countSize (placed s) (k + 1) = k + 1
  hsize : ∀ p ∈ placed s, 1 ≤ p.size ∧ p.size ≤ s.nValue
  hin : ∀ p ∈ placed s, p.row + p.size ≤ s.boardSize ∧ p.col + p.size ≤ s.boardSize
  hid : ∀ i p, (placed s)[i]? = some p → p.id = i + 1
  hcell : ∀ r c, r < s.boardSize → c < s.boardSize →
    ∃ v, readCell s.board r c = some v ∧ v ≤ s.placedSoFar ∧
      ∀ i p, (placed s)[i]? = some p → (covers p r c ↔ v = i + 1)

/-- The part of the state that a call of `dfsAllSolutions` hands back
unchanged: the constants, the board, the inventory, the counter of placed
tiles and the records of the placed tiles. -/
structure Frame (s t : State) : Prop where
  nValue : t.nValue = s.nValue
  boardSize : t.boardSize = s.boardSize
  totalSquares : t.totalSquares = s.totalSquares
  board : t.board = s.board
  squaresCount : t.squaresCount = s.squaresCount
  placedSoFar : t.placedSoFar = s.placedSoFar
  records : placed t = placed s
  plLen : t.placements.length = s.placements.length

/-- The record written by the loop body for a tile of side `i + 1` put at
`(r, c)` in the state `s`. -/
def newRecord (s : State) (r c i : Nat) : PiecePlacement :=
  ⟨s.placedSoFar + 1, i + 1, r, c⟩

/-- The state `t` is the state `s` after a tile of side `i + 1` was put at
`(r, c)`: what `enterTile` changes and what it keeps. -/
structure Entered (s : State) (r c i : Nat) (t : State) : Prop where
  nValue : t.nValue = s.nValue
  boardSize : t.boardSize = s.boardSize
  totalSquares : t.totalSquares = s.totalSquares
  placedSoFar : t.placedSoFar = s.placedSoFar + 1
  records : placed t = placed s ++ [newRecord s r c i]
  plLen : t.placements.length = s.placements.length
  counts : ∃ cnt, s.squaresCount[i]? = some cnt ∧ 0 < cnt ∧
    t.squaresCount = s.squaresCount.set i (cnt - 1)
  boardWF : BoardWF t.board s.boardSize
  cells : ∀ r1 c1, readCell t.board r1 c1 =
    if inSquare r c (i + 1) r1 c1 then some (s.placedSoFar + 1) else readCell s.board r1 c1

/-- The cell `(r, c)` is the first empty cell of the board in row-major order. -/
def FirstEmpty (s : State) (r c : Nat) : Prop :=
  r < s.boardSize ∧ c < s.boardSize ∧ readCell s.board r c = some 0 ∧
    ∀ r1 c1, r1 < s.boardSize → c1 < s.boardSize → cellBefore (r1, c1) (r, c) →
      readCell s.board r1 c1 ≠ some 0

/-- The loop body places a tile for the index `i` at `(r, c)`: a tile of side
`i + 1` is left in the inventory and `canPlace` accepts it. -/
def Takeable (s : State) (r c i : Nat) : Prop :=
  (∃ cnt, s.squaresCount[i]? = some cnt ∧ 0 < cnt) ∧ SquareFree s r c (i + 1)

/-- The reports of the solutions `L` when `k` solutions were reported before. -/
def number (k : Nat) : List (List PiecePlacement) → List Report
  | [] => []
  | x :: xs => ⟨k + 1, x⟩ :: number (k + 1) xs

/-- A property `P s L` of a state `s` and of the list `L` of the solutions
that the search reports from `s` is closed under the three ways a call of
`dfsAllSolutions` ends: at a full board, at a dead end, and after the loop
over the sizes at the first empty cell. -/
structure Closed (P : State → List (List PiecePlacement) → Prop) : Prop where
  full : ∀ s, Inv s → s.placedSoFar = s.totalSquares → P s [placed s]
  dead : ∀ s, Inv s → s.placedSoFar ≠ s.totalSquares →
    (∀ r c, r < s.boardSize → c < s.boardSize → readCell s.board r c ≠ some 0) → P s []
  branch : ∀ s r c (Ls : Nat → List (List PiecePlacement)), Inv s →
    s.placedSoFar ≠ s.totalSquares → FirstEmpty s r c →
    (∀ i, i < s.nValue →
      (Takeable s r c i → ∃ t, Entered s r c i t ∧ Inv t ∧ P t (Ls i)) ∧
      (¬ Takeable s r c i → Ls i = [])) →
    P s ((List.range s.nValue).reverse.flatMap Ls)

/-- The result `res` of running a piece of the search from `s`: it returns a
state `t` that agrees with `s` on the frame, and the reports it appended are
those of a list `L` of solutions with the property `Q`. -/
def Returns (Q : List (List PiecePlacement) → Prop) (s : State) (res : Option State) : Prop :=
  ∃ t L, res = some t ∧ Frame s t ∧ t.output = s.output ++ number s.solutionCount L ∧
    t.solutionCount = s.solutionCount + L.length ∧ Q L

/-- The set of the cells covered by the tile of a record. -/
def footprint (p : PiecePlacement) : Finset (Nat × Nat) :=
  Finset.Ico p.row (p.row + p.size) ×ˢ Finset.Ico p.col (p.col + p.size)

/-- The set of the cells covered by the tiles of a list of records. -/
def footprints : List PiecePlacement → Finset (Nat × Nat)
  | [] => ∅
  | p :: rest => footprint p ∪ footprints rest

/-- The list `sol` is the list of the records of a state of the search for
`n` in which all tiles are placed. -/
def FullRecords (n : Nat) (sol : List PiecePlacement) : Prop :=
  ∃ t, Inv t ∧ t.nValue = n ∧ t.placedSoFar = t.totalSquares ∧ placed t = sol

/-- The squares of `sol` tile the board of side `bs` exactly: every square
lies inside the board, no two squares share a cell, and every cell of the
board is covered by exactly one square. -/
def ExactTiling (bs : Nat) (sol : List PiecePlacement) : Prop :=
  (∀ p ∈ sol, p.row + p.size ≤ bs ∧ p.col + p.size ≤ bs) ∧
  (∀ (i j : Nat) p q, sol[i]? = some p → sol[j]? = some q → i ≠ j →
    ∀ r c, ¬ (covers p r c ∧ covers q r c)) ∧
  (∀ r c, r < bs → c < bs → ∃! i : Nat, ∃ p, sol[i]? = some p ∧ covers p r c)

/-- The square `(size, row, col)` of a record. -/
def squareOf (p : PiecePlacement) : Nat × Nat × Nat := (p.size, p.row, p.col)

/-- The square `t = (size, row, col)` covers the cell `(r, c)`. -/
def squareCovers (t : Nat × Nat × Nat) (r c : Nat) : Prop :=
  inSquare t.2.1 t.2.2 t.1 r c

/-- The set of the cells covered by a square `(size, row, col)`. -/
def squareCells (t : Nat × Nat × Nat) : Finset (Nat × Nat) :=
  Finset.Ico t.2.1 (t.2.1 + t.1) ×ˢ Finset.Ico t.2.2 (t.2.2 + t.1)

/-- The set `T` of squares `(size, row, col)` is a valid tiling of the board
for `n`: the squares have a positive side, lie inside the board, are pairwise
non-overlapping, cover every cell, and exactly `k` of them have side `k` for
each `k` in `1..n`. -/
structure ValidTiling (n : Nat) (T : Finset (Nat × Nat × Nat)) : Prop where
  positive : ∀ t ∈ T, 1 ≤ t.1
  inside : ∀ t ∈ T, t.2.1 + t.1 ≤ sumOf1toN n ∧ t.2.2 + t.1 ≤ sumOf1toN n
  disjoint : ∀ t ∈ T, ∀ u ∈ T, t ≠ u → ∀ r c, ¬ (squareCovers t r c ∧ squareCovers u r c)
  cover : ∀ r c, r < sumOf1toN n → c < sumOf1toN n → ∃ t ∈ T, squareCovers t r c
  counts : ∀ k, 1 ≤ k → k ≤ n → (T.filter (fun t => t.1 = k)).card = k

/-- The list `L` of solutions holds every valid tiling that extends the tiles
placed in `s`. -/
def ReportsAll (s : State) (L : List (List PiecePlacement)) : Prop :=
  ∀ T, ValidTiling s.nValue T → (∀ p ∈ placed s, squareOf p ∈ T) →
    ∃ sol ∈ L, (sol.map squareOf).toFinset = T

/-- The loop of `dfsAllSolutions` at the cell `(r, c)`, started with the
counter `k` in the state `s`, reaches the head of the iteration with the
counter `j` in the state `t`. -/
inductive LoopAt (call : State → Option State) (r c : Nat) (k : Nat) (s : State) :
    Nat → State → Prop
  | start : LoopAt call r c k s k s
  | step {j : Nat} {t t1 : State} :
      LoopAt call r c k s (j + 1) t → dfsBody call r c j t = some t1 →
      LoopAt call r c k s j t1

/-- The states in which `dfsAllSolutions` is entered during the search that
`main` runs for the input `n`: the initial state, and every state in which the
loop body of a reachable call makes its recursive call. -/
inductive Reachable (n : Nat) (mem : Nat → PiecePlacement) : State → Prop
  | top : Reachable n mem (initState n mem)
  | call {s s0 t t0 u : State} {r c i fuel cnt : Nat} :
      Reachable n mem s → s.placedSoFar ≠ s.totalSquares →
      findNextEmpty s = some (some (r, c), s0) →
      LoopAt (dfsAllSolutions fuel) r c s0.nValue s0 (i + 1) t →
      t.squaresCount[i]? = some cnt → cnt > 0 →
      canPlace t r c (i + 1) = some (true, t0) →
      enterTile t0 r c i = some u →
      Reachable n mem u

/-- The state obtained by placing the tiles of the records `l`, in order, with
`fillSquare`, each tile filled with its identifier. -/
def placeAll (s : State) : List PiecePlacement → Option State
  | [] => some s
  | p :: rest =>
    match fillSquare s p.row p.col p.size p.id with
    | none => none
    | some s1 => placeAll s1 rest

/-! ## Call sites and the states the search goes through -/

/-- A call site of the search for `n`: in the call of `dfsAllSolutions`
entered in the state `s`, `findNextEmpty` returns the cell `(r, c)`, the loop
reaches the index `i` in the state `w`, a tile of side `i + 1` is left and
`canPlace` accepts it, and the loop body enters the recursive call in the
state `u`. -/
structure CallSite (n : Nat) (mem : Nat → PiecePlacement) (s : State) (r c i : Nat)
    (w u : State) : Prop where
  entry : Reachable n mem s
  notFull : s.placedSoFar ≠ s.totalSquares
  find : findNextEmpty s = some (some (r, c), s)
  loop : ∃ fuel, LoopAt (dfsAllSolutions fuel) r c s.nValue s (i + 1) w
  count : ∃ cnt, w.squaresCount[i]? = some cnt ∧ cnt > 0
  can : canPlace w r c (i + 1) = some (true, w)
  enter : enterTile w r c i = some u

/-- A property `P s L` of a state `s` in which `dfsAllSolutions` is entered
during the search for `n` and of the list `L` of the solutions reported by
that call is closed under the two ways such a call ends: at a full board, and
after the loop over the sizes at the first empty cell, each recursive call
being made at a call site. -/
structure ClosedAt (n : Nat) (mem : Nat → PiecePlacement)
    (P : State → List (List PiecePlacement) → Prop) : Prop where
  full : ∀ s, Reachable n mem s → s.placedSoFar = s.totalSquares → P s [placed s]
  branch : ∀ s r c (Ls : Nat → List (List PiecePlacement)), Reachable n mem s →
    s.placedSoFar ≠ s.totalSquares → FirstEmpty s r c →
    (∀ i, i < s.nValue →
      (Takeable s r c i → ∃ w u, CallSite n mem s r c i w u ∧ P u (Ls i)) ∧
      (¬ Takeable s r c i → Ls i = [])) →
    P s ((List.range s.nValue).reverse.flatMap Ls)

/-- The states the search for `n` goes through between its steps: the state
in which a call of `dfsAllSolutions` is entered, the state at the head of an
iteration of its loop, and the state in which a call returns. -/
inductive Visited (n : Nat) (mem : Nat → PiecePlacement) : State → Prop
  | entry {s : State} : Reachable n mem s → Visited n mem s
  | loopHead {s w : State} {r c k fuel : Nat} :
      Reachable n mem s → s.placedSoFar ≠ s.totalSquares →
      findNextEmpty s = some (some (r, c), s) →
      LoopAt (dfsAllSolutions fuel) r c s.nValue s k w → Visited n mem w
  | exit {s t : State} {fuel : Nat} :
      Reachable n mem s → dfsAllSolutions fuel s = some t → Visited n mem t

/-- The search path to a call: `SearchPath n mem sq u` says that the call of
`dfsAllSolutions` entered in the state `u` is reached from the top-level call
through the recursive calls whose loop bodies placed, in this order, the
squares `sq`, each given as `(size, row, col)`: the `k`-th of them by
`fillSquare(row, col, size, k)`. -/
inductive SearchPath (n : Nat) (mem : Nat → PiecePlacement) :
    List (Nat × Nat × Nat) → State → Prop
  | top : SearchPath n mem [] (initState n mem)
  | call {sq : List (Nat × Nat × Nat)} {s w u : State} {r c i : Nat} :
      SearchPath n mem sq s → CallSite n mem s r c i w u →
      SearchPath n mem (sq ++ [(i + 1, r, c)]) u

/-- The solution `sol` is reported by a call of the search for `n` that was
entered, along the search path `sq`, in the state `u` with all tiles placed. -/
def ReportedFrom (n : Nat) (mem : Nat → PiecePlacement) (sol : List PiecePlacement)
    (sq : List (Nat × Nat × Nat)) (u : State) : Prop :=
  SearchPath n mem sq u ∧ u.placedSoFar = u.totalSquares ∧
    sol = u.placements.take u.totalSquares

/-- The solution `A` comes before the solution `B` in the order of emission:
the two placement sequences agree on their first `j` records, and at the
position `j` both have a tile anchored at the same cell, that of `A` the
larger one. -/
def EmittedBefore (A B : List PiecePlacement) : Prop :=
  ∃ (j : Nat) (p q : PiecePlacement), A.take j = B.take j ∧
    A[j]? = some p ∧ B[j]? = some q ∧ q.size < p.size ∧ p.row = q.row ∧ p.col = q.col

/-- The solutions `L` reported from `s` extend the records of `s` and are in
the order of emission. -/
def Ordered (s : State) (L : List (List PiecePlacement)) : Prop :=
  (∀ sol ∈ L, ∃ rest, sol = placed s ++ rest) ∧ L.Pairwise EmittedBefore

/-- The top-left corner of the record `p` is before that of `q` in row-major
order. -/
def cornerBefore (p q : PiecePlacement) : Prop :=
  cellBefore (p.row, p.col) (q.row, q.col)

/-- The same order on squares `(size, row, col)`. -/
def squareBefore (t u : Nat × Nat × Nat) : Prop :=
  cellBefore (t.2.1, t.2.2) (u.2.1, u.2.2)

/-- The placed tiles are in canonical order: their top-left corners increase
in row-major order, and every cell before the corner of a placed tile is
taken. -/
structure Canonical (s : State) : Prop where
  sorted : (placed s).Pairwise cornerBefore
  filled : ∀ p ∈ placed s, ∀ r c, r < s.boardSize → c < s.boardSize →
    cellBefore (r, c) (p.row, p.col) → readCell s.board r c ≠ some 0

/-- The geometry of the drawing of the record `p` with the rectangle placed
at `x = col * cellSize`, `y = row * cellSize`. -/
def SvgAtOrigin (p : PiecePlacement) : Prop :=
  (svgRect p).x = p.col * cellSize ∧ (svgRect p).y = p.row * cellSize ∧
  (svgRect p).width = p.size * cellSize ∧ (svgRect p).height = p.size * cellSize ∧
  (svgText p).label = p.size ∧
  2 * (svgText p).x = 2 * (svgRect p).x + (svgRect p).width ∧
  2 * (svgText p).y = 2 * (svgRect p).y + (svgRect p).height

instance (p : PiecePlacement) : Decidable (SvgAtOrigin p) := by
  unfold SvgAtOrigin; infer_instance

/-- The sums `r + size` and `c + size` that `canPlace` computes in the state
`s` fit an `int`: `boardSize + nValue` is below `2^31`. -/
def FitsInt (s : State) : Prop := s.boardSize + s.nValue < 2147483648

/-! ## The states the program on `int` goes through -/

/-- The loop of `dfsAllSolutions` on `int` at the cell `(r, c)`, started with
the counter `k` in the state `s`, reaches the head of the iteration with the
counter `j` in the state `t`. -/
inductive LoopAtInt (call : IntState → Option IntState) (r c : Nat) (k : Nat) (s : IntState) :
    Nat → IntState → Prop
  | start : LoopAtInt call r c k s k s
  | step {j : Nat} {t t1 : IntState} :
      LoopAtInt call r c k s (j + 1) t → dfsBodyInt call r c j t = some t1 →
      LoopAtInt call r c k s j t1

/-- The states in which `dfsAllSolutions` is entered during the search that
`main` runs on `int` for the input `n`: the initial state, and every state in
which the loop body of a reachable call makes its recursive call. -/
inductive ReachableInt (n : Nat) (mem : Nat → PiecePlacement) : IntState → Prop
  | top : ReachableInt n mem (initStateInt n mem)
  | call {s s0 t t0 u : IntState} {r c i fuel cnt : Nat} :
      ReachableInt n mem s → (s.placedSoFar : Int) ≠ s.totalSquares →
      findNextEmptyInt s = some (some (r, c), s0) →
      LoopAtInt (dfsAllSolutionsInt fuel) r c s0.nValue s0 (i + 1) t →
      t.squaresCount[i]? = some cnt → cnt > 0 →
      canPlaceInt t r c (i + 1) = some (true, t0) →
      enterTileInt t0 r c i = some u →
      ReachableInt n mem u

/-- A call site of the search on `int` for `n`: in the call of
`dfsAllSolutions` entered in the state `s`, `findNextEmpty` returns the cell
`(r, c)`, the loop reaches the index `i` in the state `w`, a tile of side
`i + 1` is left and `canPlace` accepts it, and the loop body enters the
recursive call in the state `u`. -/
structure CallSiteInt (n : Nat) (mem : Nat → PiecePlacement) (s : IntState) (r c i : Nat)
    (w u : IntState) : Prop where
  entry : ReachableInt n mem s
  notFull : (s.placedSoFar : Int) ≠ s.totalSquares
  find : findNextEmptyInt s = some (some (r, c), s)
  loop : ∃ fuel, LoopAtInt (dfsAllSolutionsInt fuel) r c s.nValue s (i + 1) w
  count : ∃ cnt, w.squaresCount[i]? = some cnt ∧ cnt > 0
  can : canPlaceInt w r c (i + 1) = some (true, w)
  enter : enterTileInt w r c i = some u

/-- The states the search on `int` for `n` goes through between its steps:
the state in which a call of `dfsAllSolutions` is entered, the state at the
head of an iteration of its loop, and the state in which a call returns. -/
inductive VisitedInt (n : Nat) (mem : Nat → PiecePlacement) : IntState → Prop
  | entry {s : IntState} : ReachableInt n mem s → VisitedInt n mem s
  | loopHead {s w : IntState} {r c k fuel : Nat} :
      ReachableInt n mem s → (s.placedSoFar : Int) ≠ s.totalSquares →
      findNextEmptyInt s = some (some (r, c), s) →
      LoopAtInt (dfsAllSolutionsInt fuel) r c s.nValue s k w → VisitedInt n mem w
  | exit {s t : IntState} {fuel : Nat} :
      ReachableInt n mem s → dfsAllSolutionsInt fuel s = some t → VisitedInt n mem t

/-- The search path to a call of the search on `int`: the call of
`dfsAllSolutions` entered in the state `u` is reached from the top-level call
through the recursive calls whose loop bodies placed, in this order, the
squares `sq`, each given as `(size, row, col)`. -/
inductive SearchPathInt (n : Nat) (mem : Nat → PiecePlacement) :
    List (Nat × Nat × Nat) → IntState → Prop
  | top : SearchPathInt n mem [] (initStateInt n mem)
  | call {sq : List (Nat × Nat × Nat)} {s w u : IntState} {r c i : Nat} :
      SearchPathInt n mem sq s → CallSiteInt n mem s r c i w u →
      SearchPathInt n mem (sq ++ [(i + 1, r, c)]) u

/-! ## Two tilings for `n = 8` -/

/-- The tiles of the records `p` and `q` are apart: one lies wholly above,
below, left or right of the other. -/
def apart (p q : PiecePlacement) : Prop :=
  p.row + p.size ≤ q.row ∨ q.row + q.size ≤ p.row ∨
    p.col + p.size ≤ q.col ∨ q.col + q.size ≤ p.col

instance (p q : PiecePlacement) : Decidable (apart p q) := by
  unfold apart; infer_instance

instance (p q : PiecePlacement) : Decidable (cornerBefore p q) := by
  unfold cornerBefore cellBefore; infer_instance

/-- A tiling of the `36 × 36` board for `n = 8`, its records `{id, size, row,
col}` in row-major order of the top-left corners: the first row starts with
four tiles of side 8. -/
def tilingEightA : List PiecePlacement :=
  [
    ⟨1, 8, 0, 0⟩, ⟨2, 8, 0, 8⟩, ⟨3, 8, 0, 16⟩, ⟨4, 8, 0, 24⟩,
    ⟨5, 4, 0, 32⟩, ⟨6, 4, 4, 32⟩, ⟨7, 8, 8, 0⟩, ⟨8, 8, 8, 8⟩,
    ⟨9, 8, 8, 16⟩, ⟨10, 6, 8, 24⟩, ⟨11, 6, 8, 30⟩, ⟨12, 5, 14, 24⟩,
    ⟨13, 7, 14, 29⟩, ⟨14, 6, 16, 0⟩, ⟨15, 3, 16, 6⟩, ⟨16, 8, 16, 9⟩,
    ⟨17, 7, 16, 17⟩, ⟨18, 3, 19, 6⟩, ⟨19, 5, 19, 24⟩, ⟨20, 7, 21, 29⟩,
    ⟨21, 7, 22, 0⟩, ⟨22, 2, 22, 7⟩, ⟨23, 1, 23, 17⟩, ⟨24, 6, 23, 18⟩,
    ⟨25, 6, 24, 7⟩, ⟨26, 5, 24, 13⟩, ⟨27, 5, 24, 24⟩, ⟨28, 3, 28, 29⟩,
    ⟨29, 4, 28, 32⟩, ⟨30, 7, 29, 0⟩, ⟨31, 7, 29, 13⟩, ⟨32, 7, 29, 20⟩,
    ⟨33, 2, 29, 27⟩, ⟨34, 6, 30, 7⟩, ⟨35, 5, 31, 27⟩, ⟨36, 4, 32, 32⟩
  ]

/-- Another tiling of the `36 × 36` board for `n = 8`, in the same form: the
first row starts with five tiles of side 5. -/
def tilingEightB : List PiecePlacement :=
  [
    ⟨1, 5, 0, 0⟩, ⟨2, 5, 0, 5⟩, ⟨3, 5, 0, 10⟩, ⟨4, 5, 0, 15⟩,
    ⟨5, 5, 0, 20⟩, ⟨6, 4, 0, 25⟩, ⟨7, 7, 0, 29⟩, ⟨8, 1, 4, 25⟩,
    ⟨9, 3, 4, 26⟩, ⟨10, 7, 5, 0⟩, ⟨11, 7, 5, 7⟩, ⟨12, 8, 5, 14⟩,
    ⟨13, 4, 5, 22⟩, ⟨14, 2, 7, 26⟩, ⟨15, 2, 7, 28⟩, ⟨16, 6, 7, 30⟩,
    ⟨17, 4, 9, 22⟩, ⟨18, 4, 9, 26⟩, ⟨19, 8, 12, 0⟩, ⟨20, 6, 12, 8⟩,
    ⟨21, 7, 13, 14⟩, ⟨22, 7, 13, 21⟩, ⟨23, 8, 13, 28⟩, ⟨24, 6, 18, 8⟩,
    ⟨25, 8, 20, 0⟩, ⟨26, 8, 20, 14⟩, ⟨27, 3, 20, 22⟩, ⟨28, 3, 20, 25⟩,
    ⟨29, 8, 21, 28⟩, ⟨30, 6, 23, 22⟩, ⟨31, 6, 24, 8⟩, ⟨32, 8, 28, 0⟩,
    ⟨33, 8, 28, 14⟩, ⟨34, 7, 29, 22⟩, ⟨35, 7, 29, 29⟩, ⟨36, 6, 30, 8⟩
  ]

/-! ## The board primitives -/

theorem readCell_of_wf {b : Board} {n r c : Nat} (hb : BoardWF b n) (hr : r < n) (hc : c < n) :
    ∃ v, readCell b r c = some v := by
  obtain ⟨hlen, hrows⟩ := hb
  have hr2 : r < b.length := by omega
  have hmem : b[r] ∈ b := List.getElem_mem hr2
  have hc2 : c < (b[r]).length := by rw [hrows _ hmem]; exact hc
  refine ⟨(b[r])[c], ?_⟩
  simp [readCell, List.getElem?_eq_getElem hr2, List.getElem?_eq_getElem hc2]

theorem readCell_bounds {b : Board} {n r c v : Nat} (hb : BoardWF b n)
    (h : readCell b r c = some v) : r < n ∧ c < n := by
  obtain ⟨hlen, hrows⟩ := hb
  unfold readCell at h
  cases hbr : b[r]? with
  | none => simp [hbr] at h
  | some cells =>
    simp only [hbr] at h
    obtain ⟨hr2, hget⟩ := List.getElem?_eq_some_iff.mp hbr
    obtain ⟨hc2, _⟩ := List.getElem?_eq_some_iff.mp h
    have hmem : cells ∈ b := hget ▸ List.getElem_mem hr2
    rw [hrows _ hmem] at hc2
    exact ⟨by omega, hc2⟩

theorem writeCell_spec {b : Board} {n r c : Nat} (v : Nat) (hb : BoardWF b n)
    (hr : r < n) (hc : c < n) :
    ∃ b1, writeCell b r c v = some b1 ∧ BoardWF b1 n ∧
      ∀ r1 c1, readCell b1 r1 c1 = if r1 = r ∧ c1 = c then some v else readCell b r1 c1 := by
  obtain ⟨hlen, hrows⟩ := hb
  have hr2 : r < b.length := by omega
  have hmem : b[r] ∈ b := List.getElem_mem hr2
  have hc2 : c < (b[r]).length := by rw [hrows _ hmem]; exact hc
  refine ⟨b.set r ((b[r]).set c v), ?_, ⟨?_, ?_⟩, ?_⟩
  · simp [writeCell, List.getElem?_eq_getElem hr2, hc2]
  · simpa using hlen
  · intro cells hcells
    rcases List.mem_or_eq_of_mem_set hcells with h | h
    · exact hrows _ h
    · rw [h, List.length_set]; exact hrows _ hmem
  · intro r1 c1
    unfold readCell
    by_cases h1 : r1 = r
    · subst h1
      by_cases h2 : c1 = c
      · subst h2
        simp [List.getElem?_set, hr2, hc2]
      · have h2b : ¬ c = c1 := fun h => h2 h.symm
        simp [List.getElem?_set, hr2, h2, h2b, List.getElem?_eq_getElem hr2]
    · have h1b : ¬ r = r1 := fun h => h1 h.symm
      simp [List.getElem?_set, h1, h1b]

theorem board_ext {b b1 : Board} {n : Nat} (hb : BoardWF b n) (hb1 : BoardWF b1 n)
    (h : ∀ r c, r < n → c < n → readCell b r c = readCell b1 r c) : b = b1 := by
  obtain ⟨hlen, hrows⟩ := hb
  obtain ⟨hlen1, hrows1⟩ := hb1
  apply List.ext_getElem (by omega)
  intro r hr hr1
  have hm : b[r] ∈ b := List.getElem_mem hr
  have hm1 : b1[r] ∈ b1 := List.getElem_mem hr1
  apply List.ext_getElem (by rw [hrows _ hm, hrows1 _ hm1])
  intro c hc hc1
  have hrc := h r c (by omega) (by rw [hrows _ hm] at hc; exact hc)
  simp only [readCell, List.getElem?_eq_getElem hr, List.getElem?_eq_getElem hr1,
    List.getElem?_eq_getElem hc, List.getElem?_eq_getElem hc1] at hrc
  exact Option.some.inj hrc

theorem mem_loopIndices {size : Nat} {p : Nat × Nat} :
    p ∈ loopIndices size ↔ p.1 < size ∧ p.2 < size := by
  obtain ⟨a, b⟩ := p
  simp [loopIndices, List.pair_mem_product]

theorem inSquare_iff_loopIndices {r c size r1 c1 : Nat} :
    (∃ p ∈ loopIndices size, r1 = r + p.1 ∧ c1 = c + p.2) ↔ inSquare r c size r1 c1 := by
  constructor
  · rintro ⟨p, hp, h1, h2⟩
    rw [mem_loopIndices] at hp
    unfold inSquare; omega
  · intro h
    unfold inSquare at h
    refine ⟨(r1 - r, c1 - c), mem_loopIndices.mpr ⟨?_, ?_⟩, ?_, ?_⟩ <;> simp <;> omega

theorem fillSquareLoop_spec {n : Nat} (r c val : Nat) (l : List (Nat × Nat)) :
    ∀ (b : Board), BoardWF b n → (∀ p ∈ l, r + p.1 < n ∧ c + p.2 < n) →
    ∃ b1, fillSquareLoop r c val l b = some b1 ∧ BoardWF b1 n ∧
      ∀ r1 c1, readCell b1 r1 c1 =
        if (∃ p ∈ l, r1 = r + p.1 ∧ c1 = c + p.2) then some val else readCell b r1 c1 := by
  induction l with
  | nil => intro b hb _; exact ⟨b, rfl, hb, by simp⟩
  | cons p rest ih =>
    intro b hb hl
    obtain ⟨rr, cc⟩ := p
    have hp := hl (rr, cc) (List.mem_cons_self _ _)
    obtain ⟨b1, hw, hb1, hread1⟩ := writeCell_spec val hb hp.1 hp.2
    obtain ⟨b2, hf, hb2, hread2⟩ := ih b1 hb1 (fun q hq => hl q (List.mem_cons_of_mem _ hq))
    refine ⟨b2, ?_, hb2, ?_⟩
    · simp [fillSquareLoop, hw, hf]
    · intro r1 c1
      rw [hread2 r1 c1, hread1 r1 c1]
      by_cases h1 : ∃ q ∈ rest, r1 = r + q.1 ∧ c1 = c + q.2
      · have h2 : ∃ q ∈ (rr, cc) :: rest, r1 = r + q.1 ∧ c1 = c + q.2 := by
          obtain ⟨q, hq, h⟩ := h1
          exact ⟨q, List.mem_cons_of_mem _ hq, h⟩
        rw [if_pos h1, if_pos h2]
      · rw [if_neg h1]
        by_cases h3 : r1 = r + rr ∧ c1 = c + cc
        · have h2 : ∃ q ∈ (rr, cc) :: rest, r1 = r + q.1 ∧ c1 = c + q.2 :=
            ⟨(rr, cc), List.mem_cons_self _ _, h3⟩
          rw [if_pos h3, if_pos h2]
        · have h2 : ¬ ∃ q ∈ (rr, cc) :: rest, r1 = r + q.1 ∧ c1 = c + q.2 := by
            rintro ⟨q, hq, h⟩
            rcases List.mem_cons.mp hq with rfl | hq
            · exact h3 h
            · exact h1 ⟨q, hq, h⟩
          rw [if_neg h3, if_neg h2]

theorem fillSquare_spec {s : State} {n r c size : Nat} (val : Nat)
    (hb : BoardWF s.board n) (hr : r + size ≤ n) (hc : c + size ≤ n) :
    ∃ b1, fillSquare s r c size val = some { s with board := b1 } ∧ BoardWF b1 n ∧
      ∀ r1 c1, readCell b1 r1 c1 =
        if inSquare r c size r1 c1 then some val else readCell s.board r1 c1 := by
  have hl : ∀ p ∈ loopIndices size, r + p.1 < n ∧ c + p.2 < n := by
    intro p hp
    rw [mem_loopIndices] at hp
    omega
  obtain ⟨b1, hf, hb1, hread⟩ := fillSquareLoop_spec r c val (loopIndices size) s.board hb hl
  refine ⟨b1, by simp [fillSquare, hf], hb1, ?_⟩
  intro r1 c1
  rw [hread r1 c1]
  by_cases h : inSquare r c size r1 c1
  · rw [if_pos h, if_pos (inSquare_iff_loopIndices.mpr h)]
  · rw [if_neg h, if_neg (fun h1 => h (inSquare_iff_loopIndices.mp h1))]

theorem canPlaceLoop_spec {n : Nat} {b : Board} (hb : BoardWF b n) (r c : Nat)
    (l : List (Nat × Nat)) (hl : ∀ p ∈ l, r + p.1 < n ∧ c + p.2 < n) :
    ∃ ok, canPlaceLoop b r c l = some ok ∧
      (ok = true ↔ ∀ p ∈ l, readCell b (r + p.1) (c + p.2) = some 0) := by
  induction l with
  | nil => exact ⟨true, rfl, by simp⟩
  | cons p rest ih =>
    obtain ⟨rr, cc⟩ := p
    have hp := hl (rr, cc) (List.mem_cons_self _ _)
    obtain ⟨v, hv⟩ := readCell_of_wf hb hp.1 hp.2
    obtain ⟨ok, hok, hiff⟩ := ih (fun q hq => hl q (List.mem_cons_of_mem _ hq))
    by_cases h0 : v = 0
    · subst h0
      refine ⟨ok, by simp [canPlaceLoop, hv, hok], ?_⟩
      rw [hiff]
      constructor
      · intro h q hq
        rcases List.mem_cons.mp hq with rfl | hq
        · exact hv
        · exact h q hq
      · intro h q hq
        exact h q (List.mem_cons_of_mem _ hq)
    · refine ⟨false, by simp [canPlaceLoop, hv, h0], ?_⟩
      constructor
      · intro h; cases h
      · intro h
        have := h (rr, cc) (List.mem_cons_self _ _)
        rw [hv] at this
        exact absurd (Option.some.inj this) h0

theorem canPlace_spec {s : State} (hb : BoardWF s.board s.boardSize) (r c size : Nat) :
    ∃ ok, canPlace s r c size = some (ok, s) ∧ (ok = true ↔ SquareFree s r c size) := by
  by_cases hout : r + size > s.boardSize ∨ c + size > s.boardSize
  · refine ⟨false, by simp [canPlace, hout], ?_⟩
    constructor
    · intro h; cases h
    · intro h
      unfold SquareFree at h
      omega
  · have hl : ∀ p ∈ loopIndices size, r + p.1 < s.boardSize ∧ c + p.2 < s.boardSize := by
      intro p hp
      rw [mem_loopIndices] at hp
      omega
    obtain ⟨ok, hok, hiff⟩ := canPlaceLoop_spec hb r c (loopIndices size) hl
    refine ⟨ok, by simp [canPlace, hout, hok], ?_⟩
    rw [hiff]
    unfold SquareFree
    constructor
    · intro h
      refine ⟨by omega, by omega, ?_⟩
      intro i j hi hj
      exact h (i, j) (mem_loopIndices.mpr ⟨hi, hj⟩)
    · intro h p hp
      rw [mem_loopIndices] at hp
      exact h.2.2 p.1 p.2 hp.1 hp.2

theorem loopIndices_pairwise (n : Nat) : (loopIndices n).Pairwise cellBefore := by
  unfold loopIndices List.product
  rw [List.pairwise_flatMap]
  refine ⟨?_, ?_⟩
  · intro a _
    rw [List.pairwise_map]
    exact (List.pairwise_lt_range n).imp (fun h => Or.inr ⟨rfl, h⟩)
  · refine (List.pairwise_lt_range n).imp ?_
    intro a b hab p hp q hq
    simp only [List.mem_map] at hp hq
    obtain ⟨_, _, rfl⟩ := hp
    obtain ⟨_, _, rfl⟩ := hq
    exact Or.inl hab

theorem findNextEmptyLoop_spec {n : Nat} {b : Board} (hb : BoardWF b n)
    (l : List (Nat × Nat)) (hl : ∀ p ∈ l, p.1 < n ∧ p.2 < n) :
    (findNextEmptyLoop b l = some none ∧ ∀ p ∈ l, readCell b p.1 p.2 ≠ some 0) ∨
    (∃ l1 p l2, l = l1 ++ p :: l2 ∧ findNextEmptyLoop b l = some (some p) ∧
      readCell b p.1 p.2 = some 0 ∧ ∀ q ∈ l1, readCell b q.1 q.2 ≠ some 0) := by
  induction l with
  | nil => left; exact ⟨rfl, by simp⟩
  | cons p rest ih =>
    obtain ⟨rr, cc⟩ := p
    have hp := hl (rr, cc) (List.mem_cons_self _ _)
    obtain ⟨v, hv⟩ := readCell_of_wf hb hp.1 hp.2
    by_cases h0 : v = 0
    · subst h0
      right
      exact ⟨[], (rr, cc), rest, rfl, by simp [findNextEmptyLoop, hv], hv, by simp⟩
    · have hne : readCell b rr cc ≠ some 0 := by
        rw [hv]; intro h; exact h0 (Option.some.inj h)
      rcases ih (fun q hq => hl q (List.mem_cons_of_mem _ hq)) with ⟨h1, h2⟩ | ⟨l1, q, l2, h1, h2, h3, h4⟩
      · left
        refine ⟨by simp [findNextEmptyLoop, hv, h0, h1], ?_⟩
        intro q hq
        rcases List.mem_cons.mp hq with rfl | hq
        · exact hne
        · exact h2 q hq
      · right
        refine ⟨(rr, cc) :: l1, q, l2, by simp [h1], by simp [findNextEmptyLoop, hv, h0, h2], h3, ?_⟩
        intro q1 hq1
        rcases List.mem_cons.mp hq1 with rfl | hq1
        · exact hne
        · exact h4 q1 hq1

/-- What `findNextEmpty` returns on a well-formed board: the state is
unchanged, `none` exactly when no cell is empty, and otherwise the first empty
cell in row-major order. -/
theorem findNextEmpty_spec {s : State} (hb : BoardWF s.board s.boardSize) :
    ∃ res, findNextEmpty s = some (res, s) ∧
      (res = none → ∀ r c, r < s.boardSize → c < s.boardSize → readCell s.board r c ≠ some 0) ∧
      (∀ r c, res = some (r, c) → r < s.boardSize ∧ c < s.boardSize ∧
        readCell s.board r c = some 0 ∧
        ∀ r1 c1, r1 < s.boardSize → c1 < s.boardSize → cellBefore (r1, c1) (r, c) →
          readCell s.board r1 c1 ≠ some 0) := by
  have hl : ∀ p ∈ loopIndices s.boardSize, p.1 < s.boardSize ∧ p.2 < s.boardSize :=
    fun p hp => mem_loopIndices.mp hp
  rcases findNextEmptyLoop_spec hb (loopIndices s.boardSize) hl with
    ⟨h1, h2⟩ | ⟨l1, p, l2, h1, h2, h3, h4⟩
  · refine ⟨none, by simp [findNextEmpty, h1], ?_, ?_⟩
    · intro _ r c hr hc
      exact h2 (r, c) (mem_loopIndices.mpr ⟨hr, hc⟩)
    · intro r c h; cases h
  · refine ⟨some p, by simp [findNextEmpty, h2], ?_, ?_⟩
    · intro h; cases h
    · intro r c hrc
      obtain rfl : p = (r, c) := Option.some.inj hrc
      have hmem : (r, c) ∈ loopIndices s.boardSize := by rw [h1]; simp
      have hbd := mem_loopIndices.mp hmem
      refine ⟨hbd.1, hbd.2, h3, ?_⟩
      intro r1 c1 hr1 hc1 hlt
      have hq : (r1, c1) ∈ loopIndices s.boardSize := mem_loopIndices.mpr ⟨hr1, hc1⟩
      have hpw := loopIndices_pairwise s.boardSize
      rw [h1] at hq hpw
      rw [List.pairwise_append] at hpw
      obtain ⟨_, hpw2, _⟩ := hpw
      rcases List.mem_append.mp hq with hq | hq
      · exact h4 _ hq
      · exfalso
        rcases List.mem_cons.mp hq with heq | hq
        · cases heq
          unfold cellBefore at hlt; simp at hlt
        · have := List.rel_of_pairwise_cons hpw2 hq
          unfold cellBefore at hlt this
          simp at hlt this
          omega

/-! ## The invariant and the frame of a call -/

theorem Frame.refl (s : State) : Frame s s := ⟨rfl, rfl, rfl, rfl, rfl, rfl, rfl, rfl⟩

theorem Frame.trans {s t u : State} (h1 : Frame s t) (h2 : Frame t u) : Frame s u :=
  ⟨h2.nValue.trans h1.nValue, h2.boardSize.trans h1.boardSize,
   h2.totalSquares.trans h1.totalSquares, h2.board.trans h1.board,
   h2.squaresCount.trans h1.squaresCount, h2.placedSoFar.trans h1.placedSoFar,
   h2.records.trans h1.records, h2.plLen.trans h1.plLen⟩

theorem inv_of_frame {s t : State} (hs : Inv s) (h : Frame s t) : Inv t := by
  obtain ⟨h1, h2, h3, h4, h5, h6, h7, h8⟩ := h
  constructor
  · rw [h2, h1]; exact hs.hbs
  · rw [h3, h2]; exact hs.htot
  · rw [h4, h2]; exact hs.hboard
  · rw [h5, h1]; exact hs.hcntLen
  · rw [h8, h3]; exact hs.hplLen
  · rw [h6, h3]; exact hs.hplaced
  · rw [h5, h1, h7]; exact hs.hcount
  · rw [h7, h1]; exact hs.hsize
  · rw [h7, h2]; exact hs.hin
  · rw [h7]; exact hs.hid
  · rw [h2, h4, h6, h7]; exact hs.hcell

theorem length_placed {s : State} (hs : Inv s) : (placed s).length = s.placedSoFar := by
  unfold placed
  rw [List.length_take]
  have := hs.hplLen
  have := hs.hplaced
  omega

theorem take_succ_set {α : Type} (l : List α) (k : Nat) (x : α) (hk : k < l.length) :
    (l.set k x).take (k + 1) = l.take k ++ [x] := by
  induction l generalizing k with
  | nil => simp at hk
  | cons a rest ih =>
    cases k with
    | zero => simp
    | succ k =>
      simp only [List.set_cons_succ, List.take_succ_cons, List.cons_append, List.cons.injEq, true_and]
      exact ih k (by simpa using hk)

theorem countSize_append_single (l : List PiecePlacement) (p : PiecePlacement) (k : Nat) :
    countSize (l ++ [p]) k = countSize l k + (if p.size = k then 1 else 0) := by
  unfold countSize
  rw [List.countP_append]
  by_cases h : p.size = k <;> simp [List.countP_cons, h]

theorem enterTile_spec {s : State} (hs : Inv s) (hne : s.placedSoFar ≠ s.totalSquares)
    {r c i cnt : Nat} (hcnt : s.squaresCount[i]? = some cnt) (hpos : 0 < cnt)
    (hfree : SquareFree s r c (i + 1)) :
    ∃ t, enterTile s r c i = some t ∧ Entered s r c i t ∧
      t.solutionCount = s.solutionCount ∧ t.output = s.output := by
  have hk : s.placedSoFar < s.placements.length := by
    have := hs.hplLen
    have := hs.hplaced
    omega
  obtain ⟨b1, hfill, hwf, hcells⟩ :=
    fillSquare_spec (s := { s with
        squaresCount := s.squaresCount.set i (cnt - 1)
        placedSoFar := s.placedSoFar + 1 }) (s.placedSoFar + 1) hs.hboard hfree.1 hfree.2.1
  refine ⟨{ s with
      squaresCount := s.squaresCount.set i (cnt - 1)
      placedSoFar := s.placedSoFar + 1
      board := b1
      placements := s.placements.set s.placedSoFar (newRecord s r c i) }, ?_, ?_⟩
  · have hc0 : cnt ≠ 0 := by omega
    simp only [enterTile, hcnt, hc0, if_false, hfill, writePlacement]
    simp [hk, newRecord]
  · refine ⟨⟨rfl, rfl, rfl, rfl, ?_, by simp, ⟨cnt, hcnt, hpos, rfl⟩, hwf, hcells⟩, rfl, rfl⟩
    simp only [placed]
    exact take_succ_set _ _ _ hk

theorem entered_inv {s t : State} {r c i : Nat} (hs : Inv s) (hi : i < s.nValue)
    (hfree : SquareFree s r c (i + 1)) (h : Entered s r c i t) : Inv t := by
  obtain ⟨cnt, hcnt, hpos, hset⟩ := h.counts
  have hlen := length_placed hs
  have hlt : s.placedSoFar < s.totalSquares := by
    have h1 := hs.hplLen
    have h2 : (placed t).length = s.placedSoFar + 1 := by rw [h.records]; simp [hlen]
    have h3 : (placed t).length ≤ t.placements.length := by
      unfold placed; rw [List.length_take]; omega
    rw [h.plLen] at h3
    omega
  constructor
  · rw [h.boardSize, h.nValue]; exact hs.hbs
  · rw [h.totalSquares, h.boardSize]; exact hs.htot
  · rw [h.boardSize]; exact h.boardWF
  · rw [hset, List.length_set, h.nValue]; exact hs.hcntLen
  · rw [h.plLen, h.totalSquares]; exact hs.hplLen
  · rw [h.placedSoFar, h.totalSquares]; omega
  · intro k hk
    rw [h.nValue] at hk
    obtain ⟨ck, hck, hsum⟩ := hs.hcount k hk
    rw [h.records, countSize_append_single, hset]
    by_cases hki : k = i
    · subst hki
      have hil : k < s.squaresCount.length := by rw [hs.hcntLen]; exact hk
      refine ⟨cnt - 1, by simp [List.getElem?_set, hil], ?_⟩
      rw [hcnt] at hck
      cases hck
      simp [newRecord]
      omega
    · have hik : ¬ i = k := fun e => hki e.symm
      refine ⟨ck, by simp [List.getElem?_set, hik, hck], ?_⟩
      have : ¬ (newRecord s r c i).size = k + 1 := by simp [newRecord]; omega
      simp [this, hsum]
  · intro p hp
    rw [h.records, List.mem_append] at hp
    rw [h.nValue]
    rcases hp with hp | hp
    · exact hs.hsize p hp
    · simp at hp; subst hp
      simp [newRecord]; omega
  · intro p hp
    rw [h.records, List.mem_append] at hp
    rw [h.boardSize]
    rcases hp with hp | hp
    · exact hs.hin p hp
    · simp at hp; subst hp
      exact ⟨hfree.1, hfree.2.1⟩
  · intro j p hj
    rw [h.records] at hj
    by_cases hjl : j < (placed s).length
    · rw [List.getElem?_append_left hjl] at hj
      exact hs.hid j p hj
    · rw [List.getElem?_append_right (by omega)] at hj
      have hj0 : j - (placed s).length = 0 := by
        by_contra hne
        rw [List.getElem?_eq_none (by simp; omega)] at hj
        cases hj
      rw [hj0] at hj
      simp at hj
      subst hj
      simp [newRecord]; omega
  · intro r1 c1 hr1 hc1
    rw [h.boardSize] at hr1 hc1
    obtain ⟨v, hv, hvle, hcov⟩ := hs.hcell r1 c1 hr1 hc1
    rw [h.cells r1 c1, h.placedSoFar, h.records]
    by_cases hsq : inSquare r c (i + 1) r1 c1
    · rw [if_pos hsq]
      have hv0 : v = 0 := by
        unfold inSquare at hsq
        have := hfree.2.2 (r1 - r) (c1 - c) (by omega) (by omega)
        rw [show r + (r1 - r) = r1 by omega, show c + (c1 - c) = c1 by omega, hv] at this
        exact Option.some.inj this
      refine ⟨s.placedSoFar + 1, rfl, le_refl _, ?_⟩
      intro j p hj
      by_cases hjl : j < (placed s).length
      · rw [List.getElem?_append_left hjl] at hj
        have := hcov j p hj
        constructor
        · intro hc; have := this.mp hc; omega
        · intro he; omega
      · rw [List.getElem?_append_right (by omega)] at hj
        have hj0 : j - (placed s).length = 0 := by
          by_contra hne
          rw [List.getElem?_eq_none (by simp; omega)] at hj
          cases hj
        rw [hj0] at hj
        simp at hj
        subst hj
        constructor
        · intro _; omega
        · intro _; exact hsq
    · rw [if_neg hsq]
      refine ⟨v, hv, by omega, ?_⟩
      intro j p hj
      by_cases hjl : j < (placed s).length
      · rw [List.getElem?_append_left hjl] at hj
        exact hcov j p hj
      · rw [List.getElem?_append_right (by omega)] at hj
        have hj0 : j - (placed s).length = 0 := by
          by_contra hne
          rw [List.getElem?_eq_none (by simp; omega)] at hj
          cases hj
        rw [hj0] at hj
        simp at hj
        subst hj
        constructor
        · intro hc; exact absurd hc hsq
        · intro he; omega

theorem leaveTile_spec {s t u : State} {r c i : Nat} (hs : Inv s)
    (hfree : SquareFree s r c (i + 1)) (ht : Entered s r c i t) (hu : Frame t u) :
    ∃ w, leaveTile u r c i = some w ∧ Frame s w ∧
      w.solutionCount = u.solutionCount ∧ w.output = u.output := by
  obtain ⟨cnt, hcnt, hpos, hset⟩ := ht.counts
  have hlen := length_placed hs
  have hil : i < s.squaresCount.length := (List.getElem?_eq_some_iff.mp hcnt).1
  have hwf : BoardWF u.board s.boardSize := by rw [hu.board]; exact ht.boardWF
  obtain ⟨b5, hfill, hwf5, hcells⟩ := fillSquare_spec (s := u) 0 hwf hfree.1 hfree.2.1
  have hcu : u.squaresCount[i]? = some (cnt - 1) := by
    rw [hu.squaresCount, hset]
    simp [List.getElem?_set, hil]
  have hpu : u.placedSoFar = s.placedSoFar + 1 := by rw [hu.placedSoFar, ht.placedSoFar]
  refine ⟨{ u with
      board := b5
      squaresCount := u.squaresCount.set i (cnt - 1 + 1)
      placedSoFar := u.placedSoFar - 1 }, ?_, ?_, rfl, rfl⟩
  · simp [leaveTile, hfill, hcu, hpu]
  · constructor
    · exact hu.nValue.trans ht.nValue
    · exact hu.boardSize.trans ht.boardSize
    · exact hu.totalSquares.trans ht.totalSquares
    · show b5 = s.board
      apply board_ext hwf5 hs.hboard
      intro r1 c1 hr1 hc1
      rw [hcells r1 c1, hu.board, ht.cells r1 c1]
      by_cases hsq : inSquare r c (i + 1) r1 c1
      · rw [if_pos hsq]
        unfold inSquare at hsq
        have := hfree.2.2 (r1 - r) (c1 - c) (by omega) (by omega)
        rw [show r + (r1 - r) = r1 by omega, show c + (c1 - c) = c1 by omega] at this
        exact this.symm
      · rw [if_neg hsq, if_neg hsq]
    · show u.squaresCount.set i (cnt - 1 + 1) = s.squaresCount
      rw [hu.squaresCount, hset, List.set_set]
      have h1 : cnt - 1 + 1 = cnt := by omega
      rw [h1]
      apply List.ext_getElem? 
      intro j
      by_cases hj : i = j
      · subst hj; simp [List.getElem?_set, hil, hcnt]
      · simp [List.getElem?_set, hj]
    · show u.placedSoFar - 1 = s.placedSoFar
      omega
    · show List.take (u.placedSoFar - 1) u.placements = placed s
      have h1 : placed u = placed s ++ [newRecord s r c i] := hu.records.trans ht.records
      have h2 : List.take s.placedSoFar (placed u) = List.take s.placedSoFar u.placements := by
        unfold placed
        rw [List.take_take, hpu]
        congr 1
        omega
      rw [show u.placedSoFar - 1 = s.placedSoFar by omega, ← h2, h1]
      rw [List.take_append_of_le_length (by omega)]
      rw [List.take_of_length_le (by omega)]
    · show u.placements.length = s.placements.length
      exact hu.plLen.trans ht.plLen

theorem number_append (k : Nat) (A B : List (List PiecePlacement)) :
    number k (A ++ B) = number k A ++ number (k + A.length) B := by
  induction A generalizing k with
  | nil => simp [number]
  | cons a rest ih =>
    have h := ih (k + 1)
    rw [show k + 1 + rest.length = k + (rest.length + 1) by omega] at h
    show (⟨k + 1, a⟩ : Report) :: number (k + 1) (rest ++ B) = _
    rw [h]
    rfl

theorem mem_number {k : Nat} {L : List (List PiecePlacement)} {rep : Report}
    (h : rep ∈ number k L) : rep.placements ∈ L := by
  induction L generalizing k with
  | nil => simp [number] at h
  | cons a rest ih =>
    simp only [number, List.mem_cons] at h
    rcases h with h | h
    · subst h; simp
    · exact List.mem_cons_of_mem _ (ih h)

theorem exists_number_of_mem (k : Nat) {L : List (List PiecePlacement)}
    {sol : List PiecePlacement} (h : sol ∈ L) :
    ∃ rep ∈ number k L, rep.placements = sol := by
  induction L generalizing k with
  | nil => simp at h
  | cons a rest ih =>
    rcases List.mem_cons.mp h with h | h
    · subst h
      exact ⟨⟨k + 1, sol⟩, by simp [number], rfl⟩
    · obtain ⟨rep, hrep, hpl⟩ := ih (k + 1) h
      exact ⟨rep, by simp [number, hrep], hpl⟩

theorem entered_of_frame {s w t : State} {r c i : Nat} (h : Frame s w)
    (ht : Entered w r c i t) : Entered s r c i t := by
  obtain ⟨h1, h2, h3, h4, h5, h6, h7, h8⟩ := h
  have hrec : newRecord w r c i = newRecord s r c i := by simp [newRecord, h6]
  constructor
  · exact ht.nValue.trans h1
  · exact ht.boardSize.trans h2
  · exact ht.totalSquares.trans h3
  · rw [ht.placedSoFar, h6]
  · rw [ht.records, h7, hrec]
  · exact ht.plLen.trans h8
  · rw [← h5]; exact ht.counts
  · rw [← h2]; exact ht.boardWF
  · rw [← h4, ← h6]; exact ht.cells

theorem takeable_of_frame {s w : State} {r c i : Nat} (h : Frame s w) :
    Takeable w r c i ↔ Takeable s r c i := by
  unfold Takeable SquareFree
  rw [h.squaresCount, h.board, h.boardSize]

theorem firstEmpty_of_frame {s w : State} {r c : Nat} (h : Frame s w)
    (hf : FirstEmpty s r c) : FirstEmpty w r c := by
  unfold FirstEmpty at *
  rw [h.board, h.boardSize]
  exact hf

/-! ## The induction principle of the search -/

theorem dfsBody_returns {P : State → List (List PiecePlacement) → Prop} {fuel : Nat}
    (ih : ∀ s, Inv s → s.totalSquares - s.placedSoFar < fuel →
      Returns (P s) s (dfsAllSolutions fuel s))
    {s : State} {r c i : Nat} (hs : Inv s) (hne : s.placedSoFar ≠ s.totalSquares)
    (hfuel : s.totalSquares - s.placedSoFar < fuel + 1) (hi : i < s.nValue) :
    Returns (fun L => (Takeable s r c i → ∃ t, Entered s r c i t ∧ Inv t ∧ P t L) ∧
        (¬ Takeable s r c i → L = []))
      s (dfsBody (dfsAllSolutions fuel) r c i s) := by
  have hil : i < s.squaresCount.length := by rw [hs.hcntLen]; exact hi
  have hcnt : s.squaresCount[i]? = some (s.squaresCount[i]) := List.getElem?_eq_getElem hil
  obtain ⟨ok, hok, hiff⟩ := canPlace_spec hs.hboard r c (i + 1)
  have hskip : ¬ Takeable s r c i →
      Returns (fun L => (Takeable s r c i → ∃ t, Entered s r c i t ∧ Inv t ∧ P t L) ∧
        (¬ Takeable s r c i → L = [])) s (some s) := by
    intro hnt
    exact ⟨s, [], rfl, Frame.refl s, by simp [number], by simp,
      fun h => absurd h hnt, fun _ => rfl⟩
  by_cases hpos : 0 < s.squaresCount[i]
  · cases ok with
    | false =>
      have hnt : ¬ Takeable s r c i := by
        rintro ⟨_, hfree⟩
        have := hiff.mpr hfree
        cases this
      have : dfsBody (dfsAllSolutions fuel) r c i s = some s := by
        simp [dfsBody, hcnt, hpos, hok]
      rw [this]
      exact hskip hnt
    | true =>
      have hfree : SquareFree s r c (i + 1) := hiff.mp rfl
      obtain ⟨t, hent, hE, hsc, hout⟩ := enterTile_spec hs hne hcnt hpos hfree
      have hti : Inv t := entered_inv hs hi hfree hE
      have htf : t.totalSquares - t.placedSoFar < fuel := by
        rw [hE.totalSquares, hE.placedSoFar]
        have := hs.hplaced
        omega
      obtain ⟨u, L, hcall, hfr, huo, huc, hP⟩ := ih t hti htf
      obtain ⟨w, hleave, hfw, hwc, hwo⟩ := leaveTile_spec hs hfree hE hfr
      refine ⟨w, L, ?_, hfw, ?_, ?_, fun _ => ⟨t, hE, hti, hP⟩, ?_⟩
      · simp [dfsBody, hcnt, hpos, hok, hent, hcall, hleave]
      · rw [hwo, huo, hout, hsc]
      · rw [hwc, huc, hsc]
      · intro hnt
        exact absurd ⟨⟨_, hcnt, hpos⟩, hfree⟩ hnt
  · have hnt : ¬ Takeable s r c i := by
      rintro ⟨⟨cnt, h1, h2⟩, _⟩
      rw [hcnt] at h1
      cases h1
      exact hpos h2
    have : dfsBody (dfsAllSolutions fuel) r c i s = some s := by
      simp [dfsBody, hcnt, hpos]
    rw [this]
    exact hskip hnt

theorem dfsLoop_returns {P : State → List (List PiecePlacement) → Prop} {fuel : Nat}
    (ih : ∀ s, Inv s → s.totalSquares - s.placedSoFar < fuel →
      Returns (P s) s (dfsAllSolutions fuel s))
    {r c : Nat} (k : Nat) :
    ∀ s, Inv s → s.placedSoFar ≠ s.totalSquares →
      s.totalSquares - s.placedSoFar < fuel + 1 → k ≤ s.nValue →
      ∃ Ls : Nat → List (List PiecePlacement),
        Returns (fun L => L = (List.range k).reverse.flatMap Ls ∧
          ∀ i, i < k →
            (Takeable s r c i → ∃ t, Entered s r c i t ∧ Inv t ∧ P t (Ls i)) ∧
            (¬ Takeable s r c i → Ls i = []))
        s (dfsLoop (dfsAllSolutions fuel) r c k s) := by
  induction k with
  | zero =>
    intro s hs _ _ _
    refine ⟨fun _ => [], s, [], rfl, Frame.refl s, by simp [number], by simp, by simp, ?_⟩
    intro i hi
    omega
  | succ k ihk =>
    intro s hs hne hfuel hk
    obtain ⟨w, Lk, hbody, hfw, hwo, hwc, hT, hN⟩ :=
      dfsBody_returns (r := r) (c := c) ih hs hne hfuel (show k < s.nValue by omega)
    have hwi : Inv w := inv_of_frame hs hfw
    obtain ⟨Ls, t, L, hloop, hft, hto, htc, hL, hall⟩ := ihk w hwi
      (by rw [hfw.placedSoFar, hfw.totalSquares]; exact hne)
      (by rw [hfw.placedSoFar, hfw.totalSquares]; exact hfuel)
      (by rw [hfw.nValue]; omega)
    refine ⟨fun i => if i = k then Lk else Ls i, t, Lk ++ L, ?_, hfw.trans hft, ?_, ?_, ?_, ?_⟩
    · simp [dfsLoop, hbody, hloop]
    · rw [hto, hwo, hwc, number_append, List.append_assoc]
    · rw [htc, hwc, List.length_append]; omega
    · rw [List.range_succ, List.reverse_append]
      simp only [List.reverse_cons, List.reverse_nil, List.nil_append, List.singleton_append,
        List.flatMap_cons, if_true]
      rw [hL]
      congr 1
      apply List.flatMap_congr
      intro i hi
      have : i < k := by simpa using hi
      have hik : ¬ i = k := by omega
      simp only [hik, if_false]
    · intro i hi
      by_cases hik : i = k
      · subst hik
        simp only [if_true]
        exact ⟨hT, hN⟩
      · simp only [hik, if_false]
        obtain ⟨h1, h2⟩ := hall i (by omega)
        constructor
        · intro htk
          obtain ⟨u, hu, hui, hp⟩ := h1 ((takeable_of_frame hfw).mpr htk)
          exact ⟨u, entered_of_frame hfw hu, hui, hp⟩
        · intro htk
          exact h2 (fun h => htk ((takeable_of_frame hfw).mp h))

/-- The induction principle of the search: a closed property holds of the
list of the solutions that a call of `dfsAllSolutions` reports, the call
returns when the fuel exceeds the number of tiles still to place, and the
returned state agrees with the entry state on the frame. -/
theorem dfs_induct {P : State → List (List PiecePlacement) → Prop} (hP : Closed P)
    (fuel : Nat) : ∀ s, Inv s → s.totalSquares - s.placedSoFar < fuel →
      Returns (P s) s (dfsAllSolutions fuel s) := by
  induction fuel with
  | zero => intro s _ h; omega
  | succ fuel ih =>
    intro s hs hfuel
    by_cases hfull : s.placedSoFar = s.totalSquares
    · have hlen : s.totalSquares ≤ s.placements.length := by rw [hs.hplLen]
      have hpl : List.take s.totalSquares s.placements = placed s := by
        unfold placed; rw [hfull]
      refine ⟨{ s with
          solutionCount := s.solutionCount + 1
          output := s.output ++ [⟨s.solutionCount + 1, s.placements.take s.totalSquares⟩] },
        [placed s], ?_, ?_, ?_, ?_, hP.full s hs hfull⟩
      · simp [dfsAllSolutions, hfull, reportSolution, hlen]
      · exact ⟨rfl, rfl, rfl, rfl, rfl, rfl, rfl, rfl⟩
      · simp [number, hpl]
      · simp
    · obtain ⟨res, hfind, hnone, hsome⟩ := findNextEmpty_spec hs.hboard
      cases res with
      | none =>
        refine ⟨s, [], ?_, Frame.refl s, by simp [number], by simp,
          hP.dead s hs hfull (hnone rfl)⟩
        simp [dfsAllSolutions, hfull, hfind]
      | some rc =>
        obtain ⟨r, c⟩ := rc
        have hfe : FirstEmpty s r c := hsome r c rfl
        obtain ⟨Ls, t, L, hloop, hft, hto, htc, hL, hall⟩ :=
          dfsLoop_returns (r := r) (c := c) ih s.nValue s hs hfull hfuel (le_refl _)
        refine ⟨t, L, ?_, hft, hto, htc, ?_⟩
        · simp [dfsAllSolutions, hfull, hfind, hloop]
        · rw [hL]
          exact hP.branch s r c Ls hs hfull hfe hall

/-! ## The fuel -/

theorem dfsBody_mono {call1 call2 : State → Option State}
    (h : ∀ s t, call1 s = some t → call2 s = some t) {r c i : Nat} {s t : State}
    (hb : dfsBody call1 r c i s = some t) : dfsBody call2 r c i s = some t := by
  unfold dfsBody at hb ⊢
  cases hcnt : s.squaresCount[i]? with
  | none => simp [hcnt] at hb
  | some cnt =>
    simp only [hcnt] at hb ⊢
    by_cases hpos : cnt > 0
    · simp only [hpos, if_true] at hb ⊢
      cases hcan : canPlace s r c (i + 1) with
      | none => simp [hcan] at hb
      | some res =>
        obtain ⟨ok, s0⟩ := res
        cases ok with
        | false => simpa [hcan] using hb
        | true =>
          simp only [hcan] at hb ⊢
          cases hent : enterTile s0 r c i with
          | none => simp [hent] at hb
          | some s3 =>
            simp only [hent] at hb ⊢
            cases hc1 : call1 s3 with
            | none => simp [hc1] at hb
            | some s4 =>
              simp only [hc1] at hb
              simp only [h s3 s4 hc1]
              exact hb
    · simpa [hpos] using hb

theorem dfsLoop_mono {call1 call2 : State → Option State}
    (h : ∀ s t, call1 s = some t → call2 s = some t) {r c : Nat} (k : Nat) :
    ∀ s t, dfsLoop call1 r c k s = some t → dfsLoop call2 r c k s = some t := by
  induction k with
  | zero => intro s t hl; simpa [dfsLoop] using hl
  | succ k ih =>
    intro s t hl
    unfold dfsLoop at hl ⊢
    cases hb : dfsBody call1 r c k s with
    | none => simp [hb] at hl
    | some s1 =>
      simp only [hb] at hl
      simp only [dfsBody_mono h hb]
      exact ih s1 t hl

theorem dfs_mono_succ (fuel : Nat) :
    ∀ s t, dfsAllSolutions fuel s = some t → dfsAllSolutions (fuel + 1) s = some t := by
  induction fuel with
  | zero => intro s t h; simp [dfsAllSolutions] at h
  | succ fuel ih =>
    intro s t h
    unfold dfsAllSolutions at h ⊢
    by_cases hfull : s.placedSoFar = s.totalSquares
    · simpa [hfull] using h
    · simp only [hfull, if_false] at h ⊢
      cases hfind : findNextEmpty s with
      | none => simp [hfind] at h
      | some res =>
        obtain ⟨cell, s0⟩ := res
        cases cell with
        | none => simpa [hfind] using h
        | some rc =>
          obtain ⟨r, c⟩ := rc
          simp only [hfind] at h ⊢
          exact dfsLoop_mono ih _ _ _ h

/-- More fuel does not change the result of a call that returned. -/
theorem dfs_mono {fuel fuel1 : Nat} (hle : fuel ≤ fuel1) {s t : State}
    (h : dfsAllSolutions fuel s = some t) : dfsAllSolutions fuel1 s = some t := by
  induction fuel1 with
  | zero =>
    have : fuel = 0 := by omega
    subst this
    exact h
  | succ m ih =>
    by_cases hm : fuel ≤ m
    · exact dfs_mono_succ m s t (ih hm)
    · have : fuel = m + 1 := by omega
      subst this
      exact h

/-! ## Counting: the inventory, the areas and the initial state -/

theorem two_mul_sumOf1toN (n : Nat) : 2 * sumOf1toN n = n * (n + 1) := by
  unfold sumOf1toN
  exact Nat.mul_div_cancel' (Nat.even_mul_succ_self n).two_dvd

theorem sumOf1toN_succ (n : Nat) : sumOf1toN (n + 1) = sumOf1toN n + (n + 1) := by
  have h1 := two_mul_sumOf1toN n
  have h2 := two_mul_sumOf1toN (n + 1)
  have h3 : (n + 1) * (n + 1 + 1) = n * (n + 1) + 2 * (n + 1) := by ring
  omega

theorem sum_sizes (n : Nat) : ∑ k in Finset.range n, (k + 1) = sumOf1toN n := by
  induction n with
  | zero => simp [sumOf1toN]
  | succ n ih => rw [Finset.sum_range_succ, ih, sumOf1toN_succ]

theorem sum_areas (n : Nat) :
    ∑ k in Finset.range n, (k + 1) * ((k + 1) * (k + 1)) = sumOf1toN n * sumOf1toN n := by
  induction n with
  | zero => simp [sumOf1toN]
  | succ n ih =>
    rw [Finset.sum_range_succ, ih, sumOf1toN_succ]
    have h1 := two_mul_sumOf1toN n
    have h2 : (sumOf1toN n + (n + 1)) * (sumOf1toN n + (n + 1)) =
        sumOf1toN n * sumOf1toN n + (2 * sumOf1toN n) * (n + 1) + (n + 1) * (n + 1) := by ring
    rw [h2, h1]
    ring

theorem countSize_cons (p : PiecePlacement) (l : List PiecePlacement) (k : Nat) :
    countSize (p :: l) k = countSize l k + (if p.size = k then 1 else 0) := by
  unfold countSize
  by_cases h : p.size = k <;> simp [List.countP_cons, h]

/-- A sum over the records, grouped by side. -/
theorem sum_by_size (w : Nat → Nat) (n : Nat) (l : List PiecePlacement)
    (hl : ∀ p ∈ l, 1 ≤ p.size ∧ p.size ≤ n) :
    (l.map (fun p => w p.size)).sum =
      ∑ k in Finset.range n, countSize l (k + 1) * w (k + 1) := by
  induction l with
  | nil => simp [countSize]
  | cons p rest ih =>
    have hp := hl p (List.mem_cons_self _ _)
    have hrest := ih (fun q hq => hl q (List.mem_cons_of_mem _ hq))
    simp only [List.map_cons, List.sum_cons, hrest, countSize_cons, add_mul, Finset.sum_add_distrib]
    have hsingle : ∑ k in Finset.range n, (if p.size = k + 1 then 1 else 0) * w (k + 1) =
        w p.size := by
      rw [Finset.sum_eq_single (p.size - 1)]
      · have : p.size = p.size - 1 + 1 := by omega
        rw [if_pos this, one_mul, ← this]
      · intro k _ hk
        have : ¬ p.size = k + 1 := by omega
        rw [if_neg this, zero_mul]
      · intro hnot
        exact absurd (Finset.mem_range.mpr (by omega)) hnot
    rw [hsingle, add_comm]

theorem init_inv (n : Nat) (mem : Nat → PiecePlacement) : Inv (initState n mem) := by
  have hpl : placed (initState n mem) = [] := by simp [placed, initState]
  constructor
  · rfl
  · rfl
  · constructor
    · simp [initState]
    · intro cells hc
      simp only [initState] at hc
      rw [List.eq_of_mem_replicate hc]
      simp [initState]
  · simp [initState]
  · simp [initState]
  · simp [initState]
  · intro k hk
    rw [hpl]
    refine ⟨k + 1, ?_, by simp [countSize]⟩
    simp only [initState] at hk ⊢
    simp [hk]
  · rw [hpl]; simp
  · rw [hpl]; simp
  · rw [hpl]; simp
  · intro r c hr hc
    rw [hpl]
    simp only [initState] at hr hc ⊢
    refine ⟨0, ?_, by simp, by simp⟩
    simp [readCell, hr, hc]

theorem mem_footprint {p : PiecePlacement} {r c : Nat} :
    (r, c) ∈ footprint p ↔ covers p r c := by
  simp [footprint, covers, inSquare, Finset.mem_product, Finset.mem_Ico]
  tauto

theorem card_footprint (p : PiecePlacement) : (footprint p).card = p.size * p.size := by
  simp [footprint, Finset.card_product]

theorem mem_footprints {l : List PiecePlacement} {x : Nat × Nat} :
    x ∈ footprints l ↔ ∃ p ∈ l, x ∈ footprint p := by
  induction l with
  | nil => simp [footprints]
  | cons p rest ih => simp [footprints, ih]

theorem card_footprints (l : List PiecePlacement)
    (hl : l.Pairwise (fun p q => Disjoint (footprint p) (footprint q))) :
    (footprints l).card = (l.map (fun p => p.size * p.size)).sum := by
  induction l with
  | nil => simp [footprints]
  | cons p rest ih =>
    rw [List.pairwise_cons] at hl
    have hd : Disjoint (footprint p) (footprints rest) := by
      rw [Finset.disjoint_left]
      intro x hx hx2
      obtain ⟨q, hq, hxq⟩ := mem_footprints.mp hx2
      exact (Finset.disjoint_left.mp (hl.1 q hq)) hx hxq
    simp only [footprints, List.map_cons, List.sum_cons]
    rw [Finset.card_union_of_disjoint hd, card_footprint, ih hl.2]

/-- Two different records of the placed tiles cover no common cell. -/
theorem Inv.disjoint {s : State} (hs : Inv s) {i j : Nat} {p q : PiecePlacement}
    (hi : (placed s)[i]? = some p) (hj : (placed s)[j]? = some q) (hij : i ≠ j)
    (r c : Nat) : ¬ (covers p r c ∧ covers q r c) := by
  rintro ⟨hp, hq⟩
  have hpin := hs.hin p (List.getElem?_mem hi)
  have hr : r < s.boardSize := by unfold covers inSquare at hp; omega
  have hc : c < s.boardSize := by unfold covers inSquare at hp; omega
  obtain ⟨v, _, _, hcov⟩ := hs.hcell r c hr hc
  have h1 := (hcov i p hi).mp hp
  have h2 := (hcov j q hj).mp hq
  omega

theorem Inv.pairwise_disjoint {s : State} (hs : Inv s) :
    (placed s).Pairwise (fun p q => Disjoint (footprint p) (footprint q)) := by
  rw [List.pairwise_iff_getElem]
  intro i j hi hj hij
  rw [Finset.disjoint_left]
  rintro ⟨r, c⟩ hx hy
  exact hs.disjoint (List.getElem?_eq_getElem hi) (List.getElem?_eq_getElem hj) (by omega) r c
    ⟨mem_footprint.mp hx, mem_footprint.mp hy⟩

/-- On a full state the inventory is used up: there are `k + 1` records of
side `k + 1`. -/
theorem full_counts {s : State} (hs : Inv s) (hfull : s.placedSoFar = s.totalSquares) :
    ∀ k, k < s.nValue → countSize (placed s) (k + 1) = k + 1 := by
  have hlen := length_placed hs
  have hsum := sum_by_size (fun _ => 1) s.nValue (placed s) hs.hsize
  simp only [List.map_const', List.sum_replicate, smul_eq_mul, mul_one] at hsum
  rw [hlen, hfull, hs.htot, hs.hbs, ← sum_sizes] at hsum
  have hle : ∀ k ∈ Finset.range s.nValue, countSize (placed s) (k + 1) ≤ k + 1 := by
    intro k hk
    obtain ⟨cnt, _, h⟩ := hs.hcount k (Finset.mem_range.mp hk)
    omega
  intro k hk
  by_contra hne
  have hlt : countSize (placed s) (k + 1) < k + 1 := by
    have := hle k (Finset.mem_range.mpr hk)
    omega
  have := Finset.sum_lt_sum hle ⟨k, Finset.mem_range.mpr hk, hlt⟩
  omega

/-- On a full state the areas of the placed tiles add up to the area of the
board. -/
theorem full_area {s : State} (hs : Inv s) (hfull : s.placedSoFar = s.totalSquares) :
    ((placed s).map (fun p => p.size * p.size)).sum = s.boardSize * s.boardSize := by
  rw [sum_by_size (fun k => k * k) s.nValue (placed s) hs.hsize, hs.hbs, ← sum_areas]
  apply Finset.sum_congr rfl
  intro k hk
  rw [full_counts hs hfull k (Finset.mem_range.mp hk)]

/-- On a full state every cell of the board is covered by a placed tile. -/
theorem full_cover {s : State} (hs : Inv s) (hfull : s.placedSoFar = s.totalSquares)
    {r c : Nat} (hr : r < s.boardSize) (hc : c < s.boardSize) :
    ∃ p ∈ placed s, covers p r c := by
  have hsub : footprints (placed s) ⊆
      Finset.range s.boardSize ×ˢ Finset.range s.boardSize := by
    intro x hx
    obtain ⟨p, hp, hxp⟩ := mem_footprints.mp hx
    obtain ⟨a, b⟩ := x
    have hin := hs.hin p hp
    have hcov := mem_footprint.mp hxp
    unfold covers inSquare at hcov
    simp only [Finset.mem_product, Finset.mem_range]
    omega
  have hcard : (Finset.range s.boardSize ×ˢ Finset.range s.boardSize).card ≤
      (footprints (placed s)).card := by
    rw [card_footprints _ hs.pairwise_disjoint, full_area hs hfull]
    simp [Finset.card_product]
  have heq := Finset.eq_of_subset_of_card_le hsub hcard
  have hmem : (r, c) ∈ footprints (placed s) := by
    rw [heq]
    simp [Finset.mem_product, hr, hc]
  obtain ⟨p, hp, hxp⟩ := mem_footprints.mp hmem
  exact ⟨p, hp, mem_footprint.mp hxp⟩

/-! ## What every reported solution is -/

/-- Running the search as `main` does: with more fuel than tiles, the search
returns, the state handed back agrees with the initial state on the frame, and
any closed property holds of the list of the reported solutions. -/
theorem run_returns {P : State → List (List PiecePlacement) → Prop} (hP : Closed P)
    (n : Nat) (hn : 1 ≤ n) (mem : Nat → PiecePlacement) (fuel : Nat)
    (hfuel : sumOf1toN n < fuel) :
    ∃ t L, runSearch n mem fuel = some t ∧ Frame (initState n mem) t ∧
      t.output = number 0 L ∧ t.solutionCount = L.length ∧ P (initState n mem) L := by
  have hlt : (initState n mem).totalSquares - (initState n mem).placedSoFar < fuel := by
    simp only [initState]
    omega
  obtain ⟨t, L, hrun, hfr, hout, hcnt, hp⟩ := dfs_induct hP fuel _ (init_inv n mem) hlt
  refine ⟨t, L, ?_, hfr, ?_, ?_, hp⟩
  · have : ¬ n < 1 := by omega
    simp [runSearch, this, hrun]
  · simpa [initState] using hout
  · simpa [initState] using hcnt

theorem closed_fullRecords :
    Closed (fun s L => ∀ sol ∈ L, FullRecords s.nValue sol) := by
  constructor
  · intro s hs hfull sol hsol
    simp only [List.mem_singleton] at hsol
    subst hsol
    exact ⟨s, hs, rfl, hfull, rfl⟩
  · intro s _ _ _ sol hsol
    simp at hsol
  · intro s r c Ls hs _ _ hall sol hsol
    rw [List.mem_flatMap] at hsol
    obtain ⟨i, hi, hsoli⟩ := hsol
    have hin : i < s.nValue := by simpa using hi
    obtain ⟨h1, h2⟩ := hall i hin
    by_cases ht : Takeable s r c i
    · obtain ⟨t, hE, _, hp⟩ := h1 ht
      have := hp sol hsoli
      rw [hE.nValue] at this
      exact this
    · rw [h2 ht] at hsoli
      simp at hsoli

theorem FullRecords.exactTiling {n : Nat} {sol : List PiecePlacement}
    (h : FullRecords n sol) : ExactTiling (sumOf1toN n) sol := by
  obtain ⟨t, ht, hn, hfull, rfl⟩ := h
  have hbs : t.boardSize = sumOf1toN n := by rw [ht.hbs, hn]
  rw [← hbs]
  refine ⟨ht.hin, ?_, ?_⟩
  · intro i j p q hi hj hij r c
    exact ht.disjoint hi hj hij r c
  · intro r c hr hc
    obtain ⟨p, hp, hcov⟩ := full_cover ht hfull hr hc
    obtain ⟨i, hi⟩ := List.mem_iff_getElem?.mp hp
    refine ⟨i, ⟨p, hi, hcov⟩, ?_⟩
    rintro j ⟨q, hj, hcovq⟩
    by_contra hne
    exact ht.disjoint hj hi hne r c ⟨hcovq, hcov⟩

theorem FullRecords.counts {n : Nat} {sol : List PiecePlacement} (h : FullRecords n sol) :
    sol.length = sumOf1toN n ∧ (∀ k, 1 ≤ k → k ≤ n → countSize sol k = k) ∧
      ∀ p ∈ sol, 1 ≤ p.size ∧ p.size ≤ n := by
  obtain ⟨t, ht, hn, hfull, rfl⟩ := h
  refine ⟨?_, ?_, ?_⟩
  · rw [length_placed ht, hfull, ht.htot, ht.hbs, hn]
  · intro k hk1 hkn
    have := full_counts ht hfull (k - 1) (by omega)
    rw [show k - 1 + 1 = k by omega] at this
    exact this
  · rw [← hn]; exact ht.hsize

/-- While tiles are left to place, the placed tiles cover less than the
board. -/
theorem area_lt_of_not_full {s : State} (hs : Inv s) (hne : s.placedSoFar ≠ s.totalSquares) :
    ((placed s).map (fun p => p.size * p.size)).sum < s.boardSize * s.boardSize := by
  have hlen := length_placed hs
  have hsum := sum_by_size (fun _ => 1) s.nValue (placed s) hs.hsize
  simp only [List.map_const', List.sum_replicate, smul_eq_mul, mul_one] at hsum
  rw [hlen] at hsum
  have hle : ∀ k ∈ Finset.range s.nValue, countSize (placed s) (k + 1) ≤ k + 1 := by
    intro k hk
    obtain ⟨cnt, _, h⟩ := hs.hcount k (Finset.mem_range.mp hk)
    omega
  have hex : ∃ k ∈ Finset.range s.nValue, countSize (placed s) (k + 1) < k + 1 := by
    by_contra hcon
    push_neg at hcon
    have heq : ∑ k in Finset.range s.nValue, countSize (placed s) (k + 1) =
        ∑ k in Finset.range s.nValue, (k + 1) :=
      Finset.sum_congr rfl (fun k hk => le_antisymm (hle k hk) (hcon k hk))
    rw [sum_sizes, ← hs.hbs, ← hs.htot] at heq
    exact hne (hsum.trans heq)
  rw [sum_by_size (fun k => k * k) s.nValue (placed s) hs.hsize, hs.hbs, ← sum_areas]
  apply Finset.sum_lt_sum
  · intro k hk
    exact Nat.mul_le_mul_right _ (hle k hk)
  · obtain ⟨k, hk, hlt⟩ := hex
    exact ⟨k, hk, Nat.mul_lt_mul_of_pos_right hlt (by positivity)⟩

/-- While tiles are left to place, the board has an empty cell. -/
theorem exists_empty_of_not_full {s : State} (hs : Inv s)
    (hne : s.placedSoFar ≠ s.totalSquares) :
    ∃ r c, r < s.boardSize ∧ c < s.boardSize ∧ readCell s.board r c = some 0 := by
  by_contra hcon
  push_neg at hcon
  have hsub : Finset.range s.boardSize ×ˢ Finset.range s.boardSize ⊆ footprints (placed s) := by
    rintro ⟨r, c⟩ hx
    simp only [Finset.mem_product, Finset.mem_range] at hx
    obtain ⟨v, hv, hvle, hcov⟩ := hs.hcell r c hx.1 hx.2
    have hv0 : v ≠ 0 := by
      intro h0
      subst h0
      exact hcon r c hx.1 hx.2 hv
    have hlt : v - 1 < (placed s).length := by rw [length_placed hs]; omega
    have hget : (placed s)[v - 1]? = some ((placed s)[v - 1]) := List.getElem?_eq_getElem hlt
    have := (hcov (v - 1) _ hget).mpr (by omega)
    exact mem_footprints.mpr ⟨_, List.getElem_mem hlt, mem_footprint.mpr this⟩
  have hcard := Finset.card_le_card hsub
  rw [card_footprints _ hs.pairwise_disjoint] at hcard
  have := area_lt_of_not_full hs hne
  simp [Finset.card_product] at hcard
  omega

/-- No list of records is that of a full state for `n = 2`: two tiles of side
2 on the `3 × 3` board both cover the middle cell. -/
theorem no_fullRecords_two (sol : List PiecePlacement) : ¬ FullRecords 2 sol := by
  rintro ⟨t, ht, hn, hfull, rfl⟩
  have hbs : t.boardSize = 3 := by rw [ht.hbs, hn]; decide
  have hcnt := full_counts ht hfull 1 (by omega)
  unfold countSize at hcnt
  rw [List.countP_eq_length_filter] at hcnt
  have hsub : List.Sublist ((placed t).filter (fun p => decide (p.size = 1 + 1))) (placed t) :=
    List.filter_sublist _
  have hpw := ht.pairwise_disjoint.sublist hsub
  generalize hF : (placed t).filter (fun p => decide (p.size = 1 + 1)) = F at hcnt hpw
  match F, hcnt, hpw with
  | [a, b], _, hpw =>
    have hab : Disjoint (footprint a) (footprint b) := by simpa using hpw
    have hmem : ∀ p ∈ (placed t).filter (fun p => decide (p.size = 1 + 1)),
        (1, 1) ∈ footprint p := by
      intro p hp
      rw [List.mem_filter] at hp
      have hin := ht.hin p hp.1
      have hsz : p.size = 2 := by simpa using hp.2
      rw [mem_footprint]
      unfold covers inSquare
      omega
    rw [hF] at hmem
    exact Finset.disjoint_left.mp hab (hmem a (by simp)) (hmem b (by simp))

theorem placeAll_spec {bs : Nat} (l : List PiecePlacement) :
    ∀ s : State, BoardWF s.board bs →
      (∀ q ∈ l, q.row + q.size ≤ bs ∧ q.col + q.size ≤ bs) →
      ∃ s1, placeAll s l = some s1 ∧ s1.boardSize = s.boardSize ∧ BoardWF s1.board bs ∧
        ∀ r c, (∀ q ∈ l, ¬ covers q r c) → readCell s1.board r c = readCell s.board r c := by
  induction l with
  | nil => intro s hb _; exact ⟨s, rfl, rfl, hb, fun _ _ _ => rfl⟩
  | cons p rest ih =>
    intro s hb hl
    have hp := hl p (List.mem_cons_self _ _)
    obtain ⟨b1, hfill, hwf1, hcells⟩ := fillSquare_spec (s := s) p.id hb hp.1 hp.2
    obtain ⟨s2, hrest, hbs2, hwf2, hcells2⟩ :=
      ih { s with board := b1 } hwf1 (fun q hq => hl q (List.mem_cons_of_mem _ hq))
    refine ⟨s2, by simp [placeAll, hfill, hrest], hbs2, hwf2, ?_⟩
    intro r c hnot
    rw [hcells2 r c (fun q hq => hnot q (List.mem_cons_of_mem _ hq))]
    show readCell b1 r c = _
    rw [hcells r c]
    have : ¬ inSquare p.row p.col p.size r c := hnot p (List.mem_cons_self _ _)
    rw [if_neg this]

/-- On the board that holds all the tiles of an exact tiling but one,
`canPlace` accepts the missing tile at its place. -/
theorem canPlace_missing_tile {n : Nat} (mem : Nat → PiecePlacement)
    {sol : List PiecePlacement} (hsol : ExactTiling (sumOf1toN n) sol) {i : Nat}
    {p : PiecePlacement} (hp : sol[i]? = some p) :
    ∃ b, placeAll (initState n mem) (sol.eraseIdx i) = some b ∧
      canPlace b p.row p.col p.size = some (true, b) := by
  obtain ⟨hin, hdis, _⟩ := hsol
  have hwf0 : BoardWF (initState n mem).board (sumOf1toN n) := (init_inv n mem).hboard
  have hothers : ∀ q ∈ sol.eraseIdx i, q.row + q.size ≤ sumOf1toN n ∧
      q.col + q.size ≤ sumOf1toN n := fun q hq => hin q (List.mem_of_mem_eraseIdx hq)
  obtain ⟨b, hb, hbs, hwf, hcells⟩ := placeAll_spec (sol.eraseIdx i) (initState n mem) hwf0 hothers
  have hbsz : b.boardSize = sumOf1toN n := hbs
  refine ⟨b, hb, ?_⟩
  obtain ⟨ok, hok, hiff⟩ := canPlace_spec (s := b) (by rw [hbsz]; exact hwf) p.row p.col p.size
  have hpin := hin p (List.getElem?_mem hp)
  have hfree : SquareFree b p.row p.col p.size := by
    refine ⟨by rw [hbsz]; exact hpin.1, by rw [hbsz]; exact hpin.2, ?_⟩
    intro a d ha hd
    have hcovp : covers p (p.row + a) (p.col + d) := by unfold covers inSquare; omega
    rw [hcells _ _ ?_]
    · obtain ⟨v, hv, hvle, _⟩ := (init_inv n mem).hcell (p.row + a) (p.col + d)
        (by show p.row + a < sumOf1toN n; omega) (by show p.col + d < sumOf1toN n; omega)
      have hv0 : v ≤ 0 := hvle
      rw [hv]
      congr 1
      omega
    · intro q hq hcovq
      obtain ⟨j, hj, hjq⟩ := List.mem_eraseIdx_iff_getElem?.mp hq
      exact hdis j i q p hjq hp hj _ _ ⟨hcovq, hcovp⟩
  have : ok = true := hiff.mpr hfree
  rw [this] at hok
  exact hok

/-! ## Every valid tiling is reported -/

theorem mem_squareCells {t : Nat × Nat × Nat} {r c : Nat} :
    (r, c) ∈ squareCells t ↔ squareCovers t r c := by
  simp [squareCells, squareCovers, inSquare, Finset.mem_product, Finset.mem_Ico]
  tauto

theorem squareCovers_squareOf {p : PiecePlacement} {r c : Nat} :
    squareCovers (squareOf p) r c ↔ covers p r c := Iff.rfl

theorem squareCovers_corner {t : Nat × Nat × Nat} (h : 1 ≤ t.1) :
    squareCovers t t.2.1 t.2.2 := by
  unfold squareCovers inSquare; omega

/-- The sides of the squares of a valid tiling for `n` are at most `n`. -/
theorem ValidTiling.size_le {n : Nat} {T : Finset (Nat × Nat × Nat)} (hT : ValidTiling n T) :
    ∀ t ∈ T, t.1 ≤ n := by
  have hdisj : (T : Set (Nat × Nat × Nat)).PairwiseDisjoint squareCells := by
    intro t ht u hu hne
    show Disjoint (squareCells t) (squareCells u)
    rw [Finset.disjoint_left]
    rintro ⟨r, c⟩ h1 h2
    exact hT.disjoint t ht u hu hne r c ⟨mem_squareCells.mp h1, mem_squareCells.mp h2⟩
  have hcard : (T.biUnion squareCells).card = ∑ t in T, t.1 * t.1 := by
    rw [Finset.card_biUnion hdisj]
    apply Finset.sum_congr rfl
    intro t _
    simp [squareCells, Finset.card_product]
  have hsub : T.biUnion squareCells ⊆
      Finset.range (sumOf1toN n) ×ˢ Finset.range (sumOf1toN n) := by
    rintro ⟨r, c⟩ hx
    obtain ⟨t, ht, hxt⟩ := Finset.mem_biUnion.mp hx
    have hin := hT.inside t ht
    have hcov := mem_squareCells.mp hxt
    unfold squareCovers inSquare at hcov
    simp only [Finset.mem_product, Finset.mem_range]
    omega
  have hle : ∑ t in T, t.1 * t.1 ≤ sumOf1toN n * sumOf1toN n := by
    rw [← hcard]
    have := Finset.card_le_card hsub
    simpa [Finset.card_product] using this
  have hsmall : ∑ t in T.filter (fun t => t.1 ≤ n), t.1 * t.1 =
      sumOf1toN n * sumOf1toN n := by
    have hmaps : ∀ t ∈ T.filter (fun t => t.1 ≤ n), t.1 - 1 ∈ Finset.range n := by
      intro t ht
      rw [Finset.mem_filter] at ht
      have := hT.positive t ht.1
      rw [Finset.mem_range]
      omega
    rw [← Finset.sum_fiberwise_of_maps_to hmaps, ← sum_areas]
    apply Finset.sum_congr rfl
    intro k hk
    rw [Finset.mem_range] at hk
    have hset : (T.filter (fun t => t.1 ≤ n)).filter (fun t => t.1 - 1 = k) =
        T.filter (fun t => t.1 = k + 1) := by
      ext t
      simp only [Finset.mem_filter]
      constructor
      · rintro ⟨⟨ht, _⟩, h2⟩
        have := hT.positive t ht
        exact ⟨ht, by omega⟩
      · rintro ⟨ht, h2⟩
        exact ⟨⟨ht, by omega⟩, by omega⟩
    rw [hset]
    have hconst : ∀ t ∈ T.filter (fun t => t.1 = k + 1), t.1 * t.1 = (k + 1) * (k + 1) := by
      intro t ht
      rw [Finset.mem_filter] at ht
      rw [ht.2]
    rw [Finset.sum_congr rfl hconst, Finset.sum_const, hT.counts (k + 1) (by omega) (by omega)]
    simp
  have hsplit := Finset.sum_filter_add_sum_filter_not T (fun t => t.1 ≤ n) (fun t => t.1 * t.1)
  intro t ht
  by_contra hgt
  have hmem : t ∈ T.filter (fun t => ¬ t.1 ≤ n) := Finset.mem_filter.mpr ⟨ht, hgt⟩
  have hone := Finset.single_le_sum (f := fun t : Nat × Nat × Nat => t.1 * t.1)
    (fun _ _ => Nat.zero_le _) hmem
  have hpos : 1 ≤ t.1 * t.1 := Nat.mul_pos (hT.positive t ht) (hT.positive t ht)
  simp only at hone
  omega

theorem Inv.nodup_squares {s : State} (hs : Inv s) : ((placed s).map squareOf).Nodup := by
  unfold List.Nodup
  rw [List.pairwise_map, List.pairwise_iff_getElem]
  intro i j hi hj hij heq
  have hp := hs.hsize _ (List.getElem_mem hi)
  have h1 : covers (placed s)[i] (placed s)[i].row (placed s)[i].col := by
    unfold covers inSquare; omega
  have h2 : covers (placed s)[j] (placed s)[i].row (placed s)[i].col := by
    rw [← squareCovers_squareOf, ← heq, squareCovers_squareOf]
    exact h1
  exact hs.disjoint (List.getElem?_eq_getElem hi) (List.getElem?_eq_getElem hj) (by omega) _ _
    ⟨h1, h2⟩

theorem countSize_eq_card (l : List PiecePlacement) (k : Nat) (hl : (l.map squareOf).Nodup) :
    countSize l k = ((l.map squareOf).toFinset.filter (fun t => t.1 = k)).card := by
  have h1 : countSize l k = ((l.map squareOf).filter (fun t => decide (t.1 = k))).length := by
    unfold countSize
    rw [List.countP_eq_length_filter, List.filter_map, List.length_map]
    rfl
  rw [h1, ← List.toFinset_card_of_nodup (hl.filter _), List.toFinset_filter]
  congr 1
  ext t
  simp

/-- A square of a valid tiling that is not yet placed is left in the
inventory. -/
theorem count_lt_of_unplaced {s : State} (hs : Inv s) {T : Finset (Nat × Nat × Nat)}
    (hT : ValidTiling s.nValue T) (hsub : ∀ p ∈ placed s, squareOf p ∈ T)
    {t : Nat × Nat × Nat} (ht : t ∈ T) (hnot : ∀ p ∈ placed s, squareOf p ≠ t) :
    countSize (placed s) t.1 < t.1 := by
  rw [countSize_eq_card _ _ hs.nodup_squares]
  have hk1 := hT.positive t ht
  have hkn := hT.size_le t ht
  have hmem : t ∈ T.filter (fun u => u.1 = t.1) := Finset.mem_filter.mpr ⟨ht, rfl⟩
  have hsubset : ((placed s).map squareOf).toFinset.filter (fun u => u.1 = t.1) ⊆
      (T.filter (fun u => u.1 = t.1)).erase t := by
    intro u hu
    rw [Finset.mem_filter, List.mem_toFinset, List.mem_map] at hu
    obtain ⟨⟨p, hp, rfl⟩, hsz⟩ := hu
    rw [Finset.mem_erase, Finset.mem_filter]
    exact ⟨hnot p hp, hsub p hp, hsz⟩
  have hcard := Finset.card_le_card hsubset
  rw [Finset.card_erase_of_mem hmem, hT.counts t.1 hk1 hkn] at hcard
  omega

/-- A placed tile that covers a cell leaves its identifier there, so the cell
is not empty. -/
theorem Inv.covered_ne_zero {s : State} (hs : Inv s) {p : PiecePlacement}
    (hp : p ∈ placed s) {r c : Nat} (hcov : covers p r c) : readCell s.board r c ≠ some 0 := by
  have hpin := hs.hin p hp
  have hr : r < s.boardSize := by unfold covers inSquare at hcov; omega
  have hc : c < s.boardSize := by unfold covers inSquare at hcov; omega
  obtain ⟨v, hv, _, hall⟩ := hs.hcell r c hr hc
  obtain ⟨i, hi⟩ := List.mem_iff_getElem?.mp hp
  have := (hall i p hi).mp hcov
  rw [hv]
  intro h
  have := Option.some.inj h
  omega

/-- A cell that is not empty is covered by a placed tile. -/
theorem Inv.covered_of_ne_zero {s : State} (hs : Inv s) {r c : Nat}
    (hr : r < s.boardSize) (hc : c < s.boardSize) (h : readCell s.board r c ≠ some 0) :
    ∃ p ∈ placed s, covers p r c := by
  obtain ⟨v, hv, hvle, hcov⟩ := hs.hcell r c hr hc
  have hv0 : v ≠ 0 := by
    intro h0
    subst h0
    exact h hv
  have hlt : v - 1 < (placed s).length := by rw [length_placed hs]; omega
  have hget : (placed s)[v - 1]? = some ((placed s)[v - 1]) := List.getElem?_eq_getElem hlt
  exact ⟨_, List.getElem_mem hlt, (hcov (v - 1) _ hget).mpr (by omega)⟩

theorem closed_reportsAll : Closed ReportsAll := by
  constructor
  · intro s hs hfull T hT hsub
    refine ⟨placed s, by simp, ?_⟩
    ext t
    rw [List.mem_toFinset, List.mem_map]
    constructor
    · rintro ⟨p, hp, rfl⟩
      exact hsub p hp
    · intro ht
      have hpos := hT.positive t ht
      have hin := hT.inside t ht
      rw [← hs.hbs] at hin
      obtain ⟨p, hp, hcov⟩ := full_cover hs hfull (r := t.2.1) (c := t.2.2)
        (by omega) (by omega)
      refine ⟨p, hp, ?_⟩
      by_contra hne
      exact hT.disjoint _ (hsub p hp) t ht hne _ _ ⟨hcov, squareCovers_corner hpos⟩
  · intro s hs hne hnone
    obtain ⟨r, c, hr, hc, h0⟩ := exists_empty_of_not_full hs hne
    exact absurd h0 (hnone r c hr hc)
  · intro s r c Ls hs hne hfe hall T hT hsub
    obtain ⟨hr, hc, h0, hfirst⟩ := hfe
    obtain ⟨t, ht, hcov⟩ := hT.cover r c (by rw [← hs.hbs]; exact hr) (by rw [← hs.hbs]; exact hc)
    have hpos := hT.positive t ht
    have hin := hT.inside t ht
    rw [← hs.hbs] at hin
    -- the square `t` is not placed yet
    have hnot : ∀ p ∈ placed s, squareOf p ≠ t := by
      intro p hp heq
      subst heq
      exact hs.covered_ne_zero hp hcov h0
    -- no cell of `t` is covered by a placed tile
    have hfree : ∀ r1 c1, squareCovers t r1 c1 → readCell s.board r1 c1 = some 0 := by
      intro r1 c1 hc1
      by_contra hne0
      have hr1 : r1 < s.boardSize := by unfold squareCovers inSquare at hc1; omega
      have hc1b : c1 < s.boardSize := by unfold squareCovers inSquare at hc1; omega
      obtain ⟨p, hp, hpc⟩ := hs.covered_of_ne_zero hr1 hc1b hne0
      exact hT.disjoint _ (hsub p hp) t ht (hnot p hp) r1 c1 ⟨hpc, hc1⟩
    -- the square `t` is anchored at the first empty cell
    have hanchor : t.2.1 = r ∧ t.2.2 = c := by
      have hcorner := hfree _ _ (squareCovers_corner hpos)
      have hnb : ¬ cellBefore (t.2.1, t.2.2) (r, c) := by
        intro hb
        exact hfirst t.2.1 t.2.2 (by omega) (by omega) hb hcorner
      unfold cellBefore at hnb
      unfold squareCovers inSquare at hcov
      simp only at hnb
      omega
    have hsz := hT.size_le t ht
    have hi : t.1 - 1 < s.nValue := by omega
    have hsucc : t.1 - 1 + 1 = t.1 := by omega
    have htake : Takeable s r c (t.1 - 1) := by
      constructor
      · obtain ⟨cnt, hcnt, hsum⟩ := hs.hcount (t.1 - 1) hi
        have := count_lt_of_unplaced hs hT hsub ht hnot
        rw [hsucc] at hsum
        exact ⟨cnt, hcnt, by omega⟩
      · rw [hsucc]
        refine ⟨by omega, by omega, ?_⟩
        intro i j hi hj
        apply hfree
        unfold squareCovers inSquare
        omega
    obtain ⟨u, hE, hui, hp⟩ := (hall (t.1 - 1) hi).1 htake
    have hTu : ValidTiling u.nValue T := by rw [hE.nValue]; exact hT
    have hsubu : ∀ p ∈ placed u, squareOf p ∈ T := by
      intro p hp
      rw [hE.records, List.mem_append] at hp
      rcases hp with hp | hp
      · exact hsub p hp
      · simp only [List.mem_singleton] at hp
        subst hp
        have : squareOf (newRecord s r c (t.1 - 1)) = t := by
          obtain ⟨a, b, d⟩ := t
          simp only [squareOf, newRecord] at *
          obtain ⟨h1, h2⟩ := hanchor
          subst h1 h2
          rw [hsucc]
        rw [this]
        exact ht
    obtain ⟨sol, hsol, hset⟩ := hp T hTu hsubu
    refine ⟨sol, ?_, hset⟩
    rw [List.mem_flatMap]
    exact ⟨t.1 - 1, by simpa using hi, hsol⟩

/-- The tiling of the `1 × 1` board by its only tile. -/
theorem validTiling_one : ValidTiling 1 {(1, 0, 0)} := by
  have hbs : sumOf1toN 1 = 1 := by decide
  constructor
  · intro t ht
    rw [Finset.mem_singleton] at ht
    subst ht
    decide
  · intro t ht
    rw [Finset.mem_singleton] at ht
    subst ht
    decide
  · intro t ht u hu hne
    rw [Finset.mem_singleton] at ht hu
    exact absurd (ht.trans hu.symm) hne
  · intro r c hr hc
    rw [hbs] at hr hc
    refine ⟨(1, 0, 0), Finset.mem_singleton_self _, ?_⟩
    unfold squareCovers inSquare
    simp only
    omega
  · intro k hk1 hk2
    have hk : k = 1 := by omega
    subst hk
    rfl

/-! ## The reachable states -/

theorem closed_true : Closed (fun _ _ => True) :=
  ⟨fun _ _ _ => trivial, fun _ _ _ _ => trivial, fun _ _ _ _ _ _ _ _ => trivial⟩

/-- A call of `dfsAllSolutions` that returns hands back the frame of its entry
state, whatever the fuel. -/
theorem dfs_frame {s t : State} (hs : Inv s) {fuel : Nat}
    (h : dfsAllSolutions fuel s = some t) : Frame s t := by
  have hbig := dfs_mono (Nat.le_add_right fuel (s.totalSquares + 1)) h
  obtain ⟨t1, _, h1, hfr, _⟩ := dfs_induct closed_true (fuel + (s.totalSquares + 1)) s hs
    (by omega)
  rw [hbig] at h1
  cases h1
  exact hfr

theorem dfsBody_frame {s t : State} (hs : Inv s) (hne : s.placedSoFar ≠ s.totalSquares)
    {r c i fuel : Nat} (hi : i < s.nValue)
    (h : dfsBody (dfsAllSolutions fuel) r c i s = some t) : Frame s t := by
  have hbig : dfsBody (dfsAllSolutions (fuel + s.totalSquares)) r c i s = some t :=
    dfsBody_mono (fun _ _ h1 => dfs_mono (Nat.le_add_right _ _) h1) h
  obtain ⟨t1, _, h1, hfr, _⟩ := @dfsBody_returns (fun _ _ => True) (fuel + s.totalSquares)
    (fun s1 hs1 hf => dfs_induct closed_true (fuel + s.totalSquares) s1 hs1 hf) s r c i hs hne
    (by omega) hi
  rw [hbig] at h1
  cases h1
  exact hfr

theorem LoopAt.frame {s t : State} {r c k j fuel : Nat} (hs : Inv s)
    (hne : s.placedSoFar ≠ s.totalSquares) (hk : k ≤ s.nValue)
    (h : LoopAt (dfsAllSolutions fuel) r c k s j t) : Frame s t ∧ j ≤ k := by
  induction h with
  | start => exact ⟨Frame.refl s, le_refl _⟩
  | step _ hbody ih =>
    obtain ⟨hfr, hjk⟩ := ih
    have hti := inv_of_frame hs hfr
    refine ⟨hfr.trans (dfsBody_frame hti ?_ ?_ hbody), by omega⟩
    · rw [hfr.placedSoFar, hfr.totalSquares]; exact hne
    · rw [hfr.nValue]; omega

/-- What a reachable call site looks like: the state `t` at the head of the
iteration agrees with the entry state `s` of the call on the frame, the cell
is the first empty cell, the tile fits, and the recursive call is entered in
the state described by `Entered`. -/
theorem call_site {s s0 t t0 u : State} {r c i fuel cnt : Nat} (hs : Inv s)
    (hne : s.placedSoFar ≠ s.totalSquares)
    (hfind : findNextEmpty s = some (some (r, c), s0))
    (hloop : LoopAt (dfsAllSolutions fuel) r c s0.nValue s0 (i + 1) t)
    (hcnt : t.squaresCount[i]? = some cnt) (hpos : cnt > 0)
    (hcan : canPlace t r c (i + 1) = some (true, t0))
    (hent : enterTile t0 r c i = some u) :
    s0 = s ∧ FirstEmpty s r c ∧ Frame s t ∧ t0 = t ∧ i < s.nValue ∧
      SquareFree t r c (i + 1) ∧ Entered t r c i u ∧ Inv t ∧ Inv u := by
  obtain ⟨res, hf, _, hsome⟩ := findNextEmpty_spec hs.hboard
  rw [hf] at hfind
  cases hfind
  obtain ⟨hfr, hle⟩ := hloop.frame hs hne (le_refl _)
  have hti := inv_of_frame hs hfr
  obtain ⟨ok, hok, hiff⟩ := canPlace_spec hti.hboard r c (i + 1)
  rw [hok] at hcan
  cases hcan
  have hfree : SquareFree t r c (i + 1) := hiff.mp rfl
  have hnet : t.placedSoFar ≠ t.totalSquares := by
    rw [hfr.placedSoFar, hfr.totalSquares]; exact hne
  obtain ⟨u1, hu1, hE, _⟩ := enterTile_spec hti hnet hcnt hpos hfree
  rw [hu1] at hent
  cases hent
  have hit : i < t.nValue := by rw [hfr.nValue]; omega
  exact ⟨rfl, hsome r c rfl, hfr, rfl, by omega, hfree, hE, hti, entered_inv hti hit hfree hE⟩

/-- Every reachable state satisfies the invariant of the search. -/
theorem reachable_inv {n : Nat} {mem : Nat → PiecePlacement} {s : State}
    (h : Reachable n mem s) : Inv s ∧ s.nValue = n := by
  induction h with
  | top => exact ⟨init_inv n mem, rfl⟩
  | call _ hne hfind hloop hcnt hpos hcan hent ih =>
    obtain ⟨hs, hn⟩ := ih
    obtain ⟨_, _, hfr, _, _, _, hE, _, hui⟩ := call_site hs hne hfind hloop hcnt hpos hcan hent
    exact ⟨hui, by rw [hE.nValue, hfr.nValue, hn]⟩

/-! ## The search over the states it enters -/

theorem sum_initial_counts (n : Nat) :
    ((List.range n).map (fun i => i + 1)).sum = sumOf1toN n := by
  induction n with
  | zero => simp [sumOf1toN]
  | succ n ih =>
    rw [List.range_succ, List.map_append, List.sum_append, ih, sumOf1toN_succ]
    simp


theorem callSite_reachable {n : Nat} {mem : Nat → PiecePlacement} {s w u : State}
    {r c i : Nat} (h : CallSite n mem s r c i w u) : Reachable n mem u := by
  obtain ⟨fuel, hloop⟩ := h.loop
  obtain ⟨cnt, hcnt, hpos⟩ := h.count
  exact Reachable.call h.entry h.notFull h.find hloop hcnt hpos h.can h.enter

/-- What holds at a call site: the loop state agrees with the entry state on
the frame, the cell is the first empty cell, the tile fits there, and the
recursive call is entered in the state described by `Entered`. -/
theorem callSite_facts {n : Nat} {mem : Nat → PiecePlacement} {s w u : State}
    {r c i : Nat} (h : CallSite n mem s r c i w u) :
    Inv s ∧ s.nValue = n ∧ FirstEmpty s r c ∧ Frame s w ∧ i < s.nValue ∧
      SquareFree w r c (i + 1) ∧ Entered w r c i u ∧ Inv w ∧ Inv u := by
  obtain ⟨fuel, hloop⟩ := h.loop
  obtain ⟨cnt, hcnt, hpos⟩ := h.count
  obtain ⟨hs, hn⟩ := reachable_inv h.entry
  obtain ⟨_, hfe, hfr, _, hi, hfree, hE, hwi, hui⟩ :=
    call_site hs h.notFull h.find hloop hcnt hpos h.can h.enter
  exact ⟨hs, hn, hfe, hfr, hi, hfree, hE, hwi, hui⟩

/-- Every recursive call of the search is made at a call site. -/
theorem reachable_cases {n : Nat} {mem : Nat → PiecePlacement} {u : State}
    (h : Reachable n mem u) :
    u = initState n mem ∨ ∃ s r c i w, CallSite n mem s r c i w u := by
  cases h with
  | top => exact Or.inl rfl
  | call hs hne hfind hloop hcnt hpos hcan hent =>
    right
    obtain ⟨hinv, _⟩ := reachable_inv hs
    obtain ⟨h0, _, _, ht0, _⟩ := call_site hinv hne hfind hloop hcnt hpos hcan hent
    subst h0
    subst ht0
    exact ⟨_, _, _, _, _, ⟨hs, hne, hfind, ⟨_, hloop⟩, ⟨_, hcnt, hpos⟩, hcan, hent⟩⟩

theorem dfsBody_reach {n : Nat} {mem : Nat → PiecePlacement}
    {P : State → List (List PiecePlacement) → Prop} {fuel : Nat}
    (ih : ∀ s, Reachable n mem s → s.totalSquares - s.placedSoFar < fuel →
      Returns (P s) s (dfsAllSolutions fuel s))
    {s w : State} {r c i : Nat} (hs : Reachable n mem s)
    (hne : s.placedSoFar ≠ s.totalSquares)
    (hfind : findNextEmpty s = some (some (r, c), s))
    (hloop : LoopAt (dfsAllSolutions fuel) r c s.nValue s (i + 1) w)
    (hfuel : s.totalSquares - s.placedSoFar < fuel + 1) :
    Returns (fun L => (Takeable s r c i → ∃ w1 u, CallSite n mem s r c i w1 u ∧ P u L) ∧
        (¬ Takeable s r c i → L = []))
      w (dfsBody (dfsAllSolutions fuel) r c i w) := by
  obtain ⟨hsi, _⟩ := reachable_inv hs
  obtain ⟨hfr, hik⟩ := hloop.frame hsi hne (le_refl _)
  have hw : Inv w := inv_of_frame hsi hfr
  have hi : i < w.nValue := by rw [hfr.nValue]; omega
  have hnew : w.placedSoFar ≠ w.totalSquares := by
    rw [hfr.placedSoFar, hfr.totalSquares]; exact hne
  have hil : i < w.squaresCount.length := by rw [hw.hcntLen]; exact hi
  have hcnt : w.squaresCount[i]? = some (w.squaresCount[i]) := List.getElem?_eq_getElem hil
  obtain ⟨ok, hok, hiff⟩ := canPlace_spec hw.hboard r c (i + 1)
  have hskip : ¬ Takeable w r c i →
      Returns (fun L => (Takeable s r c i → ∃ w1 u, CallSite n mem s r c i w1 u ∧ P u L) ∧
        (¬ Takeable s r c i → L = [])) w (some w) := by
    intro hnt
    exact ⟨w, [], rfl, Frame.refl w, by simp [number], by simp,
      fun h => absurd ((takeable_of_frame hfr).mpr h) hnt, fun _ => rfl⟩
  by_cases hpos : 0 < w.squaresCount[i]
  · cases ok with
    | false =>
      have hnt : ¬ Takeable w r c i := by
        rintro ⟨_, hfree⟩
        have := hiff.mpr hfree
        cases this
      have : dfsBody (dfsAllSolutions fuel) r c i w = some w := by
        simp [dfsBody, hcnt, hpos, hok]
      rw [this]
      exact hskip hnt
    | true =>
      have hfree : SquareFree w r c (i + 1) := hiff.mp rfl
      obtain ⟨t, hent, hE, hsc, hout⟩ := enterTile_spec hw hnew hcnt hpos hfree
      have hsite : CallSite n mem s r c i w t :=
        ⟨hs, hne, hfind, ⟨fuel, hloop⟩, ⟨_, hcnt, hpos⟩, hok, hent⟩
      have htf : t.totalSquares - t.placedSoFar < fuel := by
        rw [hE.totalSquares, hE.placedSoFar, hfr.totalSquares, hfr.placedSoFar]
        have := hsi.hplaced
        omega
      obtain ⟨u, L, hcall, hfru, huo, huc, hP⟩ := ih t (callSite_reachable hsite) htf
      obtain ⟨w2, hleave, hfw, hwc, hwo⟩ := leaveTile_spec hw hfree hE hfru
      refine ⟨w2, L, ?_, hfw, ?_, ?_, fun _ => ⟨w, t, hsite, hP⟩, ?_⟩
      · simp [dfsBody, hcnt, hpos, hok, hent, hcall, hleave]
      · rw [hwo, huo, hout, hsc]
      · rw [hwc, huc, hsc]
      · intro hnt
        exact absurd ((takeable_of_frame hfr).mp ⟨⟨_, hcnt, hpos⟩, hfree⟩) hnt
  · have hnt : ¬ Takeable w r c i := by
      rintro ⟨⟨cnt, h1, h2⟩, _⟩
      rw [hcnt] at h1
      cases h1
      exact hpos h2
    have : dfsBody (dfsAllSolutions fuel) r c i w = some w := by
      simp [dfsBody, hcnt, hpos]
    rw [this]
    exact hskip hnt

theorem dfsLoop_reach {n : Nat} {mem : Nat → PiecePlacement}
    {P : State → List (List PiecePlacement) → Prop} {fuel : Nat}
    (ih : ∀ s, Reachable n mem s → s.totalSquares - s.placedSoFar < fuel →
      Returns (P s) s (dfsAllSolutions fuel s))
    {s : State} {r c : Nat} (hs : Reachable n mem s)
    (hne : s.placedSoFar ≠ s.totalSquares)
    (hfind : findNextEmpty s = some (some (r, c), s))
    (hfuel : s.totalSquares - s.placedSoFar < fuel + 1) (k : Nat) :
    ∀ w, LoopAt (dfsAllSolutions fuel) r c s.nValue s k w →
      ∃ Ls : Nat → List (List PiecePlacement),
        Returns (fun L => L = (List.range k).reverse.flatMap Ls ∧
          ∀ i, i < k →
            (Takeable s r c i → ∃ w1 u, CallSite n mem s r c i w1 u ∧ P u (Ls i)) ∧
            (¬ Takeable s r c i → Ls i = []))
        w (dfsLoop (dfsAllSolutions fuel) r c k w) := by
  induction k with
  | zero =>
    intro w _
    refine ⟨fun _ => [], w, [], rfl, Frame.refl w, by simp [number], by simp, by simp, ?_⟩
    intro i hi
    omega
  | succ k ihk =>
    intro w hloop
    obtain ⟨w1, Lk, hbody, hfw, hwo, hwc, hT, hN⟩ := dfsBody_reach ih hs hne hfind hloop hfuel
    obtain ⟨Ls, t, L, hl, hft, hto, htc, hL, hall⟩ := ihk w1 (LoopAt.step hloop hbody)
    refine ⟨fun i => if i = k then Lk else Ls i, t, Lk ++ L, ?_, hfw.trans hft, ?_, ?_, ?_, ?_⟩
    · simp [dfsLoop, hbody, hl]
    · rw [hto, hwo, hwc, number_append, List.append_assoc]
    · rw [htc, hwc, List.length_append]; omega
    · rw [List.range_succ, List.reverse_append]
      simp only [List.reverse_cons, List.reverse_nil, List.nil_append, List.singleton_append,
        List.flatMap_cons, if_true]
      rw [hL]
      congr 1
      apply List.flatMap_congr
      intro i hi
      have : i < k := by simpa using hi
      have hik : ¬ i = k := by omega
      simp only [hik, if_false]
    · intro i hi
      by_cases hik : i = k
      · subst hik
        simp only [if_true]
        exact ⟨hT, hN⟩
      · simp only [hik, if_false]
        exact hall i (by omega)

/-- The induction principle of the search over the states it really enters:
a property closed at the call sites holds of the list of the solutions that a
call of `dfsAllSolutions` reports. -/
theorem dfs_induct_reach {n : Nat} {mem : Nat → PiecePlacement}
    {P : State → List (List PiecePlacement) → Prop} (hP : ClosedAt n mem P)
    (fuel : Nat) : ∀ s, Reachable n mem s → s.totalSquares - s.placedSoFar < fuel →
      Returns (P s) s (dfsAllSolutions fuel s) := by
  induction fuel with
  | zero => intro s _ h; omega
  | succ fuel ih =>
    intro s hs hfuel
    obtain ⟨hsi, _⟩ := reachable_inv hs
    by_cases hfull : s.placedSoFar = s.totalSquares
    · have hlen : s.totalSquares ≤ s.placements.length := by rw [hsi.hplLen]
      have hpl : List.take s.totalSquares s.placements = placed s := by
        unfold placed; rw [hfull]
      refine ⟨{ s with
          solutionCount := s.solutionCount + 1
          output := s.output ++ [⟨s.solutionCount + 1, s.placements.take s.totalSquares⟩] },
        [placed s], ?_, ?_, ?_, ?_, hP.full s hs hfull⟩
      · simp [dfsAllSolutions, hfull, reportSolution, hlen]
      · exact ⟨rfl, rfl, rfl, rfl, rfl, rfl, rfl, rfl⟩
      · simp [number, hpl]
      · simp
    · obtain ⟨res, hfind, hnone, hsome⟩ := findNextEmpty_spec hsi.hboard
      cases res with
      | none =>
        obtain ⟨r, c, hr, hc, h0⟩ := exists_empty_of_not_full hsi hfull
        exact absurd h0 (hnone rfl r c hr hc)
      | some rc =>
        obtain ⟨r, c⟩ := rc
        have hfe : FirstEmpty s r c := hsome r c rfl
        obtain ⟨Ls, t, L, hloop, hft, hto, htc, hL, hall⟩ :=
          dfsLoop_reach ih hs hfull hfind hfuel s.nValue s LoopAt.start
        refine ⟨t, L, ?_, hft, hto, htc, ?_⟩
        · simp [dfsAllSolutions, hfull, hfind, hloop]
        · rw [hL]
          exact hP.branch s r c Ls hs hfull hfe hall

/-- The search as `main` runs it, with a property closed at the call sites. -/
theorem run_returns_reach {n : Nat} {mem : Nat → PiecePlacement}
    {P : State → List (List PiecePlacement) → Prop} (hP : ClosedAt n mem P)
    (hn : 1 ≤ n) (fuel : Nat) (hfuel : sumOf1toN n < fuel) :
    ∃ t L, runSearch n mem fuel = some t ∧ Frame (initState n mem) t ∧
      t.output = number 0 L ∧ t.solutionCount = L.length ∧ P (initState n mem) L := by
  have hlt : (initState n mem).totalSquares - (initState n mem).placedSoFar < fuel := by
    simp only [initState]
    omega
  obtain ⟨t, L, hrun, hfr, hout, hcnt, hp⟩ := dfs_induct_reach hP fuel _ Reachable.top hlt
  refine ⟨t, L, ?_, hfr, ?_, ?_, hp⟩
  · have : ¬ n < 1 := by omega
    simp [runSearch, this, hrun]
  · simpa [initState] using hout
  · simpa [initState] using hcnt

theorem searchPath_reachable {n : Nat} {mem : Nat → PiecePlacement}
    {sq : List (Nat × Nat × Nat)} {u : State} (h : SearchPath n mem sq u) :
    Reachable n mem u := by
  cases h with
  | top => exact Reachable.top
  | call _ hsite => exact callSite_reachable hsite

/-- The records of the placed tiles are the squares placed along the search
path, in the same order. -/
theorem searchPath_squares {n : Nat} {mem : Nat → PiecePlacement}
    {sq : List (Nat × Nat × Nat)} {u : State} (h : SearchPath n mem sq u) :
    (placed u).map squareOf = sq := by
  induction h with
  | top => simp [placed, initState]
  | call _ hsite ih =>
    obtain ⟨_, _, _, hfr, _, _, hE, _, _⟩ := callSite_facts hsite
    rw [hE.records, hfr.records, List.map_append, ih]
    simp [squareOf, newRecord]

theorem reachable_searchPath {n : Nat} {mem : Nat → PiecePlacement} {u : State}
    (h : Reachable n mem u) : ∃ sq, SearchPath n mem sq u := by
  induction h with
  | top => exact ⟨[], SearchPath.top⟩
  | call hs hne hfind hloop hcnt hpos hcan hent ih =>
    obtain ⟨sq, hsq⟩ := ih
    obtain ⟨hinv, _⟩ := reachable_inv hs
    obtain ⟨h0, _, _, ht0, _⟩ := call_site hinv hne hfind hloop hcnt hpos hcan hent
    subst h0
    subst ht0
    exact ⟨_, SearchPath.call hsq
      ⟨hs, hne, hfind, ⟨_, hloop⟩, ⟨_, hcnt, hpos⟩, hcan, hent⟩⟩

theorem closedAt_reportedFrom (n : Nat) (mem : Nat → PiecePlacement) :
    ClosedAt n mem (fun s L => ∀ sq, SearchPath n mem sq s →
      ∀ sol ∈ L, ∃ sq1 u, ReportedFrom n mem sol sq1 u) := by
  constructor
  · intro s _ hfull sq hsq sol hsol
    simp only [List.mem_singleton] at hsol
    subst hsol
    refine ⟨sq, s, hsq, hfull, ?_⟩
    unfold placed
    rw [hfull]
  · intro s r c Ls _ _ _ hall sq hsq sol hsol
    rw [List.mem_flatMap] at hsol
    obtain ⟨i, hi, hsoli⟩ := hsol
    have hin : i < s.nValue := by simpa using hi
    obtain ⟨h1, h2⟩ := hall i hin
    by_cases ht : Takeable s r c i
    · obtain ⟨w, u, hsite, hp⟩ := h1 ht
      exact hp _ (SearchPath.call hsq hsite) sol hsoli
    · rw [h2 ht] at hsoli
      simp at hsoli

/-- Every report of a run is made by a call entered with all tiles placed. -/
theorem run_reportedFrom (n : Nat) (hn : 1 ≤ n) (mem : Nat → PiecePlacement) (fuel : Nat)
    (hfuel : sumOf1toN n < fuel) :
    ∃ t L, runSearch n mem fuel = some t ∧ t.output = number 0 L ∧
      t.solutionCount = L.length ∧
      ∀ sol ∈ L, ∃ sq u, ReportedFrom n mem sol sq u := by
  obtain ⟨t, L, hrun, _, hout, hcnt, hp⟩ :=
    run_returns_reach (closedAt_reportedFrom n mem) hn fuel hfuel
  exact ⟨t, L, hrun, hout, hcnt, hp [] SearchPath.top⟩

theorem reportedFrom_records {n : Nat} {mem : Nat → PiecePlacement}
    {sol : List PiecePlacement} {sq : List (Nat × Nat × Nat)} {u : State}
    (h : ReportedFrom n mem sol sq u) : sol = placed u ∧ Inv u ∧ u.nValue = n := by
  obtain ⟨hsq, hfull, hsol⟩ := h
  obtain ⟨hinv, hn⟩ := reachable_inv (searchPath_reachable hsq)
  refine ⟨?_, hinv, hn⟩
  rw [hsol]
  unfold placed
  rw [hfull]

theorem visited_inv {n : Nat} {mem : Nat → PiecePlacement} {s : State}
    (h : Visited n mem s) : Inv s ∧ s.nValue = n := by
  cases h with
  | entry hs => exact reachable_inv hs
  | loopHead hs hne _ hloop =>
    obtain ⟨hinv, hn⟩ := reachable_inv hs
    obtain ⟨hfr, _⟩ := hloop.frame hinv hne (le_refl _)
    exact ⟨inv_of_frame hinv hfr, by rw [hfr.nValue, hn]⟩
  | exit hs hret =>
    obtain ⟨hinv, hn⟩ := reachable_inv hs
    have hfr := dfs_frame hinv hret
    exact ⟨inv_of_frame hinv hfr, by rw [hfr.nValue, hn]⟩

/-- A state entered by a recursive call of the search for `n = 1`. -/
theorem reachable_one :
    Reachable 1 (fun _ => ⟨0, 0, 0, 0⟩) ⟨1, [[1]], [0], 1, 1, 1, [⟨1, 1, 0, 0⟩], 0, []⟩ :=
  @Reachable.call 1 (fun _ => ⟨0, 0, 0, 0⟩) (initState 1 (fun _ => ⟨0, 0, 0, 0⟩))
    (initState 1 (fun _ => ⟨0, 0, 0, 0⟩)) (initState 1 (fun _ => ⟨0, 0, 0, 0⟩))
    (initState 1 (fun _ => ⟨0, 0, 0, 0⟩)) ⟨1, [[1]], [0], 1, 1, 1, [⟨1, 1, 0, 0⟩], 0, []⟩
    0 0 0 1 1 Reachable.top (by decide) (by decide) LoopAt.start (by decide) (by decide)
    (by decide) (by decide)

theorem sum_set_pred (l : List Nat) (i cnt : Nat) (h : l[i]? = some cnt) (hpos : 0 < cnt) :
    (l.set i (cnt - 1)).sum + 1 = l.sum := by
  induction l generalizing i with
  | nil => simp at h
  | cons a rest ih =>
    cases i with
    | zero =>
      simp only [List.getElem?_cons_zero, Option.some.injEq] at h
      subst h
      simp only [List.set_cons_zero, List.sum_cons]
      omega
    | succ i =>
      simp only [List.getElem?_cons_succ] at h
      have := ih i h
      simp only [List.set_cons_succ, List.sum_cons]
      omega

/-- The depth of a call, the number of recursive calls on its search path, is
its `placedSoFar`. -/
theorem searchPath_length {n : Nat} {mem : Nat → PiecePlacement}
    {sq : List (Nat × Nat × Nat)} {u : State} (h : SearchPath n mem sq u) :
    sq.length = u.placedSoFar := by
  obtain ⟨hinv, _⟩ := reachable_inv (searchPath_reachable h)
  rw [← searchPath_squares h, List.length_map, length_placed hinv]

theorem closedAt_of_closed {P : State → List (List PiecePlacement) → Prop} (hP : Closed P)
    (n : Nat) (mem : Nat → PiecePlacement) : ClosedAt n mem P := by
  constructor
  · intro s hs hfull
    exact hP.full s (reachable_inv hs).1 hfull
  · intro s r c Ls hs hne hfe hall
    apply hP.branch s r c Ls (reachable_inv hs).1 hne hfe
    intro i hi
    obtain ⟨h1, h2⟩ := hall i hi
    refine ⟨?_, h2⟩
    intro ht
    obtain ⟨w, u, hsite, hp⟩ := h1 ht
    obtain ⟨_, _, _, hfr, _, _, hE, _, hui⟩ := callSite_facts hsite
    exact ⟨u, entered_of_frame hfr hE, hui, hp⟩

theorem closedAt_and {n : Nat} {mem : Nat → PiecePlacement}
    {P Q : State → List (List PiecePlacement) → Prop}
    (hP : ClosedAt n mem P) (hQ : ClosedAt n mem Q) :
    ClosedAt n mem (fun s L => P s L ∧ Q s L) := by
  constructor
  · intro s hs hfull
    exact ⟨hP.full s hs hfull, hQ.full s hs hfull⟩
  · intro s r c Ls hs hne hfe hall
    constructor
    · apply hP.branch s r c Ls hs hne hfe
      intro i hi
      obtain ⟨h1, h2⟩ := hall i hi
      refine ⟨?_, h2⟩
      intro ht
      obtain ⟨w, u, hsite, hp, _⟩ := h1 ht
      exact ⟨w, u, hsite, hp⟩
    · apply hQ.branch s r c Ls hs hne hfe
      intro i hi
      obtain ⟨h1, h2⟩ := hall i hi
      refine ⟨?_, h2⟩
      intro ht
      obtain ⟨w, u, hsite, _, hq⟩ := h1 ht
      exact ⟨w, u, hsite, hq⟩

theorem closed_ordered : Closed Ordered := by
  constructor
  · intro s _ _
    exact ⟨fun sol hsol => ⟨[], by simpa using hsol⟩, List.pairwise_singleton _ _⟩
  · intro s _ _ _
    exact ⟨fun sol hsol => by simp at hsol, List.Pairwise.nil⟩
  · intro s r c Ls hs hne hfe hall
    have hlen := length_placed hs
    -- every solution of the branch `i` starts with the records of `s` and the new record
    have hext : ∀ i, i < s.nValue → ∀ sol ∈ Ls i,
        ∃ rest, sol = placed s ++ newRecord s r c i :: rest := by
      intro i hi sol hsol
      obtain ⟨h1, h2⟩ := hall i hi
      by_cases ht : Takeable s r c i
      · obtain ⟨t, hE, _, hp⟩ := h1 ht
        obtain ⟨rest, hrest⟩ := hp.1 sol hsol
        refine ⟨rest, ?_⟩
        rw [hrest, hE.records, List.append_assoc]
        rfl
      · rw [h2 ht] at hsol
        simp at hsol
    constructor
    · intro sol hsol
      rw [List.mem_flatMap] at hsol
      obtain ⟨i, hi, hsoli⟩ := hsol
      have hin : i < s.nValue := by simpa using hi
      obtain ⟨rest, hrest⟩ := hext i hin sol hsoli
      exact ⟨_, hrest⟩
    · rw [List.pairwise_flatMap]
      constructor
      · intro i hi
        have hin : i < s.nValue := by simpa using hi
        obtain ⟨h1, h2⟩ := hall i hin
        by_cases ht : Takeable s r c i
        · obtain ⟨t, _, _, hp⟩ := h1 ht
          exact hp.2
        · rw [h2 ht]
          exact List.Pairwise.nil
      · rw [List.pairwise_reverse]
        have hpw : (List.range s.nValue).Pairwise (fun a b => a < b ∧ b < s.nValue) := by
          rw [List.pairwise_iff_getElem]
          intro i j hi hj hij
          simp only [List.getElem_range]
          simp only [List.length_range] at hj
          exact ⟨hij, hj⟩
        refine hpw.imp ?_
        intro b a hab A hA B hB
        obtain ⟨ra, hra⟩ := hext a hab.2 A hA
        obtain ⟨rb, hrb⟩ := hext b (by omega) B hB
        refine ⟨(placed s).length, newRecord s r c a, newRecord s r c b, ?_, ?_, ?_, ?_, rfl, rfl⟩
        · rw [hra, hrb, List.take_left', List.take_left'] <;> rfl
        · rw [hra, List.getElem?_append_right (le_refl _)]
          simp
        · rw [hrb, List.getElem?_append_right (le_refl _)]
          simp
        · simp only [newRecord]
          omega

theorem canonical_init (n : Nat) (mem : Nat → PiecePlacement) :
    Canonical (initState n mem) := by
  have hpl : placed (initState n mem) = [] := by simp [placed, initState]
  constructor
  · rw [hpl]; exact List.Pairwise.nil
  · rw [hpl]; intro p hp; simp at hp

theorem canonical_of_frame {s w : State} (h : Frame s w) (hs : Canonical s) :
    Canonical w := by
  constructor
  · rw [h.records]; exact hs.sorted
  · rw [h.records, h.boardSize, h.board]; exact hs.filled

/-- Placing a tile at the first empty cell keeps the placed tiles in canonical
order. -/
theorem canonical_step {s t : State} {r c i : Nat} (hs : Inv s) (hc : Canonical s)
    (hfe : FirstEmpty s r c) (hE : Entered s r c i t) : Canonical t := by
  obtain ⟨hr, hcb, h0, hfirst⟩ := hfe
  have hnz : ∀ r1 c1, readCell s.board r1 c1 ≠ some 0 → readCell t.board r1 c1 ≠ some 0 := by
    intro r1 c1 h
    rw [hE.cells r1 c1]
    by_cases hsq : inSquare r c (i + 1) r1 c1
    · rw [if_pos hsq]; simp
    · rw [if_neg hsq]; exact h
  constructor
  · rw [hE.records, List.pairwise_append]
    refine ⟨hc.sorted, List.pairwise_singleton _ _, ?_⟩
    intro p hp q hq
    simp only [List.mem_singleton] at hq
    subst hq
    have hsz := hs.hsize p hp
    have hcorner : readCell s.board p.row p.col ≠ some 0 :=
      hs.covered_ne_zero hp (by unfold covers inSquare; omega)
    have hnot : ¬ cellBefore (r, c) (p.row, p.col) := fun hb => hc.filled p hp r c hr hcb hb h0
    have hne : ¬ (p.row = r ∧ p.col = c) := by
      rintro ⟨h1, h2⟩
      rw [h1, h2] at hcorner
      exact hcorner h0
    unfold cornerBefore cellBefore at *
    simp only [newRecord] at *
    omega
  · intro p hp r1 c1 hr1 hc1 hb
    rw [hE.boardSize] at hr1 hc1
    apply hnz
    rw [hE.records, List.mem_append] at hp
    rcases hp with hp | hp
    · exact hc.filled p hp r1 c1 hr1 hc1 hb
    · simp only [List.mem_singleton] at hp
      subst hp
      exact hfirst r1 c1 hr1 hc1 hb

theorem reachable_canonical {n : Nat} {mem : Nat → PiecePlacement} {s : State}
    (h : Reachable n mem s) : Canonical s := by
  induction h with
  | top => exact canonical_init n mem
  | call hs hne hfind hloop hcnt hpos hcan hent ih =>
    obtain ⟨hinv, _⟩ := reachable_inv hs
    obtain ⟨_, hfe, hfr, _, _, _, hE, hti, _⟩ :=
      call_site hinv hne hfind hloop hcnt hpos hcan hent
    exact canonical_step hti (canonical_of_frame hfr ih) (firstEmpty_of_frame hfr hfe) hE

theorem visited_canonical {n : Nat} {mem : Nat → PiecePlacement} {s : State}
    (h : Visited n mem s) : Canonical s := by
  cases h with
  | entry hs => exact reachable_canonical hs
  | loopHead hs hne _ hloop =>
    obtain ⟨hinv, _⟩ := reachable_inv hs
    obtain ⟨hfr, _⟩ := hloop.frame hinv hne (le_refl _)
    exact canonical_of_frame hfr (reachable_canonical hs)
  | exit hs hret =>
    obtain ⟨hinv, _⟩ := reachable_inv hs
    exact canonical_of_frame (dfs_frame hinv hret) (reachable_canonical hs)

/-- Two placement sequences in canonical order, each numbered by position,
with the same set of squares are equal. -/
theorem canonical_determined {A B : List PiecePlacement}
    (hA : A.Pairwise cornerBefore) (hB : B.Pairwise cornerBefore)
    (hidA : ∀ (i : Nat) (p : PiecePlacement), A[i]? = some p → p.id = i + 1)
    (hidB : ∀ (i : Nat) (p : PiecePlacement), B[i]? = some p → p.id = i + 1)
    (hset : (A.map squareOf).toFinset = (B.map squareOf).toFinset) : A = B := by
  have hirr : ∀ t : Nat × Nat × Nat, ¬ squareBefore t t := by
    intro t h
    unfold squareBefore cellBefore at h
    simp only at h
    omega
  have hsA : (A.map squareOf).Pairwise squareBefore := by
    rw [List.pairwise_map]; exact hA
  have hsB : (B.map squareOf).Pairwise squareBefore := by
    rw [List.pairwise_map]; exact hB
  have hne : ∀ {a b : Nat × Nat × Nat}, squareBefore a b → a ≠ b := by
    intro a b h e
    subst e
    exact hirr a h
  have hndA : (A.map squareOf).Nodup := hsA.imp hne
  have hndB : (B.map squareOf).Nodup := hsB.imp hne
  have hperm : (A.map squareOf).Perm (B.map squareOf) :=
    List.perm_of_nodup_nodup_toFinset_eq hndA hndB hset
  haveI : IsAntisymm (Nat × Nat × Nat) squareBefore := ⟨by
    intro a b h1 h2
    unfold squareBefore cellBefore at h1 h2
    simp only at h1 h2
    omega⟩
  have hmap : A.map squareOf = B.map squareOf := List.eq_of_perm_of_sorted hperm hsA hsB
  have hlen : A.length = B.length := by
    have := congrArg List.length hmap
    simpa using this
  apply List.ext_getElem hlen
  intro i hi1 hi2
  have h1 := hidA i A[i] (List.getElem?_eq_getElem hi1)
  have h2 := hidB i B[i] (List.getElem?_eq_getElem hi2)
  have h3 : squareOf A[i] = squareOf B[i] := by
    have : (A.map squareOf)[i]? = (B.map squareOf)[i]? := by rw [hmap]
    simpa [List.getElem?_map, List.getElem?_eq_getElem hi1, List.getElem?_eq_getElem hi2]
      using this
  cases hAi : A[i] with
  | mk ida sza rowa cola =>
    cases hBi : B[i] with
    | mk idb szb rowb colb =>
      rw [hAi] at h1 h3
      rw [hBi] at h2 h3
      simp only [squareOf, Prod.mk.injEq] at h3
      simp only at h1 h2
      obtain ⟨e1, e2, e3⟩ := h3
      subst e1 e2 e3
      rw [h1, h2]

theorem number_getElem (k : Nat) (L : List (List PiecePlacement)) (a : Nat) :
    (number k L)[a]? = (L[a]?).map (fun sol => (⟨k + a + 1, sol⟩ : Report)) := by
  induction L generalizing k a with
  | nil => simp [number]
  | cons x rest ih =>
    cases a with
    | zero => simp [number]
    | succ a =>
      simp only [number, List.getElem?_cons_succ, ih]
      congr 1
      funext sol
      congr 1
      omega

/-- The set of squares of the records of a full state is a valid tiling. -/
theorem fullState_valid {s : State} (hs : Inv s) (hfull : s.placedSoFar = s.totalSquares) :
    ValidTiling s.nValue ((placed s).map squareOf).toFinset := by
  have hmem : ∀ t, t ∈ ((placed s).map squareOf).toFinset ↔
      ∃ (i : Nat) (p : PiecePlacement), (placed s)[i]? = some p ∧ squareOf p = t := by
    intro t
    rw [List.mem_toFinset, List.mem_map]
    constructor
    · rintro ⟨p, hp, rfl⟩
      obtain ⟨i, hi⟩ := List.mem_iff_getElem?.mp hp
      exact ⟨i, p, hi, rfl⟩
    · rintro ⟨i, p, hi, rfl⟩
      exact ⟨p, List.getElem?_mem hi, rfl⟩
  constructor
  · intro t ht
    obtain ⟨i, p, hi, rfl⟩ := (hmem t).mp ht
    exact (hs.hsize p (List.getElem?_mem hi)).1
  · intro t ht
    obtain ⟨i, p, hi, rfl⟩ := (hmem t).mp ht
    rw [← hs.hbs]
    exact hs.hin p (List.getElem?_mem hi)
  · intro t ht u hu hne r c
    obtain ⟨i, p, hi, rfl⟩ := (hmem t).mp ht
    obtain ⟨j, q, hj, rfl⟩ := (hmem u).mp hu
    have hij : i ≠ j := by
      intro e
      subst e
      rw [hi] at hj
      cases hj
      exact hne rfl
    exact hs.disjoint hi hj hij r c
  · intro r c hr hc
    rw [← hs.hbs] at hr hc
    obtain ⟨p, hp, hcov⟩ := full_cover hs hfull hr hc
    exact ⟨squareOf p, by rw [List.mem_toFinset]; exact List.mem_map_of_mem _ hp, hcov⟩
  · intro k hk1 hkn
    rw [← countSize_eq_card _ _ hs.nodup_squares]
    have := full_counts hs hfull (k - 1) (by omega)
    rw [show k - 1 + 1 = k by omega] at this
    exact this

theorem emittedBefore_ne {A B : List PiecePlacement} (h : EmittedBefore A B) : A ≠ B := by
  obtain ⟨j, p, q, _, hp, hq, hlt, _⟩ := h
  intro e
  subst e
  rw [hp] at hq
  cases hq
  omega

theorem emittedBefore_sizes {A B : List PiecePlacement} (h : EmittedBefore A B) :
    ∃ (j : Nat) (p q : PiecePlacement),
      (∀ k, k < j → (A.map (fun x => x.size))[k]? = (B.map (fun x => x.size))[k]?) ∧
      A[j]? = some p ∧ B[j]? = some q ∧ q.size < p.size ∧ p.row = q.row ∧ p.col = q.col := by
  obtain ⟨j, p, q, htake, hp, hq, hlt, hrow, hcol⟩ := h
  refine ⟨j, p, q, ?_, hp, hq, hlt, hrow, hcol⟩
  intro k hk
  have h1 : (A.take j)[k]? = A[k]? := List.getElem?_take_of_lt hk
  have h2 : (B.take j)[k]? = B[k]? := List.getElem?_take_of_lt hk
  rw [List.getElem?_map, List.getElem?_map, ← h1, ← h2, htake]

/-- What a run of the search reports: every solution is reported by a call
entered with all tiles placed, the solutions are in the order of emission, and
every valid tiling is among them. -/
theorem run_summary (n : Nat) (hn : 1 ≤ n) (mem : Nat → PiecePlacement) (fuel : Nat)
    (hfuel : sumOf1toN n < fuel) :
    ∃ t L, runSearch n mem fuel = some t ∧ t.output = number 0 L ∧
      t.solutionCount = L.length ∧
      (∀ sol ∈ L, ∃ sq u, ReportedFrom n mem sol sq u) ∧
      L.Pairwise EmittedBefore ∧ ReportsAll (initState n mem) L := by
  obtain ⟨t, L, hrun, _, hout, hcnt, h1, h2, h3⟩ :=
    run_returns_reach
      (closedAt_and (closedAt_reportedFrom n mem)
        (closedAt_and (closedAt_of_closed closed_ordered n mem)
          (closedAt_of_closed closed_reportsAll n mem))) hn fuel hfuel
  exact ⟨t, L, hrun, hout, hcnt, h1 [] SearchPath.top, h2.2, h3⟩

/-- A reported solution is in canonical order, numbered by position, and its
set of squares is a valid tiling. -/
theorem reportedFrom_canonical {n : Nat} {mem : Nat → PiecePlacement}
    {sol : List PiecePlacement} {sq : List (Nat × Nat × Nat)} {u : State}
    (h : ReportedFrom n mem sol sq u) :
    sol.Pairwise cornerBefore ∧
    (∀ (i : Nat) (p : PiecePlacement), sol[i]? = some p → p.id = i + 1) ∧
    ValidTiling n ((sol.map squareOf).toFinset) := by
  obtain ⟨hpl, hinv, hn⟩ := reportedFrom_records h
  have hcan := reachable_canonical (searchPath_reachable h.1)
  rw [hpl]
  refine ⟨hcan.sorted, hinv.hid, ?_⟩
  rw [← hn]
  exact fullState_valid hinv h.2.1

/-- Two different solutions of a run have different sets of squares. -/
theorem distinct_sets {n : Nat} {mem : Nat → PiecePlacement}
    {L : List (List PiecePlacement)}
    (hrep : ∀ sol ∈ L, ∃ sq u, ReportedFrom n mem sol sq u)
    (hord : L.Pairwise EmittedBefore) :
    L.Pairwise (fun A B => (A.map squareOf).toFinset ≠ (B.map squareOf).toFinset) := by
  refine hord.imp_of_mem ?_
  intro A B hA hB hAB hset
  obtain ⟨_, _, ha⟩ := hrep A hA
  obtain ⟨_, _, hb⟩ := hrep B hB
  obtain ⟨hsa, hida, _⟩ := reportedFrom_canonical ha
  obtain ⟨hsb, hidb, _⟩ := reportedFrom_canonical hb
  exact emittedBefore_ne hAB (canonical_determined hsa hsb hida hidb hset)

/-! ## The program on `int` and the exact model -/

theorem wrapInt32_of_lt {z : Int} (h0 : 0 ≤ z) (h1 : z < 2147483648) : wrapInt32 z = z := by
  unfold wrapInt32
  omega

/-- The product `n (n + 1)` fits an `int` exactly for `n ≤ 46340`. -/
theorem fits_iff (n : Nat) : n * (n + 1) < 2147483648 ↔ n ≤ 46340 := by
  constructor
  · intro h
    by_contra hn
    have h1 : 46341 ≤ n := by omega
    have h2 : 46341 * (46341 + 1) ≤ n * (n + 1) := Nat.mul_le_mul h1 (by omega)
    omega
  · intro h
    have h2 : n * (n + 1) ≤ 46340 * (46340 + 1) := Nat.mul_le_mul h (by omega)
    omega

/-- While `n (n + 1)` fits an `int`, the program computes the exact sum. -/
theorem sumOf1toNInt_eq {n : Nat} (hfit : n * (n + 1) < 2147483648) :
    sumOf1toNInt (n : Int) = ((sumOf1toN n : Nat) : Int) := by
  have hn : n + 1 < 2147483648 := by
    rcases Nat.eq_zero_or_pos n with h | h
    · subst h; omega
    · have : n + 1 ≤ n * (n + 1) := Nat.le_mul_of_pos_left _ h
      omega
  have h1 : wrapInt32 ((n : Int) + 1) = (n : Int) + 1 :=
    wrapInt32_of_lt (by omega) (by omega)
  have hprod : (n : Int) * ((n : Int) + 1) = ((n * (n + 1) : Nat) : Int) := by push_cast; ring
  have h2 : wrapInt32 (((n * (n + 1) : Nat) : Int)) = ((n * (n + 1) : Nat) : Int) :=
    wrapInt32_of_lt (by omega) (by exact_mod_cast hfit)
  unfold sumOf1toNInt sumOf1toN
  rw [h1, hprod, h2]
  exact (Int.ofNat_tdiv _ _).symm

theorem initStateInt_eq {n : Nat} (hfit : n * (n + 1) < 2147483648)
    (mem : Nat → PiecePlacement) : initStateInt n mem = toInt (initState n mem) := by
  unfold initStateInt toInt initState
  simp only [sumOf1toNInt_eq hfit, Int.toNat_ofNat]

theorem canPlaceInt_sim (s : State) {r c size : Nat} (h1 : r + size < 2147483648)
    (h2 : c + size < 2147483648) :
    canPlaceInt (toInt s) r c size
      = (canPlace s r c size).map (fun p => (p.1, toInt p.2)) := by
  unfold canPlaceInt canPlace
  rw [wrapInt32_of_lt (by omega) (by omega), wrapInt32_of_lt (by omega) (by omega)]
  have hiff : ((r : Int) + (size : Int) > (toInt s).boardSize ∨
      (c : Int) + (size : Int) > (toInt s).boardSize) ↔
      (r + size > s.boardSize ∨ c + size > s.boardSize) := by
    simp only [toInt]
    omega
  by_cases hout : r + size > s.boardSize ∨ c + size > s.boardSize
  · rw [if_pos (hiff.mpr hout), if_pos hout]
    rfl
  · rw [if_neg (fun h => hout (hiff.mp h)), if_neg hout]
    show (match canPlaceLoop s.board r c (loopIndices size) with
      | none => none
      | some ok => some (ok, toInt s)) = _
    cases canPlaceLoop s.board r c (loopIndices size) <;> rfl

theorem fillSquareInt_sim (s : State) (r c size val : Nat) :
    fillSquareInt (toInt s) r c size val = (fillSquare s r c size val).map toInt := by
  unfold fillSquareInt fillSquare
  show (match fillSquareLoop r c val (loopIndices size) s.board with
    | none => none
    | some b => some { toInt s with board := b }) = _
  cases fillSquareLoop r c val (loopIndices size) s.board <;> rfl

theorem findNextEmptyInt_sim (s : State) :
    findNextEmptyInt (toInt s) = (findNextEmpty s).map (fun p => (p.1, toInt p.2)) := by
  unfold findNextEmptyInt findNextEmpty
  show (match findNextEmptyLoop s.board (loopIndices (Int.toNat (s.boardSize : Int))) with
    | none => none
    | some res => some (res, toInt s)) = _
  rw [Int.toNat_ofNat]
  cases findNextEmptyLoop s.board (loopIndices s.boardSize) <;> rfl

theorem reportSolutionInt_sim (s : State) :
    reportSolutionInt (toInt s) = (reportSolution s).map toInt := by
  unfold reportSolutionInt reportSolution
  have hiff : ((toInt s).totalSquares ≤ ((toInt s).placements.length : Int)) ↔
      s.totalSquares ≤ s.placements.length := by
    simp only [toInt]
    omega
  by_cases h : s.totalSquares ≤ s.placements.length
  · rw [if_pos (hiff.mpr h), if_pos h]
    simp [toInt]
  · rw [if_neg (fun h1 => h (hiff.mp h1)), if_neg h]
    rfl

theorem writePlacementInt_sim (s : State) (k : Nat) (p : PiecePlacement) :
    writePlacementInt (toInt s) k p = (writePlacement s k p).map toInt := by
  unfold writePlacementInt writePlacement
  by_cases h : k < s.placements.length
  · rw [if_pos (show k < (toInt s).placements.length from h), if_pos h]
    rfl
  · rw [if_neg (show ¬ k < (toInt s).placements.length from h), if_neg h]
    rfl

theorem enterTileInt_sim (s : State) (r c i : Nat) :
    enterTileInt (toInt s) r c i = (enterTile s r c i).map toInt := by
  unfold enterTileInt enterTile
  show (match s.squaresCount[i]? with
    | none => none
    | some cnt =>
      if cnt = 0 then none
      else
        match fillSquareInt (toInt { s with
            squaresCount := s.squaresCount.set i (cnt - 1)
            placedSoFar := s.placedSoFar + 1 }) r c (i + 1) (s.placedSoFar + 1) with
        | none => none
        | some s2 => writePlacementInt s2 (s2.placedSoFar - 1) ⟨s.placedSoFar + 1, i + 1, r, c⟩)
    = _
  cases s.squaresCount[i]? with
  | none => rfl
  | some cnt =>
    by_cases h0 : cnt = 0
    · simp only [h0, if_true]
      rfl
    · simp only [h0, if_false]
      rw [fillSquareInt_sim]
      cases hf : fillSquare { s with
          squaresCount := s.squaresCount.set i (cnt - 1)
          placedSoFar := s.placedSoFar + 1 } r c (i + 1) (s.placedSoFar + 1) with
      | none => rfl
      | some s2 =>
        simp only [Option.map_some']
        exact writePlacementInt_sim s2 _ _

theorem leaveTileInt_sim (s : State) (r c i : Nat) :
    leaveTileInt (toInt s) r c i = (leaveTile s r c i).map toInt := by
  unfold leaveTileInt leaveTile
  rw [fillSquareInt_sim]
  cases fillSquare s r c (i + 1) 0 with
  | none => rfl
  | some s5 =>
    simp only [Option.map_some']
    show (match s5.squaresCount[i]? with
      | none => none
      | some cnt =>
        if s5.placedSoFar = 0 then none
        else some { toInt s5 with
          squaresCount := s5.squaresCount.set i (cnt + 1)
          placedSoFar := s5.placedSoFar - 1 }) = _
    cases s5.squaresCount[i]? with
    | none => rfl
    | some cnt =>
      by_cases h0 : s5.placedSoFar = 0
      · simp only [h0, if_true]
        rfl
      · simp only [h0, if_false]
        rfl

theorem canPlace_state {s t : State} {r c size : Nat} {ok : Bool}
    (h : canPlace s r c size = some (ok, t)) : t = s := by
  unfold canPlace at h
  by_cases hout : r + size > s.boardSize ∨ c + size > s.boardSize
  · rw [if_pos hout] at h
    cases h
    rfl
  · rw [if_neg hout] at h
    cases hl : canPlaceLoop s.board r c (loopIndices size) with
    | none => simp [hl] at h
    | some b =>
      simp only [hl, Option.some.injEq, Prod.mk.injEq] at h
      exact h.2.symm

theorem fillSquare_consts {s t : State} {r c size val : Nat}
    (h : fillSquare s r c size val = some t) :
    t.boardSize = s.boardSize ∧ t.nValue = s.nValue := by
  unfold fillSquare at h
  cases hl : fillSquareLoop r c val (loopIndices size) s.board with
  | none => simp [hl] at h
  | some b =>
    simp only [hl, Option.some.injEq] at h
    subst h
    exact ⟨rfl, rfl⟩

theorem enterTile_consts {s t : State} {r c i : Nat} (h : enterTile s r c i = some t) :
    t.boardSize = s.boardSize ∧ t.nValue = s.nValue := by
  unfold enterTile at h
  cases hc : s.squaresCount[i]? with
  | none => simp [hc] at h
  | some cnt =>
    simp only [hc] at h
    by_cases h0 : cnt = 0
    · simp [h0] at h
    · simp only [h0, if_false] at h
      cases hf : fillSquare { s with
          squaresCount := s.squaresCount.set i (cnt - 1)
          placedSoFar := s.placedSoFar + 1 } r c (i + 1) (s.placedSoFar + 1) with
      | none => simp [hf] at h
      | some s2 =>
        simp only [hf] at h
        obtain ⟨h1, h2⟩ := fillSquare_consts hf
        unfold writePlacement at h
        by_cases hk : s2.placedSoFar - 1 < s2.placements.length
        · rw [if_pos hk] at h
          cases h
          exact ⟨h1, h2⟩
        · rw [if_neg hk] at h
          cases h

theorem leaveTile_consts {s t : State} {r c i : Nat} (h : leaveTile s r c i = some t) :
    t.boardSize = s.boardSize ∧ t.nValue = s.nValue := by
  unfold leaveTile at h
  cases hf : fillSquare s r c (i + 1) 0 with
  | none => simp [hf] at h
  | some s5 =>
    simp only [hf] at h
    obtain ⟨h1, h2⟩ := fillSquare_consts hf
    cases hc : s5.squaresCount[i]? with
    | none => simp [hc] at h
    | some cnt =>
      simp only [hc] at h
      by_cases h0 : s5.placedSoFar = 0
      · simp [h0] at h
      · simp only [h0, if_false, Option.some.injEq] at h
        subst h
        exact ⟨h1, h2⟩

theorem findNextEmptyLoop_mem {b : Board} {l : List (Nat × Nat)} {p : Nat × Nat}
    (h : findNextEmptyLoop b l = some (some p)) : p ∈ l := by
  induction l with
  | nil => simp [findNextEmptyLoop] at h
  | cons q rest ih =>
    obtain ⟨rr, cc⟩ := q
    unfold findNextEmptyLoop at h
    cases hr : readCell b rr cc with
    | none => simp [hr] at h
    | some v =>
      simp only [hr] at h
      by_cases h0 : v = 0
      · simp only [h0, if_true, Option.some.injEq] at h
        subst h
        exact List.mem_cons_self _ _
      · simp only [h0, if_false] at h
        exact List.mem_cons_of_mem _ (ih h)

theorem findNextEmpty_result {s t : State} {res : Option (Nat × Nat)}
    (h : findNextEmpty s = some (res, t)) :
    t = s ∧ ∀ r c, res = some (r, c) → r < s.boardSize ∧ c < s.boardSize := by
  unfold findNextEmpty at h
  cases hl : findNextEmptyLoop s.board (loopIndices s.boardSize) with
  | none => simp [hl] at h
  | some res1 =>
    simp only [hl, Option.some.injEq, Prod.mk.injEq] at h
    obtain ⟨h1, h2⟩ := h
    subst h1
    refine ⟨h2.symm, ?_⟩
    intro r c hrc
    subst hrc
    exact mem_loopIndices.mp (findNextEmptyLoop_mem hl)

theorem dfsBody_consts {call : State → Option State}
    (hcall : ∀ s t, call s = some t → t.boardSize = s.boardSize ∧ t.nValue = s.nValue)
    {r c i : Nat} {s t : State} (h : dfsBody call r c i s = some t) :
    t.boardSize = s.boardSize ∧ t.nValue = s.nValue := by
  unfold dfsBody at h
  cases hc : s.squaresCount[i]? with
  | none => simp [hc] at h
  | some cnt =>
    simp only [hc] at h
    by_cases hpos : cnt > 0
    · simp only [hpos, if_true] at h
      cases hcan : canPlace s r c (i + 1) with
      | none => simp [hcan] at h
      | some res =>
        obtain ⟨ok, s0⟩ := res
        have hs0 := canPlace_state hcan
        subst hs0
        cases ok with
        | false =>
          simp only [hcan, Option.some.injEq] at h
          subst h
          exact ⟨rfl, rfl⟩
        | true =>
          simp only [hcan] at h
          cases hent : enterTile s0 r c i with
          | none => simp [hent] at h
          | some s3 =>
            simp only [hent] at h
            cases hc1 : call s3 with
            | none => simp [hc1] at h
            | some s4 =>
              simp only [hc1] at h
              obtain ⟨a1, a2⟩ := enterTile_consts hent
              obtain ⟨b1, b2⟩ := hcall s3 s4 hc1
              obtain ⟨c1, c2⟩ := leaveTile_consts h
              exact ⟨c1.trans (b1.trans a1), c2.trans (b2.trans a2)⟩
    · simp only [hpos, if_false, Option.some.injEq] at h
      subst h
      exact ⟨rfl, rfl⟩

theorem dfsLoop_consts {call : State → Option State}
    (hcall : ∀ s t, call s = some t → t.boardSize = s.boardSize ∧ t.nValue = s.nValue)
    {r c : Nat} (k : Nat) :
    ∀ s t, dfsLoop call r c k s = some t → t.boardSize = s.boardSize ∧ t.nValue = s.nValue := by
  induction k with
  | zero =>
    intro s t h
    simp only [dfsLoop, Option.some.injEq] at h
    subst h
    exact ⟨rfl, rfl⟩
  | succ k ih =>
    intro s t h
    unfold dfsLoop at h
    cases hb : dfsBody call r c k s with
    | none => simp [hb] at h
    | some s1 =>
      simp only [hb] at h
      obtain ⟨a1, a2⟩ := dfsBody_consts hcall hb
      obtain ⟨b1, b2⟩ := ih s1 t h
      exact ⟨b1.trans a1, b2.trans a2⟩

theorem dfs_consts (fuel : Nat) :
    ∀ s t, dfsAllSolutions fuel s = some t →
      t.boardSize = s.boardSize ∧ t.nValue = s.nValue := by
  induction fuel with
  | zero => intro s t h; simp [dfsAllSolutions] at h
  | succ fuel ih =>
    intro s t h
    unfold dfsAllSolutions at h
    by_cases hfull : s.placedSoFar = s.totalSquares
    · simp only [hfull, if_true] at h
      unfold reportSolution at h
      by_cases hl : s.totalSquares ≤ s.placements.length
      · rw [if_pos hl] at h
        cases h
        exact ⟨rfl, rfl⟩
      · rw [if_neg hl] at h
        cases h
    · simp only [hfull, if_false] at h
      cases hfind : findNextEmpty s with
      | none => simp [hfind] at h
      | some res =>
        obtain ⟨cell, s0⟩ := res
        obtain ⟨hs0, _⟩ := findNextEmpty_result hfind
        subst hs0
        cases cell with
        | none =>
          simp only [hfind, Option.some.injEq] at h
          subst h
          exact ⟨rfl, rfl⟩
        | some rc =>
          obtain ⟨r, c⟩ := rc
          simp only [hfind] at h
          exact dfsLoop_consts ih _ _ _ h

theorem dfsBody_sim {call : State → Option State} {callInt : IntState → Option IntState}
    (hsim : ∀ s, FitsInt s → callInt (toInt s) = (call s).map toInt)
    {r c i : Nat} {s : State} (hs : FitsInt s) (h1 : r + (i + 1) < 2147483648)
    (h2 : c + (i + 1) < 2147483648) :
    dfsBodyInt callInt r c i (toInt s) = (dfsBody call r c i s).map toInt := by
  unfold dfsBodyInt dfsBody
  show (match s.squaresCount[i]? with
    | none => none
    | some cnt =>
      if cnt > 0 then
        match canPlaceInt (toInt s) r c (i + 1) with
        | none => none
        | some (false, s0) => some s0
        | some (true, s0) =>
          match enterTileInt s0 r c i with
          | none => none
          | some s3 =>
            match callInt s3 with
            | none => none
            | some s4 => leaveTileInt s4 r c i
      else some (toInt s)) = _
  cases s.squaresCount[i]? with
  | none => rfl
  | some cnt =>
    by_cases hpos : cnt > 0
    · simp only [hpos, if_true]
      rw [canPlaceInt_sim s h1 h2]
      cases hcan : canPlace s r c (i + 1) with
      | none => rfl
      | some res =>
        obtain ⟨ok, s0⟩ := res
        have hs0 := canPlace_state hcan
        subst hs0
        cases ok with
        | false => rfl
        | true =>
          simp only [Option.map_some']
          rw [enterTileInt_sim]
          cases hent : enterTile s0 r c i with
          | none => rfl
          | some s3 =>
            simp only [Option.map_some']
            have hs3 : FitsInt s3 := by
              obtain ⟨a1, a2⟩ := enterTile_consts hent
              unfold FitsInt at *
              rw [a1, a2]
              exact hs
            rw [hsim s3 hs3]
            cases call s3 with
            | none => rfl
            | some s4 =>
              simp only [Option.map_some']
              exact leaveTileInt_sim s4 r c i
    · simp only [hpos, if_false]
      rfl

theorem dfsLoop_sim {call : State → Option State} {callInt : IntState → Option IntState}
    (hpres : ∀ s t, call s = some t → t.boardSize = s.boardSize ∧ t.nValue = s.nValue)
    (hsim : ∀ s, FitsInt s → callInt (toInt s) = (call s).map toInt)
    {r c : Nat} (k : Nat) (h1 : r + k < 2147483648) (h2 : c + k < 2147483648) :
    ∀ s, FitsInt s →
      dfsLoopInt callInt r c k (toInt s) = (dfsLoop call r c k s).map toInt := by
  induction k with
  | zero => intro s _; rfl
  | succ k ih =>
    intro s hs
    unfold dfsLoopInt dfsLoop
    rw [dfsBody_sim hsim hs h1 h2]
    cases hb : dfsBody call r c k s with
    | none => rfl
    | some s1 =>
      simp only [Option.map_some']
      have hs1 : FitsInt s1 := by
        obtain ⟨a1, a2⟩ := dfsBody_consts hpres hb
        unfold FitsInt at *
        rw [a1, a2]
        exact hs
      exact ih (by omega) (by omega) s1 hs1

/-- While the sums computed by `canPlace` fit an `int`, the program on `int`
does what the exact model does. -/
theorem dfs_sim (fuel : Nat) :
    ∀ s, FitsInt s →
      dfsAllSolutionsInt fuel (toInt s) = (dfsAllSolutions fuel s).map toInt := by
  induction fuel with
  | zero => intro s _; rfl
  | succ fuel ih =>
    intro s hs
    unfold dfsAllSolutionsInt dfsAllSolutions
    have hiff : (((toInt s).placedSoFar : Int) = (toInt s).totalSquares) ↔
        s.placedSoFar = s.totalSquares := by
      simp only [toInt]
      omega
    by_cases hfull : s.placedSoFar = s.totalSquares
    · rw [if_pos (hiff.mpr hfull), if_pos hfull]
      exact reportSolutionInt_sim s
    · rw [if_neg (fun h => hfull (hiff.mp h)), if_neg hfull, findNextEmptyInt_sim]
      cases hfind : findNextEmpty s with
      | none => rfl
      | some res =>
        obtain ⟨cell, s0⟩ := res
        obtain ⟨hs0, hbound⟩ := findNextEmpty_result hfind
        subst hs0
        cases cell with
        | none => rfl
        | some rc =>
          obtain ⟨r, c⟩ := rc
          simp only [Option.map_some']
          obtain ⟨hr, hc⟩ := hbound r c rfl
          unfold FitsInt at hs
          exact dfsLoop_sim (dfs_consts fuel) ih s0.nValue (by omega) (by omega) s0 hs

/-- While `n (n + 1)` fits an `int`, the search that `main` runs on `int` is
the search of the exact model. -/
theorem runSearchInt_eq {n : Nat} (hfit : n * (n + 1) < 2147483648)
    (mem : Nat → PiecePlacement) (fuel : Nat) :
    runSearchInt n mem fuel = (runSearch n mem fuel).map toInt := by
  unfold runSearchInt runSearch
  by_cases hn : n < 1
  · rw [if_pos hn, if_pos hn]
    rfl
  · rw [if_neg hn, if_neg hn, initStateInt_eq hfit]
    apply dfs_sim
    show sumOf1toN n + n < 2147483648
    have h2 := two_mul_sumOf1toN n
    have h3 : n * (n + 1) = n * n + n := by ring
    have h4 : n ≤ n * n := Nat.le_mul_self n
    omega

theorem toInt_injective {s t : State} (h : toInt s = toInt t) : s = t := by
  cases s
  cases t
  simp only [toInt, IntState.mk.injEq, Nat.cast_inj] at h
  obtain ⟨h1, h2, h3, h4, h5, h6, h7, h8, h9⟩ := h
  subst h1 h2 h3 h4 h5 h6 h7 h8 h9
  rfl

/-- The states of a search whose `n (n + 1)` fits an `int` satisfy
`FitsInt`. -/
theorem fitsInt_of_inv {n : Nat} (hfit : n * (n + 1) < 2147483648) {s : State}
    (hinv : Inv s) (hn : s.nValue = n) : FitsInt s := by
  unfold FitsInt
  rw [hinv.hbs, hn]
  have h2 := two_mul_sumOf1toN n
  have h3 : n * (n + 1) = n * n + n := by ring
  have h4 : n ≤ n * n := Nat.le_mul_self n
  omega

theorem toInt_full_iff (s : State) :
    (((toInt s).placedSoFar : Int) = (toInt s).totalSquares) ↔
      s.placedSoFar = s.totalSquares := by
  simp only [toInt]
  omega

theorem map_toInt_eq_some {o : Option State} {T : IntState}
    (h : o.map toInt = some T) : ∃ t, o = some t ∧ toInt t = T := by
  cases o with
  | none => cases h
  | some t => exact ⟨t, rfl, Option.some.inj h⟩

/-- A loop of the program on `int` started in the image of a state of the
exact model is the image of the same loop of the exact model. -/
theorem loopAtInt_exact {fuel r c k : Nat} {s : State} (hs : FitsInt s)
    (h1 : r + k < 2147483648) (h2 : c + k < 2147483648) {j : Nat} {T : IntState}
    (h : LoopAtInt (dfsAllSolutionsInt fuel) r c k (toInt s) j T) :
    j ≤ k ∧ ∃ t, T = toInt t ∧ FitsInt t ∧ LoopAt (dfsAllSolutions fuel) r c k s j t := by
  induction h with
  | start => exact ⟨le_refl _, s, rfl, hs, LoopAt.start⟩
  | step _ hbody ih =>
    obtain ⟨hjk, t, hT, hft, hloop⟩ := ih
    subst hT
    rw [dfsBody_sim (dfs_sim fuel) hft (by omega) (by omega)] at hbody
    obtain ⟨t1, hb, ht1⟩ := map_toInt_eq_some hbody
    refine ⟨by omega, t1, ht1.symm, ?_, LoopAt.step hloop hb⟩
    obtain ⟨a1, a2⟩ := dfsBody_consts (dfs_consts fuel) hb
    unfold FitsInt at *
    rw [a1, a2]
    exact hft

/-- The image of a loop of the exact model is a loop of the program on
`int`. -/
theorem loopAt_toInt {fuel r c k : Nat} {s : State} (hs : FitsInt s)
    (h1 : r + k < 2147483648) (h2 : c + k < 2147483648) {j : Nat} {t : State}
    (h : LoopAt (dfsAllSolutions fuel) r c k s j t) :
    j ≤ k ∧ FitsInt t ∧ LoopAtInt (dfsAllSolutionsInt fuel) r c k (toInt s) j (toInt t) := by
  induction h with
  | start => exact ⟨le_refl _, hs, LoopAtInt.start⟩
  | step _ hbody ih =>
    obtain ⟨hjk, hft, hloop⟩ := ih
    refine ⟨by omega, ?_, LoopAtInt.step hloop ?_⟩
    · obtain ⟨a1, a2⟩ := dfsBody_consts (dfs_consts fuel) hbody
      unfold FitsInt at *
      rw [a1, a2]
      exact hft
    · rw [dfsBody_sim (dfs_sim fuel) hft (by omega) (by omega), hbody]
      rfl

theorem findNextEmptyInt_exact {s : State} {res : Option (Nat × Nat)} {S0 : IntState}
    (h : findNextEmptyInt (toInt s) = some (res, S0)) :
    S0 = toInt s ∧ findNextEmpty s = some (res, s) := by
  rw [findNextEmptyInt_sim] at h
  cases hf : findNextEmpty s with
  | none => rw [hf] at h; cases h
  | some p =>
    obtain ⟨res1, s0⟩ := p
    rw [hf] at h
    simp only [Option.map_some', Option.some.injEq, Prod.mk.injEq] at h
    obtain ⟨e1, e2⟩ := h
    obtain ⟨e3, _⟩ := findNextEmpty_result hf
    subst e1 e3
    exact ⟨e2.symm, rfl⟩

theorem canPlaceInt_exact {s : State} {r c size : Nat} (h1 : r + size < 2147483648)
    (h2 : c + size < 2147483648) {ok : Bool} {T : IntState}
    (h : canPlaceInt (toInt s) r c size = some (ok, T)) :
    T = toInt s ∧ canPlace s r c size = some (ok, s) := by
  rw [canPlaceInt_sim s h1 h2] at h
  cases hf : canPlace s r c size with
  | none => rw [hf] at h; cases h
  | some p =>
    obtain ⟨ok1, s0⟩ := p
    rw [hf] at h
    simp only [Option.map_some', Option.some.injEq, Prod.mk.injEq] at h
    obtain ⟨e1, e2⟩ := h
    have e3 := canPlace_state hf
    subst e1 e3
    exact ⟨e2.symm, rfl⟩

/-- While `n (n + 1)` fits an `int`, a call site of the program on `int`, its
entry state being the image of a reachable state of the exact model, is the
image of a call site of the exact model. -/
theorem callInt_exact {n : Nat} (hfit : n * (n + 1) < 2147483648)
    {mem : Nat → PiecePlacement} {s : State} (hs : Reachable n mem s)
    {S0 T T0 U : IntState} {r c i fuel cnt : Nat}
    (hne : ((toInt s).placedSoFar : Int) ≠ (toInt s).totalSquares)
    (hfind : findNextEmptyInt (toInt s) = some (some (r, c), S0))
    (hloop : LoopAtInt (dfsAllSolutionsInt fuel) r c S0.nValue S0 (i + 1) T)
    (hcnt : T.squaresCount[i]? = some cnt) (hpos : cnt > 0)
    (hcan : canPlaceInt T r c (i + 1) = some (true, T0))
    (hent : enterTileInt T0 r c i = some U) :
    S0 = toInt s ∧ T0 = T ∧ ∃ w u, T = toInt w ∧ U = toInt u ∧
      CallSite n mem s r c i w u := by
  obtain ⟨hinv, hn⟩ := reachable_inv hs
  have hfs := fitsInt_of_inv hfit hinv hn
  obtain ⟨e0, hfind1⟩ := findNextEmptyInt_exact hfind
  subst e0
  obtain ⟨_, hb⟩ := findNextEmpty_result hfind1
  obtain ⟨hr, hc⟩ := hb r c rfl
  have hfs1 : s.boardSize + s.nValue < 2147483648 := hfs
  have hk1 : r + s.nValue < 2147483648 := by omega
  have hk2 : c + s.nValue < 2147483648 := by omega
  obtain ⟨hik, w, hT, hfw, hloop1⟩ := loopAtInt_exact hfs hk1 hk2 hloop
  subst hT
  have hik1 : i + 1 ≤ s.nValue := hik
  obtain ⟨e1, hcan1⟩ := canPlaceInt_exact (by omega) (by omega) hcan
  subst e1
  rw [enterTileInt_sim] at hent
  obtain ⟨u, hent1, hu⟩ := map_toInt_eq_some hent
  refine ⟨rfl, rfl, w, u, rfl, hu.symm, ?_⟩
  exact ⟨hs, fun h => hne ((toInt_full_iff s).mpr h),
    hfind1, ⟨fuel, hloop1⟩, ⟨cnt, hcnt, hpos⟩, hcan1, hent1⟩

/-- While `n (n + 1)` fits an `int`, every call of the search on `int` is
entered in the image of a state in which the exact model enters a call. -/
theorem reachableInt_exact {n : Nat} (hfit : n * (n + 1) < 2147483648)
    {mem : Nat → PiecePlacement} {S : IntState} (h : ReachableInt n mem S) :
    ∃ s, S = toInt s ∧ Reachable n mem s := by
  induction h with
  | top => exact ⟨initState n mem, initStateInt_eq hfit mem, Reachable.top⟩
  | call _ hne hfind hloop hcnt hpos hcan hent ih =>
    obtain ⟨s, hS, hs⟩ := ih
    subst hS
    obtain ⟨_, _, w, u, _, hU, hsite⟩ := callInt_exact hfit hs hne hfind hloop hcnt hpos hcan hent
    exact ⟨u, hU, callSite_reachable hsite⟩

/-- The image of a call site of the exact model is a call site of the
program on `int`. -/
theorem callSite_toInt {n : Nat} (hfit : n * (n + 1) < 2147483648)
    {mem : Nat → PiecePlacement} {s w u : State} {r c i : Nat}
    (h : CallSite n mem s r c i w u) (hS : ReachableInt n mem (toInt s)) :
    CallSiteInt n mem (toInt s) r c i (toInt w) (toInt u) := by
  obtain ⟨hinv, hn⟩ := reachable_inv h.entry
  have hfs := fitsInt_of_inv hfit hinv hn
  obtain ⟨_, hb⟩ := findNextEmpty_result h.find
  obtain ⟨hr, hc⟩ := hb r c rfl
  have hfs1 : s.boardSize + s.nValue < 2147483648 := hfs
  obtain ⟨fuel, hloop⟩ := h.loop
  obtain ⟨hik, _, hloop1⟩ := loopAt_toInt hfs (show r + s.nValue < 2147483648 by omega)
    (show c + s.nValue < 2147483648 by omega) hloop
  have hik1 : i + 1 ≤ s.nValue := hik
  refine ⟨hS, ?_, ?_, ⟨fuel, hloop1⟩, h.count, ?_, ?_⟩
  · exact fun e => h.notFull ((toInt_full_iff s).mp e)
  · rw [findNextEmptyInt_sim, h.find]
    rfl
  · rw [canPlaceInt_sim w (by omega) (by omega), h.can]
    rfl
  · rw [enterTileInt_sim, h.enter]
    rfl

/-- While `n (n + 1)` fits an `int`, the image of a state in which the exact
model enters a call is a state in which the search on `int` enters a call. -/
theorem reachable_toInt {n : Nat} (hfit : n * (n + 1) < 2147483648)
    {mem : Nat → PiecePlacement} {s : State} (h : Reachable n mem s) :
    ReachableInt n mem (toInt s) := by
  induction h with
  | top => rw [← initStateInt_eq hfit mem]; exact ReachableInt.top
  | call hs hne hfind hloop hcnt hpos hcan hent ih =>
    obtain ⟨e0, _⟩ := findNextEmpty_result hfind
    subst e0
    have e1 := canPlace_state hcan
    subst e1
    have hsite : CallSite _ _ _ _ _ _ _ _ :=
      ⟨hs, hne, hfind, ⟨_, hloop⟩, ⟨_, hcnt, hpos⟩, hcan, hent⟩
    have hI := callSite_toInt hfit hsite ih
    obtain ⟨fuel, hl⟩ := hI.loop
    obtain ⟨cnt, hc, hp⟩ := hI.count
    exact ReachableInt.call hI.entry hI.notFull hI.find hl hc hp hI.can hI.enter

/-- A call site of the program on `int` is the image of a call site of the
exact model. -/
theorem callSiteInt_exact {n : Nat} (hfit : n * (n + 1) < 2147483648)
    {mem : Nat → PiecePlacement} {S W U : IntState} {r c i : Nat}
    (h : CallSiteInt n mem S r c i W U) :
    ∃ s w u, S = toInt s ∧ W = toInt w ∧ U = toInt u ∧ CallSite n mem s r c i w u := by
  obtain ⟨s, hS, hs⟩ := reachableInt_exact hfit h.entry
  subst hS
  obtain ⟨fuel, hloop⟩ := h.loop
  obtain ⟨cnt, hcnt, hpos⟩ := h.count
  obtain ⟨_, _, w, u, hW, hU, hsite⟩ :=
    callInt_exact hfit hs h.notFull h.find hloop hcnt hpos h.can h.enter
  exact ⟨s, w, u, rfl, hW, hU, hsite⟩

/-- While `n (n + 1)` fits an `int`, the states the search on `int` goes
through are the images of the states the exact model goes through. -/
theorem visitedInt_exact {n : Nat} (hfit : n * (n + 1) < 2147483648)
    {mem : Nat → PiecePlacement} {S : IntState} (h : VisitedInt n mem S) :
    ∃ s, S = toInt s ∧ Visited n mem s := by
  cases h with
  | entry hS =>
    obtain ⟨s, e, hs⟩ := reachableInt_exact hfit hS
    exact ⟨s, e, Visited.entry hs⟩
  | loopHead hS hne hfind hloop =>
    obtain ⟨s, e, hs⟩ := reachableInt_exact hfit hS
    subst e
    obtain ⟨hinv, hn⟩ := reachable_inv hs
    have hfs := fitsInt_of_inv hfit hinv hn
    obtain ⟨_, hfind1⟩ := findNextEmptyInt_exact hfind
    obtain ⟨_, hb⟩ := findNextEmpty_result hfind1
    obtain ⟨hr, hc⟩ := hb _ _ rfl
    have hfs1 : s.boardSize + s.nValue < 2147483648 := hfs
    obtain ⟨_, w, hW, _, hloop1⟩ := loopAtInt_exact hfs
      (show _ + s.nValue < 2147483648 by omega) (show _ + s.nValue < 2147483648 by omega) hloop
    exact ⟨w, hW, Visited.loopHead hs (fun e => hne ((toInt_full_iff s).mpr e)) hfind1 hloop1⟩
  | exit hS hret =>
    obtain ⟨s, e, hs⟩ := reachableInt_exact hfit hS
    subst e
    obtain ⟨hinv, hn⟩ := reachable_inv hs
    rw [dfs_sim _ s (fitsInt_of_inv hfit hinv hn)] at hret
    obtain ⟨t, ht, e⟩ := map_toInt_eq_some hret
    exact ⟨t, e.symm, Visited.exit hs ht⟩

/-- The image of a state the exact model goes through is a state the search
on `int` goes through. -/
theorem visited_toInt {n : Nat} (hfit : n * (n + 1) < 2147483648)
    {mem : Nat → PiecePlacement} {s : State} (h : Visited n mem s) :
    VisitedInt n mem (toInt s) := by
  cases h with
  | entry hs => exact VisitedInt.entry (reachable_toInt hfit hs)
  | loopHead hs hne hfind hloop =>
    obtain ⟨hinv, hn⟩ := reachable_inv hs
    have hfs := fitsInt_of_inv hfit hinv hn
    obtain ⟨_, hb⟩ := findNextEmpty_result hfind
    obtain ⟨hr, hc⟩ := hb _ _ rfl
    have hfs1 : _ + _ < 2147483648 := hfs
    obtain ⟨_, _, hloop1⟩ := loopAt_toInt hfs
      (show _ + _ < 2147483648 by omega) (show _ + _ < 2147483648 by omega) hloop
    refine VisitedInt.loopHead (reachable_toInt hfit hs) ?_ ?_ hloop1
    · exact fun e => hne ((toInt_full_iff _).mp e)
    · rw [findNextEmptyInt_sim, hfind]
      rfl
  | @exit s0 _ fuel hs hret =>
    obtain ⟨hinv, hn⟩ := reachable_inv hs
    have hI := dfs_sim fuel s0 (fitsInt_of_inv hfit hinv hn)
    rw [hret] at hI
    exact VisitedInt.exit (reachable_toInt hfit hs) hI

/-- A search path of the program on `int` is the image of a search path of
the exact model. -/
theorem searchPathInt_exact {n : Nat} (hfit : n * (n + 1) < 2147483648)
    {mem : Nat → PiecePlacement} {sq : List (Nat × Nat × Nat)} {U : IntState}
    (h : SearchPathInt n mem sq U) : ∃ u, U = toInt u ∧ SearchPath n mem sq u := by
  induction h with
  | top => exact ⟨initState n mem, initStateInt_eq hfit mem, SearchPath.top⟩
  | call _ hsite ih =>
    obtain ⟨s, e, hpath⟩ := ih
    obtain ⟨s1, w, u, e1, _, e3, hsite1⟩ := callSiteInt_exact hfit hsite
    have := toInt_injective (e.symm.trans e1)
    subst this
    exact ⟨u, e3, SearchPath.call hpath hsite1⟩

/-- The image of a search path of the exact model is a search path of the
program on `int`. -/
theorem searchPath_toInt {n : Nat} (hfit : n * (n + 1) < 2147483648)
    {mem : Nat → PiecePlacement} {sq : List (Nat × Nat × Nat)} {u : State}
    (h : SearchPath n mem sq u) : SearchPathInt n mem sq (toInt u) := by
  induction h with
  | top => rw [← initStateInt_eq hfit mem]; exact SearchPathInt.top
  | call hpath hsite ih =>
    exact SearchPathInt.call ih (callSite_toInt hfit hsite (reachable_toInt hfit hsite.entry))

/-! ## The first two calls of the search for `n = 2` -/

/-- The top-level call of the search for `n = 2` puts the tile of side 2 at
the cell `(0, 0)`. -/
theorem callSite_two_first :
    CallSite 2 (fun _ => ⟨0, 0, 0, 0⟩) (initState 2 (fun _ => ⟨0, 0, 0, 0⟩)) 0 0 1
      (initState 2 (fun _ => ⟨0, 0, 0, 0⟩))
      ⟨3, [[1, 1, 0], [1, 1, 0], [0, 0, 0]], [1, 1], 2, 3, 1,
        [⟨1, 2, 0, 0⟩, ⟨0, 0, 0, 0⟩, ⟨0, 0, 0, 0⟩], 0, []⟩ :=
  ⟨Reachable.top, by decide, by decide, ⟨0, LoopAt.start⟩, ⟨2, by decide, by decide⟩,
    by decide, by decide⟩

/-- The call entered there finds the cell `(0, 2)`, where the tile of side 2
does not fit, and puts the tile of side 1. -/
theorem callSite_two_second :
    CallSite 2 (fun _ => ⟨0, 0, 0, 0⟩)
      ⟨3, [[1, 1, 0], [1, 1, 0], [0, 0, 0]], [1, 1], 2, 3, 1,
        [⟨1, 2, 0, 0⟩, ⟨0, 0, 0, 0⟩, ⟨0, 0, 0, 0⟩], 0, []⟩ 0 2 0
      ⟨3, [[1, 1, 0], [1, 1, 0], [0, 0, 0]], [1, 1], 2, 3, 1,
        [⟨1, 2, 0, 0⟩, ⟨0, 0, 0, 0⟩, ⟨0, 0, 0, 0⟩], 0, []⟩
      ⟨3, [[1, 1, 2], [1, 1, 0], [0, 0, 0]], [0, 1], 2, 3, 2,
        [⟨1, 2, 0, 0⟩, ⟨2, 1, 0, 2⟩, ⟨0, 0, 0, 0⟩], 0, []⟩ :=
  ⟨callSite_reachable callSite_two_first, by decide, by decide,
    ⟨0, LoopAt.step LoopAt.start (by decide)⟩, ⟨1, by decide, by decide⟩,
    by decide, by decide⟩

/-- The search path of the call entered with these two tiles placed. -/
theorem searchPath_two :
    SearchPath 2 (fun _ => ⟨0, 0, 0, 0⟩) [(2, 0, 0), (1, 0, 2)]
      ⟨3, [[1, 1, 2], [1, 1, 0], [0, 0, 0]], [0, 1], 2, 3, 2,
        [⟨1, 2, 0, 0⟩, ⟨2, 1, 0, 2⟩, ⟨0, 0, 0, 0⟩], 0, []⟩ :=
  SearchPath.call (SearchPath.call SearchPath.top callSite_two_first) callSite_two_second

/-! ## Reports of given tilings -/

theorem apart_symm {p q : PiecePlacement} (h : apart p q) : apart q p := by
  unfold apart at *
  omega

/-- A list of records of positive side, inside the board, pairwise apart,
that covers every cell and holds `k` tiles of side `k` for each `k` in `1..n`
is a valid tiling of the board for `n`. -/
theorem validTiling_of_list {n : Nat} {l : List PiecePlacement}
    (h1 : ∀ p ∈ l, 1 ≤ p.size ∧ p.row + p.size ≤ sumOf1toN n ∧ p.col + p.size ≤ sumOf1toN n)
    (h2 : l.Pairwise apart)
    (h3 : ∀ r, r < sumOf1toN n → ∀ c, c < sumOf1toN n → ∃ p ∈ l, covers p r c)
    (h4 : ∀ k, k < n → countSize l (k + 1) = k + 1) :
    ValidTiling n ((l.map squareOf).toFinset) := by
  have hmem : ∀ t, t ∈ (l.map squareOf).toFinset ↔ ∃ p ∈ l, squareOf p = t := by
    intro t
    rw [List.mem_toFinset, List.mem_map]
  have hall : ∀ p ∈ l, ∀ q ∈ l, p ≠ q → apart p q := by
    intro p hp q hq hne
    exact h2.forall (fun _ _ h => apart_symm h) hp hq hne
  have hnodup : (l.map squareOf).Nodup := by
    unfold List.Nodup
    rw [List.pairwise_map]
    refine h2.imp_of_mem ?_
    intro p q hp _ hpq heq
    have hpos := (h1 p hp).1
    unfold squareOf at heq
    simp only [Prod.mk.injEq] at heq
    unfold apart at hpq
    omega
  constructor
  · intro t ht
    obtain ⟨p, hp, rfl⟩ := (hmem t).mp ht
    exact (h1 p hp).1
  · intro t ht
    obtain ⟨p, hp, rfl⟩ := (hmem t).mp ht
    exact (h1 p hp).2
  · intro t ht u hu hne r c hboth
    obtain ⟨p, hp, rfl⟩ := (hmem t).mp ht
    obtain ⟨q, hq, rfl⟩ := (hmem u).mp hu
    have hpq : p ≠ q := fun e => hne (by rw [e])
    have hap := hall p hp q hq hpq
    obtain ⟨ha, hb⟩ := hboth
    unfold squareCovers squareOf inSquare at ha hb
    simp only at ha hb
    unfold apart at hap
    omega
  · intro r c hr hc
    obtain ⟨p, hp, hcov⟩ := h3 r hr c hc
    exact ⟨squareOf p, (hmem _).mpr ⟨p, hp, rfl⟩, squareCovers_squareOf.mpr hcov⟩
  · intro k hk1 hkn
    rw [← countSize_eq_card l k hnodup]
    have := h4 (k - 1) (by omega)
    rw [show k - 1 + 1 = k by omega] at this
    exact this

theorem ids_of_map {l : List PiecePlacement}
    (h : l.map (fun p => p.id) = (List.range l.length).map (fun i => i + 1)) :
    ∀ (i : Nat) (p : PiecePlacement), l[i]? = some p → p.id = i + 1 := by
  intro i p hi
  have hlt : i < l.length := (List.getElem?_eq_some_iff.mp hi).1
  have h1 : (l.map (fun p => p.id))[i]? = some p.id := by
    rw [List.getElem?_map, hi]
    rfl
  rw [h, List.getElem?_map, List.getElem?_range hlt] at h1
  exact (Option.some.inj h1).symm

/-- A run of the search for `n` reports every valid tiling: given as the list
of its records in row-major order of the corners, numbered from 1, the tiling
is among the solutions reported. -/
theorem list_reported {n : Nat} {mem : Nat → PiecePlacement} {L : List (List PiecePlacement)}
    (hrep : ∀ sol ∈ L, ∃ sq u, ReportedFrom n mem sol sq u)
    (hall : ReportsAll (initState n mem) L) {l : List PiecePlacement}
    (hvalid : ValidTiling n ((l.map squareOf).toFinset))
    (hsorted : l.Pairwise cornerBefore)
    (hid : ∀ (i : Nat) (p : PiecePlacement), l[i]? = some p → p.id = i + 1) : l ∈ L := by
  obtain ⟨sol, hsol, hset⟩ := hall _ hvalid (by
    intro p hp
    have : placed (initState n mem) = [] := by
      unfold placed initState
      simp
    rw [this] at hp
    cases hp)
  obtain ⟨_, _, hrf⟩ := hrep sol hsol
  obtain ⟨hs, hi, _⟩ := reportedFrom_canonical hrf
  have heq : sol = l := canonical_determined hs hsorted hi hid hset
  subst heq
  exact hsol

/-- Of two reported solutions, the one that is not emitted after the other
is reported first. -/
theorem index_lt_of_not_before {L : List (List PiecePlacement)} (hord : L.Pairwise EmittedBefore)
    {a b : Nat} {A B : List PiecePlacement} (ha : L[a]? = some A) (hb : L[b]? = some B)
    (hne : A ≠ B) (hnot : ¬ EmittedBefore B A) : a < b := by
  obtain ⟨ha1, ha2⟩ := List.getElem?_eq_some_iff.mp ha
  obtain ⟨hb1, hb2⟩ := List.getElem?_eq_some_iff.mp hb
  rcases Nat.lt_trichotomy a b with h | h | h
  · exact h
  · subst h
    rw [ha] at hb
    exact absurd (Option.some.inj hb) hne
  · have := (List.pairwise_iff_getElem.mp hord) b a hb1 ha1 h
    rw [ha2, hb2] at this
    exact absurd this hnot

set_option maxRecDepth 1000000 in
set_option maxHeartbeats 4000000 in
/-- The list `tilingEightA` is a valid tiling for `n = 8`. -/
theorem tilingEightA_valid : ValidTiling 8 ((tilingEightA.map squareOf).toFinset) :=
  validTiling_of_list (by decide) (by decide) (by decide) (by decide)

set_option maxRecDepth 1000000 in
set_option maxHeartbeats 4000000 in
/-- The list `tilingEightB` is a valid tiling for `n = 8`. -/
theorem tilingEightB_valid : ValidTiling 8 ((tilingEightB.map squareOf).toFinset) :=
  validTiling_of_list (by decide) (by decide) (by decide) (by decide)

theorem tilingEight_not_before : ¬ EmittedBefore tilingEightB tilingEightA := by
  rintro ⟨j, p, q, htake, hp, hq, hlt, _, _⟩
  cases j with
  | zero =>
    have e1 : p = ⟨1, 5, 0, 0⟩ := (Option.some.inj hp).symm
    have e2 : q = ⟨1, 8, 0, 0⟩ := (Option.some.inj hq).symm
    subst e1 e2
    exact absurd hlt (by decide)
  | succ j =>
    have h0 : (tilingEightB.take (j + 1))[0]? = (tilingEightA.take (j + 1))[0]? := by
      rw [htake]
    rw [List.getElem?_take_of_lt (by omega), List.getElem?_take_of_lt (by omega)] at h0
    exact absurd h0 (by decide)

set_option maxRecDepth 100000 in
/-- The search for `n = 8` reports the two tilings, `tilingEightA` before
`tilingEightB`. -/
theorem reports_eight (mem : Nat → PiecePlacement) (fuel : Nat) (hfuel : 36 < fuel) :
    ∃ t a b, runSearch 8 mem fuel = some t ∧ a < b ∧
      t.output[a]? = some (⟨a + 1, tilingEightA⟩ : Report) ∧
      t.output[b]? = some (⟨b + 1, tilingEightB⟩ : Report) := by
  have h8 : sumOf1toN 8 = 36 := by decide
  obtain ⟨t, L, hrun, hout, _, hrep, hord, hall⟩ :=
    run_summary 8 (by decide) mem fuel (by rw [h8]; exact hfuel)
  have hA : tilingEightA ∈ L :=
    list_reported hrep hall tilingEightA_valid (by decide) (ids_of_map (by decide))
  have hB : tilingEightB ∈ L :=
    list_reported hrep hall tilingEightB_valid (by decide) (ids_of_map (by decide))
  obtain ⟨a, ha⟩ := List.mem_iff_getElem?.mp hA
  obtain ⟨b, hb⟩ := List.mem_iff_getElem?.mp hB
  refine ⟨t, a, b, hrun, index_lt_of_not_before hord ha hb (by decide) tilingEight_not_before,
    ?_, ?_⟩
  · rw [hout, number_getElem, ha]
    simp
  · rw [hout, number_getElem, hb]
    simp

/-! ## The dead end and the depth of the search in the exact model -/

/-- In every state the exact model of the search for `n` goes through, if the
board has no empty cell then `placedSoFar = totalSquares` and the inventory is
used up; and whenever `placedSoFar ≠ totalSquares`, `findNextEmpty` finds an
empty cell. -/
theorem dead_end_exact (n : Nat) (mem : Nat → PiecePlacement) (s : State)
    (hs : Visited n mem s) :
    ((∀ r c, r < s.boardSize → c < s.boardSize → readCell s.board r c ≠ some 0) →
      s.placedSoFar = s.totalSquares ∧ ∀ k, k < n → s.squaresCount[k]? = some 0) ∧
    (s.placedSoFar ≠ s.totalSquares →
      findNextEmpty s ≠ some (none, s) ∧
      ∃ r c, findNextEmpty s = some (some (r, c), s) ∧ readCell s.board r c = some 0) := by
  obtain ⟨hinv, hnv⟩ := visited_inv hs
  constructor
  · intro hnone
    have hfull : s.placedSoFar = s.totalSquares := by
      by_contra hne
      obtain ⟨r, c, hr, hc, h0⟩ := exists_empty_of_not_full hinv hne
      exact hnone r c hr hc h0
    refine ⟨hfull, ?_⟩
    intro k hk
    rw [← hnv] at hk
    obtain ⟨cnt, hcnt, hsum⟩ := hinv.hcount k hk
    have := full_counts hinv hfull k hk
    rw [hcnt]
    congr 1
    omega
  · intro hne
    obtain ⟨r0, c0, hr0, hc0, h0⟩ := exists_empty_of_not_full hinv hne
    obtain ⟨res, hfind, hnone, hsome⟩ := findNextEmpty_spec hinv.hboard
    cases res with
    | none => exact absurd h0 (hnone rfl r0 c0 hr0 hc0)
    | some rc =>
      obtain ⟨r, c⟩ := rc
      refine ⟨?_, r, c, hfind, (hsome r c rfl).2.2.1⟩
      rw [hfind]
      intro h
      cases h

/-- In the exact model the search for `n ≥ 1` returns when the fuel exceeds
`totalSquares`; in every state it goes through `placedSoFar ≤ totalSquares`;
the depth of a call is its `placedSoFar`; and at every call site the inventory
decreases by one, the write of `placements[placedSoFar - 1]` is in range and
the cells written by `fillSquare` lie inside the board. -/
theorem bounded_exact (n : Nat) (hn : 1 ≤ n) (mem : Nat → PiecePlacement)
    (fuel : Nat) (hfuel : sumOf1toN n < fuel) :
    (∃ t, runSearch n mem fuel = some t) ∧
    (∀ s, Reachable n mem s → ∃ t, dfsAllSolutions fuel s = some t) ∧
    (∀ s, Visited n mem s → 0 ≤ s.placedSoFar ∧ s.placedSoFar ≤ s.totalSquares ∧
      s.totalSquares = sumOf1toN n) ∧
    (∀ sq u, SearchPath n mem sq u → sq.length = u.placedSoFar ∧
      sq.length ≤ u.totalSquares) ∧
    (∀ s r c i w u, CallSite n mem s r c i w u →
      w.squaresCount.sum = s.squaresCount.sum ∧
      u.squaresCount.sum + 1 = w.squaresCount.sum ∧
      u.placedSoFar = s.placedSoFar + 1 ∧
      u.placedSoFar - 1 < u.totalSquares ∧ u.placements.length = u.totalSquares ∧
      BoardWF w.board w.boardSize ∧
      ∀ rr cc, rr < i + 1 → cc < i + 1 → r + rr < w.boardSize ∧ c + cc < w.boardSize) := by
  refine ⟨?_, ?_, ?_, ?_, ?_⟩
  · obtain ⟨t, _, hrun, _⟩ := run_returns closed_true n hn mem fuel hfuel
    exact ⟨t, hrun⟩
  · intro s hs
    obtain ⟨hinv, hnv⟩ := reachable_inv hs
    have hlt : s.totalSquares - s.placedSoFar < fuel := by
      rw [hinv.htot, hinv.hbs, hnv]
      omega
    obtain ⟨t, _, ht, _⟩ := dfs_induct closed_true fuel s hinv hlt
    exact ⟨t, ht⟩
  · intro s hs
    obtain ⟨hinv, hnv⟩ := visited_inv hs
    exact ⟨Nat.zero_le _, hinv.hplaced, by rw [hinv.htot, hinv.hbs, hnv]⟩
  · intro sq u hsq
    obtain ⟨hinv, _⟩ := reachable_inv (searchPath_reachable hsq)
    have := searchPath_length hsq
    exact ⟨this, by rw [this]; exact hinv.hplaced⟩
  · intro s r c i w u hsite
    obtain ⟨hsi, _, _, hfr, hi, hfree, hE, hwi, hui⟩ := callSite_facts hsite
    obtain ⟨cnt, hcnt, hpos, hset⟩ := hE.counts
    refine ⟨by rw [hfr.squaresCount], ?_, by rw [hE.placedSoFar, hfr.placedSoFar], ?_,
      hui.hplLen, hwi.hboard, ?_⟩
    · rw [hset]
      exact sum_set_pred _ _ _ hcnt hpos
    · have h1 := hui.hplaced
      have h2 := hE.placedSoFar
      omega
    · intro rr cc hrr hcc
      have h1 := hfree.1
      have h2 := hfree.2.1
      omega

/-! ## The claims -/

/-- C1 (soundness of the search).  For every `n ≥ 1`, the search started by
`main` from the empty board with the full inventory returns (given more fuel
than there are tiles), and every solution it reported is an exact tiling of
the board: each reported square lies inside the board, no two reported squares
share a cell, and every cell of the board is covered by exactly one reported
square. -/
theorem dfs_sound (n : Nat) (hn : 1 ≤ n) (mem : Nat → PiecePlacement) (fuel : Nat)
    (hfuel : sumOf1toN n < fuel) :
    ∃ t, runSearch n mem fuel = some t ∧
      ∀ rep ∈ t.output, ExactTiling (sumOf1toN n) rep.placements := by
  obtain ⟨t, L, hrun, _, hout, _, hp⟩ := run_returns closed_fullRecords n hn mem fuel hfuel
  refine ⟨t, hrun, ?_⟩
  intro rep hrep
  rw [hout] at hrep
  exact (hp _ (mem_number hrep)).exactTiling

theorem dfs_sound_witness :
    1 ≤ 1 ∧ sumOf1toN 1 < 2 ∧
      ∃ t, runSearch 1 (fun _ => ⟨0, 0, 0, 0⟩) 2 = some t ∧
        ∀ rep ∈ t.output, ExactTiling (sumOf1toN 1) rep.placements :=
  ⟨by decide, by decide, dfs_sound 1 (by decide) _ 2 (by decide)⟩

/-- C3 (size of a solution).  For every `n ≥ 1`, the search returns and every
solution it reported has exactly `1 + 2 + ... + n = n (n + 1) / 2` placement
records, exactly `k` of them of size `k` for each `k` in `1..n`, and none of a
size outside `1..n`. -/
theorem dfs_solution_counts (n : Nat) (hn : 1 ≤ n) (mem : Nat → PiecePlacement) (fuel : Nat)
    (hfuel : sumOf1toN n < fuel) :
    ∃ t, runSearch n mem fuel = some t ∧
      ∀ rep ∈ t.output,
        rep.placements.length = ∑ k in Finset.range n, (k + 1) ∧
        rep.placements.length = n * (n + 1) / 2 ∧
        (∀ k, 1 ≤ k → k ≤ n → countSize rep.placements k = k) ∧
        ∀ p ∈ rep.placements, 1 ≤ p.size ∧ p.size ≤ n := by
  obtain ⟨t, L, hrun, _, hout, _, hp⟩ := run_returns closed_fullRecords n hn mem fuel hfuel
  refine ⟨t, hrun, ?_⟩
  intro rep hrep
  rw [hout] at hrep
  have hfull : FullRecords n rep.placements := hp _ (mem_number hrep)
  obtain ⟨h1, h2, h3⟩ := hfull.counts
  exact ⟨by rw [h1, sum_sizes], h1, h2, h3⟩

theorem dfs_solution_counts_witness :
    1 ≤ 1 ∧ sumOf1toN 1 < 2 ∧
      ∃ t, runSearch 1 (fun _ => ⟨0, 0, 0, 0⟩) 2 = some t ∧
        ∀ rep ∈ t.output,
          rep.placements.length = ∑ k in Finset.range 1, (k + 1) ∧
          rep.placements.length = 1 * (1 + 1) / 2 ∧
          (∀ k, 1 ≤ k → k ≤ 1 → countSize rep.placements k = k) ∧
          ∀ p ∈ rep.placements, 1 ≤ p.size ∧ p.size ≤ 1 :=
  ⟨by decide, by decide, dfs_solution_counts 1 (by decide) _ 2 (by decide)⟩

/-- C2 (completeness of the search).  For every `n ≥ 1` and every valid tiling
`T` of the board (a set of squares `(size, row, col)` that lie inside the
board, are pairwise non-overlapping, cover every cell, and contain exactly `k`
squares of side `k` for each `k` in `1..n`), the search started by `main`
returns and has reported a solution whose set of `(size, row, col)` records is
`T`; so the search goes on after its first solution. -/
theorem dfs_complete (n : Nat) (hn : 1 ≤ n) (mem : Nat → PiecePlacement) (fuel : Nat)
    (hfuel : sumOf1toN n < fuel) (T : Finset (Nat × Nat × Nat)) (hT : ValidTiling n T) :
    ∃ t, runSearch n mem fuel = some t ∧
      ∃ rep ∈ t.output, (rep.placements.map squareOf).toFinset = T := by
  obtain ⟨t, L, hrun, _, hout, _, hp⟩ := run_returns closed_reportsAll n hn mem fuel hfuel
  refine ⟨t, hrun, ?_⟩
  have hnone : ∀ p ∈ placed (initState n mem), squareOf p ∈ T := by
    intro p hp
    simp [placed, initState] at hp
  obtain ⟨sol, hsol, hset⟩ := hp T hT hnone
  obtain ⟨rep, hrep, hpl⟩ := exists_number_of_mem 0 hsol
  exact ⟨rep, by rw [hout]; exact hrep, by rw [hpl]; exact hset⟩

theorem dfs_complete_witness :
    1 ≤ 1 ∧ sumOf1toN 1 < 2 ∧ ValidTiling 1 {(1, 0, 0)} ∧
      ∃ t, runSearch 1 (fun _ => ⟨0, 0, 0, 0⟩) 2 = some t ∧
        ∃ rep ∈ t.output, (rep.placements.map squareOf).toFinset = {(1, 0, 0)} :=
  ⟨by decide, by decide, validTiling_one,
    dfs_complete 1 (by decide) _ 2 (by decide) _ validTiling_one⟩

/-- C4 (`canPlace`).  On a board of `boardSize` rows of `boardSize` cells, for
all `row`, `col` and `size`, `canPlace` returns a result without reading
outside the board (a read outside the board yields `none` in the model), the
state it leaves behind is the state it was called in, and the result is true
if and only if `row + size ≤ boardSize`, `col + size ≤ boardSize` and every
cell `(row + i, col + j)` with `i, j < size` holds `0`. -/
theorem canPlace_correct (s : State) (r c size : Nat) (hb : BoardWF s.board s.boardSize) :
    ∃ ok, canPlace s r c size = some (ok, s) ∧
      (ok = true ↔ r + size ≤ s.boardSize ∧ c + size ≤ s.boardSize ∧
        ∀ i j, i < size → j < size → readCell s.board (r + i) (c + j) = some 0) := by
  obtain ⟨ok, hok, hiff⟩ := canPlace_spec hb r c size
  exact ⟨ok, hok, hiff⟩

theorem canPlace_correct_witness :
    BoardWF [[0, 0, 0], [0, 0, 0], [7, 0, 0]] 3 ∧
    ∃ ok, canPlace ⟨3, [[0, 0, 0], [0, 0, 0], [7, 0, 0]], [1, 2], 2, 3, 0, [], 0, []⟩ 0 1 2
        = some (ok, ⟨3, [[0, 0, 0], [0, 0, 0], [7, 0, 0]], [1, 2], 2, 3, 0, [], 0, []⟩) ∧
      (ok = true ↔ 0 + 2 ≤ 3 ∧ 1 + 2 ≤ 3 ∧
        ∀ i j, i < 2 → j < 2 →
          readCell [[0, 0, 0], [0, 0, 0], [7, 0, 0]] (0 + i) (1 + j) = some 0) :=
  ⟨by unfold BoardWF; decide,
   canPlace_correct ⟨3, [[0, 0, 0], [0, 0, 0], [7, 0, 0]], [1, 2], 2, 3, 0, [], 0, []⟩ 0 1 2
     (by unfold BoardWF; decide)⟩

/-- C5 (`findNextEmpty`).  On a board of `boardSize` rows of `boardSize`
cells, `findNextEmpty` returns, leaving the state unchanged; it returns "none"
if and only if no cell of the board holds `0`; otherwise it returns the cell
`(r, c)` with `board[r][c] = 0` that is smallest in row-major order: every
cell `(r1, c1)` with `r1 < r`, or `r1 = r` and `c1 < c`, holds a value other
than `0`. -/
theorem findNextEmpty_correct (s : State) (hb : BoardWF s.board s.boardSize) :
    ∃ res, findNextEmpty s = some (res, s) ∧
      (res = none ↔
        ∀ r c, r < s.boardSize → c < s.boardSize → readCell s.board r c ≠ some 0) ∧
      (∀ r c, res = some (r, c) →
        r < s.boardSize ∧ c < s.boardSize ∧ readCell s.board r c = some 0 ∧
        ∀ r1 c1, r1 < s.boardSize → c1 < s.boardSize → (r1 < r ∨ (r1 = r ∧ c1 < c)) →
          ∃ v, readCell s.board r1 c1 = some v ∧ v ≠ 0) := by
  obtain ⟨res, hres, hnone, hsome⟩ := findNextEmpty_spec hb
  refine ⟨res, hres, ⟨hnone, ?_⟩, ?_⟩
  · intro hall
    cases res with
    | none => rfl
    | some rc =>
      obtain ⟨r, c⟩ := rc
      obtain ⟨hr, hc, h0, _⟩ := hsome r c rfl
      exact absurd h0 (hall r c hr hc)
  · intro r c hrc
    obtain ⟨hr, hc, h0, hfirst⟩ := hsome r c hrc
    refine ⟨hr, hc, h0, ?_⟩
    intro r1 c1 hr1 hc1 hlt
    obtain ⟨v, hv⟩ := readCell_of_wf hb hr1 hc1
    refine ⟨v, hv, ?_⟩
    intro hv0
    subst hv0
    exact hfirst r1 c1 hr1 hc1 hlt hv

theorem findNextEmpty_correct_witness :
    BoardWF [[1, 1, 2], [1, 1, 0], [0, 0, 0]] 3 ∧
    ∃ res, findNextEmpty ⟨3, [[1, 1, 2], [1, 1, 0], [0, 0, 0]], [0, 1], 2, 3, 2, [], 0, []⟩
        = some (res, ⟨3, [[1, 1, 2], [1, 1, 0], [0, 0, 0]], [0, 1], 2, 3, 2, [], 0, []⟩) ∧
      (res = none ↔
        ∀ r c, r < 3 → c < 3 → readCell [[1, 1, 2], [1, 1, 0], [0, 0, 0]] r c ≠ some 0) ∧
      (∀ r c, res = some (r, c) →
        r < 3 ∧ c < 3 ∧ readCell [[1, 1, 2], [1, 1, 0], [0, 0, 0]] r c = some 0 ∧
        ∀ r1 c1, r1 < 3 → c1 < 3 → (r1 < r ∨ (r1 = r ∧ c1 < c)) →
          ∃ v, readCell [[1, 1, 2], [1, 1, 0], [0, 0, 0]] r1 c1 = some v ∧ v ≠ 0) :=
  ⟨by unfold BoardWF; decide,
   findNextEmpty_correct ⟨3, [[1, 1, 2], [1, 1, 0], [0, 0, 0]], [0, 1], 2, 3, 2, [], 0, []⟩
     (by unfold BoardWF; decide)⟩

/-- C6 (place and remove).  On a board of `boardSize` rows of `boardSize`
cells, when `canPlace(row, col, size)` holds, `fillSquare(row, col, size,
tileId)` followed by `fillSquare(row, col, size, 0)` both succeed and yield a
board that is cell for cell the board before the place; the rest of the state
is unchanged too. -/
theorem fillSquare_roundtrip (s : State) (r c size tileId : Nat)
    (hb : BoardWF s.board s.boardSize)
    (hcan : (canPlace s r c size).map Prod.fst = some true) :
    ∃ s1 s2, fillSquare s r c size tileId = some s1 ∧ fillSquare s1 r c size 0 = some s2 ∧
      s2.board = s.board ∧ s2 = s := by
  obtain ⟨ok, hok, hiff⟩ := canPlace_spec hb r c size
  rw [hok] at hcan
  have hfree : SquareFree s r c size := hiff.mp (by simpa using hcan)
  obtain ⟨b1, h1, hwf1, hc1⟩ := fillSquare_spec (s := s) tileId hb hfree.1 hfree.2.1
  obtain ⟨b2, h2, hwf2, hc2⟩ :=
    fillSquare_spec (s := { s with board := b1 }) 0 hwf1 hfree.1 hfree.2.1
  have hboard : b2 = s.board := by
    apply board_ext hwf2 hb
    intro r1 c1 _ _
    rw [hc2 r1 c1]
    show (if inSquare r c size r1 c1 then some 0 else readCell b1 r1 c1) = _
    rw [hc1 r1 c1]
    by_cases hsq : inSquare r c size r1 c1
    · rw [if_pos hsq]
      unfold inSquare at hsq
      have := hfree.2.2 (r1 - r) (c1 - c) (by omega) (by omega)
      rw [show r + (r1 - r) = r1 by omega, show c + (c1 - c) = c1 by omega] at this
      exact this.symm
    · rw [if_neg hsq, if_neg hsq]
  refine ⟨_, _, h1, h2, hboard, ?_⟩
  show ({ s with board := b2 } : State) = s
  rw [hboard]

theorem fillSquare_roundtrip_witness :
    BoardWF [[0, 0, 0], [0, 0, 0], [7, 0, 0]] 3 ∧
    (canPlace ⟨3, [[0, 0, 0], [0, 0, 0], [7, 0, 0]], [1, 2], 2, 3, 0, [], 0, []⟩ 0 1 2).map
      Prod.fst = some true ∧
    ∃ s1 s2,
      fillSquare ⟨3, [[0, 0, 0], [0, 0, 0], [7, 0, 0]], [1, 2], 2, 3, 0, [], 0, []⟩ 0 1 2 5
        = some s1 ∧
      fillSquare s1 0 1 2 0 = some s2 ∧
      s2.board = [[0, 0, 0], [0, 0, 0], [7, 0, 0]] ∧
      s2 = ⟨3, [[0, 0, 0], [0, 0, 0], [7, 0, 0]], [1, 2], 2, 3, 0, [], 0, []⟩ :=
  ⟨by unfold BoardWF; decide, by decide,
   fillSquare_roundtrip ⟨3, [[0, 0, 0], [0, 0, 0], [7, 0, 0]], [1, 2], 2, 3, 0, [], 0, []⟩
     0 1 2 5 (by unfold BoardWF; decide) (by decide)⟩

/-- C7 (exact backtrack).  For every `n ≥ 1` and every state in which
`dfsAllSolutions` is entered during the search, the call returns (given more
fuel than there are tiles), and whenever it returns, the board, the inventory
`squaresCount`, `placedSoFar` and the first `placedSoFar` placement records
are what they were when the call was entered.  In particular the top-level
call returns with the all-empty board, `squaresCount[k] = k + 1` for every
`k < n`, and `placedSoFar = 0`. -/
theorem dfs_exact_backtrack (n : Nat) (hn : 1 ≤ n) (mem : Nat → PiecePlacement) (fuel : Nat)
    (hfuel : sumOf1toN n < fuel) :
    (∀ s, Reachable n mem s →
      (∃ t, dfsAllSolutions fuel s = some t) ∧
      ∀ f t, dfsAllSolutions f s = some t →
        t.board = s.board ∧ t.squaresCount = s.squaresCount ∧
        t.placedSoFar = s.placedSoFar ∧
        t.placements.take s.placedSoFar = s.placements.take s.placedSoFar) ∧
    ∃ t, runSearch n mem fuel = some t ∧
      t.board = List.replicate (sumOf1toN n) (List.replicate (sumOf1toN n) 0) ∧
      t.squaresCount = (List.range n).map (fun k => k + 1) ∧
      (∀ k, k < n → t.squaresCount[k]? = some (k + 1)) ∧
      t.placedSoFar = 0 := by
  constructor
  · intro s hs
    obtain ⟨hinv, hnv⟩ := reachable_inv hs
    constructor
    · have hlt : s.totalSquares - s.placedSoFar < fuel := by
        rw [hinv.htot, hinv.hbs, hnv]
        omega
      obtain ⟨t, _, ht, _⟩ := dfs_induct closed_true fuel s hinv hlt
      exact ⟨t, ht⟩
    · intro f t hft
      have hfr := dfs_frame hinv hft
      refine ⟨hfr.board, hfr.squaresCount, hfr.placedSoFar, ?_⟩
      have := hfr.records
      unfold placed at this
      rw [hfr.placedSoFar] at this
      exact this
  · obtain ⟨t, _, hrun, hfr, _⟩ := run_returns closed_true n hn mem fuel hfuel
    refine ⟨t, hrun, hfr.board, hfr.squaresCount, ?_, hfr.placedSoFar⟩
    intro k hk
    rw [hfr.squaresCount]
    simp [initState, hk]

theorem dfs_exact_backtrack_witness :
    1 ≤ 1 ∧ sumOf1toN 1 < 2 ∧
    Reachable 1 (fun _ => ⟨0, 0, 0, 0⟩) ⟨1, [[1]], [0], 1, 1, 1, [⟨1, 1, 0, 0⟩], 0, []⟩ ∧
    ((∀ s, Reachable 1 (fun _ => ⟨0, 0, 0, 0⟩) s →
      (∃ t, dfsAllSolutions 2 s = some t) ∧
      ∀ f t, dfsAllSolutions f s = some t →
        t.board = s.board ∧ t.squaresCount = s.squaresCount ∧
        t.placedSoFar = s.placedSoFar ∧
        t.placements.take s.placedSoFar = s.placements.take s.placedSoFar) ∧
    ∃ t, runSearch 1 (fun _ => ⟨0, 0, 0, 0⟩) 2 = some t ∧
      t.board = List.replicate (sumOf1toN 1) (List.replicate (sumOf1toN 1) 0) ∧
      t.squaresCount = (List.range 1).map (fun k => k + 1) ∧
      (∀ k, k < 1 → t.squaresCount[k]? = some (k + 1)) ∧
      t.placedSoFar = 0) :=
  ⟨by decide, by decide,
   @Reachable.call 1 (fun _ => ⟨0, 0, 0, 0⟩) (initState 1 (fun _ => ⟨0, 0, 0, 0⟩))
     (initState 1 (fun _ => ⟨0, 0, 0, 0⟩)) (initState 1 (fun _ => ⟨0, 0, 0, 0⟩))
     (initState 1 (fun _ => ⟨0, 0, 0, 0⟩)) ⟨1, [[1]], [0], 1, 1, 1, [⟨1, 1, 0, 0⟩], 0, []⟩
     0 0 0 1 1 Reachable.top (by decide) (by decide) LoopAt.start (by decide) (by decide)
     (by decide) (by decide),
   dfs_exact_backtrack 1 (by decide) _ 2 (by decide)⟩

/-- C8 (`n = 1`).  For `n = 1` the board is `1 × 1` and the search reports
exactly one solution, whose placement sequence is
`[{id: 1, size: 1, row: 0, col: 0}]`. -/
theorem search_n1 (mem : Nat → PiecePlacement) (fuel : Nat) (hfuel : 1 < fuel) :
    ∃ t, runSearch 1 mem fuel = some t ∧ t.boardSize = 1 ∧ t.board = [[0]] ∧
      t.solutionCount = 1 ∧ t.output = [⟨1, [⟨1, 1, 0, 0⟩]⟩] := by
  obtain ⟨f, rfl⟩ : ∃ f, fuel = f + 2 := ⟨fuel - 2, by omega⟩
  exact ⟨_, rfl, rfl, rfl, rfl, rfl⟩

theorem search_n1_witness :
    1 < 2 ∧ ∃ t, runSearch 1 (fun _ => ⟨0, 0, 0, 0⟩) 2 = some t ∧ t.boardSize = 1 ∧
      t.board = [[0]] ∧ t.solutionCount = 1 ∧ t.output = [⟨1, [⟨1, 1, 0, 0⟩]⟩] :=
  ⟨by decide, search_n1 _ 2 (by decide)⟩

/-- C9 (`n = 2`).  For `n = 2` (a `3 × 3` board, one tile of size 1 and two
tiles of size 2) the search returns and has reported no solution:
`solutionCount` is `0` when `dfsAllSolutions` returns. -/
theorem search_n2 (mem : Nat → PiecePlacement) (fuel : Nat) (hfuel : 3 < fuel) :
    ∃ t, runSearch 2 mem fuel = some t ∧ t.boardSize = 3 ∧
      t.board = [[0, 0, 0], [0, 0, 0], [0, 0, 0]] ∧
      t.squaresCount = [1, 2] ∧ t.solutionCount = 0 ∧ t.output = [] := by
  have h3 : sumOf1toN 2 = 3 := by decide
  obtain ⟨t, L, hrun, hfr, hout, hcnt, hp⟩ :=
    run_returns closed_fullRecords 2 (by decide) mem fuel (by rw [h3]; exact hfuel)
  have hL : L = [] := by
    cases L with
    | nil => rfl
    | cons sol rest => exact absurd (hp sol (List.mem_cons_self _ _)) (no_fullRecords_two sol)
  subst hL
  exact ⟨t, hrun, hfr.boardSize, hfr.board, hfr.squaresCount, hcnt, hout⟩

theorem search_n2_witness :
    3 < 4 ∧ ∃ t, runSearch 2 (fun _ => ⟨0, 0, 0, 0⟩) 4 = some t ∧ t.boardSize = 3 ∧
      t.board = [[0, 0, 0], [0, 0, 0], [0, 0, 0]] ∧ t.squaresCount = [1, 2] ∧
      t.solutionCount = 0 ∧ t.output = [] :=
  ⟨by decide, search_n2 _ 4 (by decide)⟩

/-- C10 (internal consistency of the reported geometry).  For every `n ≥ 1`,
the search returns, and for every solution it reported and every tile `p` of
that solution, on the board obtained from the empty board by placing all the
other tiles of the solution, `canPlace(p.row, p.col, p.size)` returns true. -/
theorem dfs_geometry_consistent (n : Nat) (hn : 1 ≤ n) (mem : Nat → PiecePlacement)
    (fuel : Nat) (hfuel : sumOf1toN n < fuel) :
    ∃ t, runSearch n mem fuel = some t ∧
      ∀ rep ∈ t.output, ∀ (i : Nat) (p : PiecePlacement), rep.placements[i]? = some p →
        ∃ b, placeAll (initState n mem) (rep.placements.eraseIdx i) = some b ∧
          canPlace b p.row p.col p.size = some (true, b) := by
  obtain ⟨t, L, hrun, _, hout, _, hp⟩ := run_returns closed_fullRecords n hn mem fuel hfuel
  refine ⟨t, hrun, ?_⟩
  intro rep hrep i p hi
  rw [hout] at hrep
  have hfull : FullRecords n rep.placements := hp _ (mem_number hrep)
  exact canPlace_missing_tile mem hfull.exactTiling hi

theorem dfs_geometry_consistent_witness :
    1 ≤ 1 ∧ sumOf1toN 1 < 2 ∧
      ∃ t, runSearch 1 (fun _ => ⟨0, 0, 0, 0⟩) 2 = some t ∧
        ∀ rep ∈ t.output, ∀ (i : Nat) (p : PiecePlacement), rep.placements[i]? = some p →
          ∃ b, placeAll (initState 1 (fun _ => ⟨0, 0, 0, 0⟩)) (rep.placements.eraseIdx i)
              = some b ∧
            canPlace b p.row p.col p.size = some (true, b) :=
  ⟨by decide, by decide, dfs_geometry_consistent 1 (by decide) _ 2 (by decide)⟩

/-- C16 (area and count of the initial inventory).  For every `n ≥ 0`, in
exact arithmetic, `sumOf1toN n = 1 + 2 + ... + n`; `main` sets
`totalSquares = boardSize = sumOf1toN n`; the initial inventory
`squaresCount[k] = k + 1` holds that many tiles in all; and the total area of
the tiles, `k + 1` tiles of area `(k + 1)²` for each `k < n`, is
`boardSize² = (n (n + 1) / 2)²`. -/
theorem inventory_count_area (n : Nat) (mem : Nat → PiecePlacement) :
    sumOf1toN n = ∑ k in Finset.range n, (k + 1) ∧
    (initState n mem).totalSquares = (initState n mem).boardSize ∧
    (initState n mem).boardSize = sumOf1toN n ∧
    (∀ k, k < n → (initState n mem).squaresCount[k]? = some (k + 1)) ∧
    (initState n mem).squaresCount.sum = (initState n mem).totalSquares ∧
    ∑ k in Finset.range n, (initState n mem).squaresCount.getD k 0 * (k + 1) ^ 2
      = (initState n mem).boardSize ^ 2 ∧
    ∑ k in Finset.range n, (k + 1) * (k + 1) ^ 2 = (n * (n + 1) / 2) ^ 2 := by
  have harea : ∑ k in Finset.range n, (k + 1) * (k + 1) ^ 2 = sumOf1toN n ^ 2 := by
    rw [pow_two, ← sum_areas]
    apply Finset.sum_congr rfl
    intro k _
    ring
  refine ⟨(sum_sizes n).symm, rfl, rfl, ?_, sum_initial_counts n, ?_, harea⟩
  · intro k hk
    simp [initState, hk]
  · show _ = sumOf1toN n ^ 2
    rw [← harea]
    apply Finset.sum_congr rfl
    intro k hk
    have hk1 : k < n := Finset.mem_range.mp hk
    simp [initState, List.getD, hk1]

/-- C11 (identifiers are the placement order).  For every `n ≥ 1` the search
returns, and every solution it reported was reported by a call entered, along
a search path `sq`, in a state `u` with all `totalSquares` tiles placed; the
`i`-th record of the solution (`i = 1..totalSquares`, here counted from `0`)
has `id = i`, its `(size, row, col)` is the square that the `i`-th recursive
call on the search path placed, and on the board of `u` the cells that hold
the identifier `i` are exactly the cells of the square of that side whose
top-left cell is `(row, col)`. -/
theorem ids_are_placement_order (n : Nat) (hn : 1 ≤ n) (mem : Nat → PiecePlacement)
    (fuel : Nat) (hfuel : sumOf1toN n < fuel) :
    ∃ t, runSearch n mem fuel = some t ∧
      ∀ rep ∈ t.output, ∃ sq u, ReportedFrom n mem rep.placements sq u ∧
        rep.placements.length = u.totalSquares ∧ sq.length = u.totalSquares ∧
        ∀ (i : Nat) (p : PiecePlacement), rep.placements[i]? = some p →
          p.id = i + 1 ∧ sq[i]? = some (p.size, p.row, p.col) ∧
          ∀ r c, r < u.boardSize → c < u.boardSize →
            (readCell u.board r c = some (i + 1) ↔
              (p.row ≤ r ∧ r < p.row + p.size ∧ p.col ≤ c ∧ c < p.col + p.size)) := by
  obtain ⟨t, L, hrun, hout, _, hp⟩ := run_reportedFrom n hn mem fuel hfuel
  refine ⟨t, hrun, ?_⟩
  intro rep hrep
  rw [hout] at hrep
  obtain ⟨sq, u, hrf⟩ := hp _ (mem_number hrep)
  obtain ⟨hpl, hinv, _⟩ := reportedFrom_records hrf
  have hsq := searchPath_squares hrf.1
  have hlen : rep.placements.length = u.totalSquares := by
    rw [hpl, length_placed hinv, hrf.2.1]
  refine ⟨sq, u, hrf, hlen, ?_, ?_⟩
  · rw [← hsq, List.length_map, ← hpl, hlen]
  · intro i p hi
    rw [hpl] at hi
    refine ⟨hinv.hid i p hi, ?_, ?_⟩
    · rw [← hsq, List.getElem?_map, hi]
      rfl
    · intro r c hr hc
      obtain ⟨v, hv, _, hcov⟩ := hinv.hcell r c hr hc
      rw [hv]
      constructor
      · intro h
        exact (hcov i p hi).mpr (Option.some.inj h)
      · intro h
        rw [(hcov i p hi).mp h]

theorem ids_are_placement_order_witness :
    1 ≤ 1 ∧ sumOf1toN 1 < 2 ∧
    ∃ t, runSearch 1 (fun _ => ⟨0, 0, 0, 0⟩) 2 = some t ∧
      ∀ rep ∈ t.output, ∃ sq u, ReportedFrom 1 (fun _ => ⟨0, 0, 0, 0⟩) rep.placements sq u ∧
        rep.placements.length = u.totalSquares ∧ sq.length = u.totalSquares ∧
        ∀ (i : Nat) (p : PiecePlacement), rep.placements[i]? = some p →
          p.id = i + 1 ∧ sq[i]? = some (p.size, p.row, p.col) ∧
          ∀ r c, r < u.boardSize → c < u.boardSize →
            (readCell u.board r c = some (i + 1) ↔
              (p.row ≤ r ∧ r < p.row + p.size ∧ p.col ≤ c ∧ c < p.col + p.size)) :=
  ⟨by decide, by decide, ids_are_placement_order 1 (by decide) _ 2 (by decide)⟩

/-- C12 (inventory invariant).  In every state the search for `n` goes
through (at the entry of a call, at the head of a loop iteration, at the
return of a call), for every size `k` in `1..n`, `squaresCount[k-1]` plus the
number of records of size `k` among the first `placedSoFar` placement records
is `k`, and `0 ≤ squaresCount[k-1] ≤ k`. -/
theorem inventory_invariant (n : Nat) (mem : Nat → PiecePlacement) (s : State)
    (hs : Visited n mem s) :
    ∀ k, 1 ≤ k → k ≤ n →
      ∃ cnt, s.squaresCount[k - 1]? = some cnt ∧
        cnt + countSize (s.placements.take s.placedSoFar) k = k ∧ 0 ≤ cnt ∧ cnt ≤ k := by
  obtain ⟨hinv, hn⟩ := visited_inv hs
  intro k hk1 hkn
  obtain ⟨cnt, hcnt, hsum⟩ := hinv.hcount (k - 1) (by omega)
  rw [show k - 1 + 1 = k by omega] at hsum
  exact ⟨cnt, hcnt, hsum, Nat.zero_le _, by omega⟩

theorem inventory_invariant_witness :
    Visited 1 (fun _ => ⟨0, 0, 0, 0⟩) ⟨1, [[1]], [0], 1, 1, 1, [⟨1, 1, 0, 0⟩], 0, []⟩ ∧
    ∀ k, 1 ≤ k → k ≤ 1 →
      ∃ cnt, ([0] : List Nat)[k - 1]? = some cnt ∧
        cnt + countSize (([⟨1, 1, 0, 0⟩] : List PiecePlacement).take 1) k = k ∧
        0 ≤ cnt ∧ cnt ≤ k :=
  ⟨Visited.entry reachable_one,
   inventory_invariant 1 _ ⟨1, [[1]], [0], 1, 1, 1, [⟨1, 1, 0, 0⟩], 0, []⟩
     (Visited.entry reachable_one)⟩

/-- C13 (board invariant).  In every state the search for `n` goes through,
the footprints of the first `placedSoFar` placement records lie inside the
board and are pairwise disjoint, the `i`-th record (`i` counted from `1`) has
`id = i` and every cell inside its footprint holds exactly `i`, and every cell
of the board outside all footprints holds `0`. -/
theorem board_invariant (n : Nat) (mem : Nat → PiecePlacement) (s : State)
    (hs : Visited n mem s) :
    (∀ (i : Nat) (p : PiecePlacement), (s.placements.take s.placedSoFar)[i]? = some p →
      p.row + p.size ≤ s.boardSize ∧ p.col + p.size ≤ s.boardSize ∧ p.id = i + 1 ∧
      ∀ r c, covers p r c → readCell s.board r c = some (i + 1)) ∧
    (∀ (i j : Nat) (p q : PiecePlacement), (s.placements.take s.placedSoFar)[i]? = some p →
      (s.placements.take s.placedSoFar)[j]? = some q → i ≠ j →
      ∀ r c, ¬ (covers p r c ∧ covers q r c)) ∧
    (∀ r c, r < s.boardSize → c < s.boardSize →
      (∀ p ∈ s.placements.take s.placedSoFar, ¬ covers p r c) →
      readCell s.board r c = some 0) := by
  obtain ⟨hinv, _⟩ := visited_inv hs
  refine ⟨?_, ?_, ?_⟩
  · intro i p hi
    have hin := hinv.hin p (List.getElem?_mem hi)
    refine ⟨hin.1, hin.2, hinv.hid i p hi, ?_⟩
    intro r c hcov
    have hr : r < s.boardSize := by unfold covers inSquare at hcov; omega
    have hc : c < s.boardSize := by unfold covers inSquare at hcov; omega
    obtain ⟨v, hv, _, hall⟩ := hinv.hcell r c hr hc
    rw [hv, (hall i p hi).mp hcov]
  · intro i j p q hi hj hij r c
    exact hinv.disjoint hi hj hij r c
  · intro r c hr hc hnone
    by_contra hne
    obtain ⟨p, hp, hcov⟩ := hinv.covered_of_ne_zero hr hc hne
    exact hnone p hp hcov

theorem board_invariant_witness :
    Visited 1 (fun _ => ⟨0, 0, 0, 0⟩) ⟨1, [[1]], [0], 1, 1, 1, [⟨1, 1, 0, 0⟩], 0, []⟩ ∧
    ((∀ (i : Nat) (p : PiecePlacement),
      (([⟨1, 1, 0, 0⟩] : List PiecePlacement).take 1)[i]? = some p →
      p.row + p.size ≤ 1 ∧ p.col + p.size ≤ 1 ∧ p.id = i + 1 ∧
      ∀ r c, covers p r c → readCell [[1]] r c = some (i + 1)) ∧
    (∀ (i j : Nat) (p q : PiecePlacement),
      (([⟨1, 1, 0, 0⟩] : List PiecePlacement).take 1)[i]? = some p →
      (([⟨1, 1, 0, 0⟩] : List PiecePlacement).take 1)[j]? = some q → i ≠ j →
      ∀ r c, ¬ (covers p r c ∧ covers q r c)) ∧
    (∀ r c, r < 1 → c < 1 →
      (∀ p ∈ ([⟨1, 1, 0, 0⟩] : List PiecePlacement).take 1, ¬ covers p r c) →
      readCell [[1]] r c = some 0)) :=
  ⟨Visited.entry reachable_one,
   board_invariant 1 _ ⟨1, [[1]], [0], 1, 1, 1, [⟨1, 1, 0, 0⟩], 0, []⟩
     (Visited.entry reachable_one)⟩

/-- C14 (counterexample).  The input `n = 46341` is accepted by `main`, and
the product `n * (n + 1)` computed by `sumOf1toN` overflows `int`:
`boardSize` and `totalSquares` are `-1073716337`, and the board has no row.
The top-level call is entered in a state whose board has no empty cell while
`placedSoFar = 0 ≠ totalSquares`; `findNextEmpty` returns "none" there, and
the call returns through the `return` at the failure check of
`findNextEmpty`. -/
theorem dead_end_counterexample :
    VisitedInt 46341 (fun _ => ⟨0, 0, 0, 0⟩) (initStateInt 46341 (fun _ => ⟨0, 0, 0, 0⟩)) ∧
    (initStateInt 46341 (fun _ => ⟨0, 0, 0, 0⟩)).totalSquares = -1073716337 ∧
    (initStateInt 46341 (fun _ => ⟨0, 0, 0, 0⟩)).boardSize = -1073716337 ∧
    (initStateInt 46341 (fun _ => ⟨0, 0, 0, 0⟩)).board = [] ∧
    (∀ r c : Nat, readCell (initStateInt 46341 (fun _ => ⟨0, 0, 0, 0⟩)).board r c ≠ some 0) ∧
    ((initStateInt 46341 (fun _ => ⟨0, 0, 0, 0⟩)).placedSoFar : Int)
      ≠ (initStateInt 46341 (fun _ => ⟨0, 0, 0, 0⟩)).totalSquares ∧
    findNextEmptyInt (initStateInt 46341 (fun _ => ⟨0, 0, 0, 0⟩))
      = some (none, initStateInt 46341 (fun _ => ⟨0, 0, 0, 0⟩)) ∧
    runSearchInt 46341 (fun _ => ⟨0, 0, 0, 0⟩) 1
      = some (initStateInt 46341 (fun _ => ⟨0, 0, 0, 0⟩)) :=
  ⟨VisitedInt.entry ReachableInt.top, by decide, by decide, by decide,
    fun r c h => by
      have hb : (initStateInt 46341 (fun _ => ⟨0, 0, 0, 0⟩)).board = [] := by decide
      rw [hb] at h
      simp [readCell] at h,
    by decide, by rfl, by rfl⟩

/-- C14 (the dead-end branch is unreachable, amended).  Let `n (n + 1)` fit
an `int`, that is `n ≤ 46340`, so that `sumOf1toN` does not overflow.  In
every state the search on `int` for `n` goes through, if the board has no
empty cell then `placedSoFar = totalSquares` and the inventory is used up; and
whenever `placedSoFar ≠ totalSquares`, as at every call of `findNextEmpty`,
`findNextEmpty` finds an empty cell, so it does not return "none" and the
`return` at its failure check is not executed. -/
theorem dead_end_unreachable_in_range (n : Nat) (hfit : n * (n + 1) < 2147483648)
    (mem : Nat → PiecePlacement) (S : IntState) (hS : VisitedInt n mem S) :
    ((∀ r c : Nat, (r : Int) < S.boardSize → (c : Int) < S.boardSize →
        readCell S.board r c ≠ some 0) →
      (S.placedSoFar : Int) = S.totalSquares ∧ ∀ k, k < n → S.squaresCount[k]? = some 0) ∧
    ((S.placedSoFar : Int) ≠ S.totalSquares →
      findNextEmptyInt S ≠ some (none, S) ∧
      ∃ r c, findNextEmptyInt S = some (some (r, c), S) ∧ readCell S.board r c = some 0) := by
  obtain ⟨s, hSs, hs⟩ := visitedInt_exact hfit hS
  subst hSs
  obtain ⟨h1, h2⟩ := dead_end_exact n mem s hs
  constructor
  · intro hnone
    obtain ⟨hfull, hcnt⟩ := h1 (fun r c hr hc =>
      hnone r c (Int.ofNat_lt.mpr hr) (Int.ofNat_lt.mpr hc))
    exact ⟨(toInt_full_iff s).mpr hfull, hcnt⟩
  · intro hne
    obtain ⟨_, r, c, hfind, h0⟩ := h2 (fun e => hne ((toInt_full_iff s).mpr e))
    have hI : findNextEmptyInt (toInt s) = some (some (r, c), toInt s) := by
      rw [findNextEmptyInt_sim, hfind]
      rfl
    refine ⟨?_, r, c, hI, h0⟩
    rw [hI]
    intro h
    cases h

theorem dead_end_unreachable_in_range_witness :
    (1 * (1 + 1) < 2147483648 ∧
      VisitedInt 1 (fun _ => ⟨0, 0, 0, 0⟩)
        (toInt ⟨1, [[1]], [0], 1, 1, 1, [⟨1, 1, 0, 0⟩], 0, []⟩) ∧
      (∀ r c : Nat, (r : Int) < (toInt ⟨1, [[1]], [0], 1, 1, 1, [⟨1, 1, 0, 0⟩], 0, []⟩).boardSize →
        (c : Int) < (toInt ⟨1, [[1]], [0], 1, 1, 1, [⟨1, 1, 0, 0⟩], 0, []⟩).boardSize →
        readCell (toInt ⟨1, [[1]], [0], 1, 1, 1, [⟨1, 1, 0, 0⟩], 0, []⟩).board r c ≠ some 0) ∧
      ((toInt ⟨1, [[1]], [0], 1, 1, 1, [⟨1, 1, 0, 0⟩], 0, []⟩).placedSoFar : Int)
        = (toInt ⟨1, [[1]], [0], 1, 1, 1, [⟨1, 1, 0, 0⟩], 0, []⟩).totalSquares ∧
      ∀ k, k < 1 →
        (toInt ⟨1, [[1]], [0], 1, 1, 1, [⟨1, 1, 0, 0⟩], 0, []⟩).squaresCount[k]? = some 0) ∧
    (2 * (2 + 1) < 2147483648 ∧
      VisitedInt 2 (fun _ => ⟨0, 0, 0, 0⟩)
        (toInt ⟨3, [[1, 1, 2], [1, 1, 0], [0, 0, 0]], [0, 1], 2, 3, 2,
          [⟨1, 2, 0, 0⟩, ⟨2, 1, 0, 2⟩, ⟨0, 0, 0, 0⟩], 0, []⟩) ∧
      ((toInt ⟨3, [[1, 1, 2], [1, 1, 0], [0, 0, 0]], [0, 1], 2, 3, 2,
          [⟨1, 2, 0, 0⟩, ⟨2, 1, 0, 2⟩, ⟨0, 0, 0, 0⟩], 0, []⟩).placedSoFar : Int)
        ≠ (toInt ⟨3, [[1, 1, 2], [1, 1, 0], [0, 0, 0]], [0, 1], 2, 3, 2,
          [⟨1, 2, 0, 0⟩, ⟨2, 1, 0, 2⟩, ⟨0, 0, 0, 0⟩], 0, []⟩).totalSquares ∧
      findNextEmptyInt (toInt ⟨3, [[1, 1, 2], [1, 1, 0], [0, 0, 0]], [0, 1], 2, 3, 2,
          [⟨1, 2, 0, 0⟩, ⟨2, 1, 0, 2⟩, ⟨0, 0, 0, 0⟩], 0, []⟩)
        ≠ some (none, toInt ⟨3, [[1, 1, 2], [1, 1, 0], [0, 0, 0]], [0, 1], 2, 3, 2,
          [⟨1, 2, 0, 0⟩, ⟨2, 1, 0, 2⟩, ⟨0, 0, 0, 0⟩], 0, []⟩) ∧
      ∃ r c, findNextEmptyInt (toInt ⟨3, [[1, 1, 2], [1, 1, 0], [0, 0, 0]], [0, 1], 2, 3, 2,
          [⟨1, 2, 0, 0⟩, ⟨2, 1, 0, 2⟩, ⟨0, 0, 0, 0⟩], 0, []⟩)
          = some (some (r, c), toInt ⟨3, [[1, 1, 2], [1, 1, 0], [0, 0, 0]], [0, 1], 2, 3, 2,
            [⟨1, 2, 0, 0⟩, ⟨2, 1, 0, 2⟩, ⟨0, 0, 0, 0⟩], 0, []⟩) ∧
        readCell (toInt ⟨3, [[1, 1, 2], [1, 1, 0], [0, 0, 0]], [0, 1], 2, 3, 2,
          [⟨1, 2, 0, 0⟩, ⟨2, 1, 0, 2⟩, ⟨0, 0, 0, 0⟩], 0, []⟩).board r c = some 0) ∧
    (46340 * (46340 + 1) < 2147483648 ∧
      VisitedInt 46340 (fun _ => ⟨0, 0, 0, 0⟩) (initStateInt 46340 (fun _ => ⟨0, 0, 0, 0⟩)) ∧
      ((initStateInt 46340 (fun _ => ⟨0, 0, 0, 0⟩)).placedSoFar : Int)
        ≠ (initStateInt 46340 (fun _ => ⟨0, 0, 0, 0⟩)).totalSquares ∧
      findNextEmptyInt (initStateInt 46340 (fun _ => ⟨0, 0, 0, 0⟩))
        ≠ some (none, initStateInt 46340 (fun _ => ⟨0, 0, 0, 0⟩))) :=
  ⟨⟨by decide, visited_toInt (by decide) (Visited.entry reachable_one),
    fun r c hr hc => by
      have hr1 : (r : Int) < 1 := hr
      have hc1 : (c : Int) < 1 := hc
      have hr0 : r = 0 := by omega
      have hc0 : c = 0 := by omega
      subst hr0 hc0
      decide,
    (dead_end_unreachable_in_range 1 (by decide) _ _
      (visited_toInt (by decide) (Visited.entry reachable_one))).1
      (fun r c hr hc => by
        have hr1 : (r : Int) < 1 := hr
        have hc1 : (c : Int) < 1 := hc
        have hr0 : r = 0 := by omega
        have hc0 : c = 0 := by omega
        subst hr0 hc0
        decide)⟩,
   ⟨by decide,
    visited_toInt (by decide) (Visited.entry (callSite_reachable callSite_two_second)),
    by decide,
    (dead_end_unreachable_in_range 2 (by decide) _ _
      (visited_toInt (by decide)
        (Visited.entry (callSite_reachable callSite_two_second)))).2 (by decide)⟩,
   ⟨by decide, VisitedInt.entry ReachableInt.top, by decide,
    ((dead_end_unreachable_in_range 46340 (by decide) (fun _ => ⟨0, 0, 0, 0⟩)
      (initStateInt 46340 (fun _ => ⟨0, 0, 0, 0⟩))
      (VisitedInt.entry ReachableInt.top)).2 (by decide)).1⟩⟩

/-- C17 (counterexample).  For the input `n = 46341`, which `main` accepts,
`sumOf1toN` overflows `int` and `totalSquares` is `-1073716337`: in the state
in which the top-level call is entered, `placedSoFar = 0` is not at most
`totalSquares`. -/
theorem depth_bound_counterexample :
    ReachableInt 46341 (fun _ => ⟨0, 0, 0, 0⟩) (initStateInt 46341 (fun _ => ⟨0, 0, 0, 0⟩)) ∧
    sumOf1toNInt 46341 = -1073716337 ∧
    (initStateInt 46341 (fun _ => ⟨0, 0, 0, 0⟩)).totalSquares = -1073716337 ∧
    (initStateInt 46341 (fun _ => ⟨0, 0, 0, 0⟩)).placedSoFar = 0 ∧
    ¬ (((initStateInt 46341 (fun _ => ⟨0, 0, 0, 0⟩)).placedSoFar : Int)
        ≤ (initStateInt 46341 (fun _ => ⟨0, 0, 0, 0⟩)).totalSquares) :=
  ⟨ReachableInt.top, by decide, by decide, by decide, by decide⟩

/-- C17 (termination and bounded depth, amended).  Let `n ≥ 1` and let
`n (n + 1)` fit an `int`, that is `n ≤ 46340`, so that `sumOf1toN` does not
overflow.  The search on `int` returns when the fuel, the bound on the number
of nested calls, exceeds `totalSquares`, and so does every call it makes; in
every state the search goes through, `0 ≤ placedSoFar ≤ totalSquares`, where
`totalSquares` is the value `n (n + 1) / 2` that `sumOf1toN` computes; the
depth of a call, the number of recursive calls on its search path, is its
`placedSoFar`, so it is at most `totalSquares`; and at every call site the
recursive call is entered with the total remaining inventory decreased by one,
the write of `placements[placedSoFar - 1]` hits an index in
`0..totalSquares-1` of the array of `totalSquares` records, and every cell
written by `fillSquare` lies inside the board. -/
theorem dfs_terminates_bounded_in_range (n : Nat) (hn : 1 ≤ n)
    (hfit : n * (n + 1) < 2147483648) (mem : Nat → PiecePlacement)
    (fuel : Nat) (hfuel : sumOf1toN n < fuel) :
    (∃ T, runSearchInt n mem fuel = some T) ∧
    (∀ S, ReachableInt n mem S → ∃ T, dfsAllSolutionsInt fuel S = some T) ∧
    (∀ S, VisitedInt n mem S → (0 : Int) ≤ (S.placedSoFar : Int) ∧
      (S.placedSoFar : Int) ≤ S.totalSquares ∧
      S.totalSquares = sumOf1toNInt n ∧ S.totalSquares = ((sumOf1toN n : Nat) : Int)) ∧
    (∀ sq U, SearchPathInt n mem sq U → sq.length = U.placedSoFar ∧
      (sq.length : Int) ≤ U.totalSquares) ∧
    (∀ S r c i W U, CallSiteInt n mem S r c i W U →
      W.squaresCount.sum = S.squaresCount.sum ∧
      U.squaresCount.sum + 1 = W.squaresCount.sum ∧
      U.placedSoFar = S.placedSoFar + 1 ∧
      ((U.placedSoFar - 1 : Nat) : Int) < U.totalSquares ∧
      (U.placements.length : Int) = U.totalSquares ∧
      (0 : Int) ≤ W.boardSize ∧ BoardWF W.board W.boardSize.toNat ∧
      ∀ rr cc, rr < i + 1 → cc < i + 1 →
        ((r + rr : Nat) : Int) < W.boardSize ∧ ((c + cc : Nat) : Int) < W.boardSize) := by
  obtain ⟨e1, e2, e3, e4, e5⟩ := bounded_exact n hn mem fuel hfuel
  refine ⟨?_, ?_, ?_, ?_, ?_⟩
  · obtain ⟨t, ht⟩ := e1
    exact ⟨toInt t, by rw [runSearchInt_eq hfit, ht]; rfl⟩
  · intro S hS
    obtain ⟨s, hSs, hs⟩ := reachableInt_exact hfit hS
    subst hSs
    obtain ⟨t, ht⟩ := e2 s hs
    obtain ⟨hinv, hnv⟩ := reachable_inv hs
    exact ⟨toInt t, by rw [dfs_sim fuel s (fitsInt_of_inv hfit hinv hnv), ht]; rfl⟩
  · intro S hS
    obtain ⟨s, hSs, hs⟩ := visitedInt_exact hfit hS
    subst hSs
    obtain ⟨_, h2, h3⟩ := e3 s hs
    refine ⟨Int.ofNat_nonneg _, Int.ofNat_le.mpr h2, ?_, ?_⟩
    · rw [sumOf1toNInt_eq hfit]
      show (s.totalSquares : Int) = _
      rw [h3]
    · show (s.totalSquares : Int) = _
      rw [h3]
  · intro sq U hsq
    obtain ⟨u, hUu, hu⟩ := searchPathInt_exact hfit hsq
    subst hUu
    obtain ⟨h1, h2⟩ := e4 sq u hu
    exact ⟨h1, Int.ofNat_le.mpr h2⟩
  · intro S r c i W U hsite
    obtain ⟨s, w, u, hS, hW, hU, hsite1⟩ := callSiteInt_exact hfit hsite
    subst hS hW hU
    obtain ⟨h1, h2, h3, h4, h5, h6, h7⟩ := e5 s r c i w u hsite1
    refine ⟨h1, h2, h3, Int.ofNat_lt.mpr h4, ?_, Int.ofNat_nonneg _, ?_, ?_⟩
    · show ((u.placements.length : Nat) : Int) = (u.totalSquares : Int)
      rw [h5]
    · show BoardWF w.board (Int.toNat (w.boardSize : Int))
      rw [Int.toNat_ofNat]
      exact h6
    · intro rr cc hrr hcc
      obtain ⟨a, b⟩ := h7 rr cc hrr hcc
      exact ⟨Int.ofNat_lt.mpr a, Int.ofNat_lt.mpr b⟩

theorem dfs_terminates_bounded_in_range_witness :
    1 ≤ 2 ∧ 2 * (2 + 1) < 2147483648 ∧ sumOf1toN 2 < 4 ∧
    CallSiteInt 2 (fun _ => ⟨0, 0, 0, 0⟩)
      (toInt ⟨3, [[1, 1, 0], [1, 1, 0], [0, 0, 0]], [1, 1], 2, 3, 1,
        [⟨1, 2, 0, 0⟩, ⟨0, 0, 0, 0⟩, ⟨0, 0, 0, 0⟩], 0, []⟩) 0 2 0
      (toInt ⟨3, [[1, 1, 0], [1, 1, 0], [0, 0, 0]], [1, 1], 2, 3, 1,
        [⟨1, 2, 0, 0⟩, ⟨0, 0, 0, 0⟩, ⟨0, 0, 0, 0⟩], 0, []⟩)
      (toInt ⟨3, [[1, 1, 2], [1, 1, 0], [0, 0, 0]], [0, 1], 2, 3, 2,
        [⟨1, 2, 0, 0⟩, ⟨2, 1, 0, 2⟩, ⟨0, 0, 0, 0⟩], 0, []⟩) ∧
    SearchPathInt 2 (fun _ => ⟨0, 0, 0, 0⟩) [(2, 0, 0), (1, 0, 2)]
      (toInt ⟨3, [[1, 1, 2], [1, 1, 0], [0, 0, 0]], [0, 1], 2, 3, 2,
        [⟨1, 2, 0, 0⟩, ⟨2, 1, 0, 2⟩, ⟨0, 0, 0, 0⟩], 0, []⟩) ∧
    ((∃ T, runSearchInt 2 (fun _ => ⟨0, 0, 0, 0⟩) 4 = some T) ∧
    (∀ S, ReachableInt 2 (fun _ => ⟨0, 0, 0, 0⟩) S → ∃ T, dfsAllSolutionsInt 4 S = some T) ∧
    (∀ S, VisitedInt 2 (fun _ => ⟨0, 0, 0, 0⟩) S → (0 : Int) ≤ (S.placedSoFar : Int) ∧
      (S.placedSoFar : Int) ≤ S.totalSquares ∧
      S.totalSquares = sumOf1toNInt 2 ∧ S.totalSquares = ((sumOf1toN 2 : Nat) : Int)) ∧
    (∀ sq U, SearchPathInt 2 (fun _ => ⟨0, 0, 0, 0⟩) sq U → sq.length = U.placedSoFar ∧
      (sq.length : Int) ≤ U.totalSquares) ∧
    (∀ S r c i W U, CallSiteInt 2 (fun _ => ⟨0, 0, 0, 0⟩) S r c i W U →
      W.squaresCount.sum = S.squaresCount.sum ∧
      U.squaresCount.sum + 1 = W.squaresCount.sum ∧
      U.placedSoFar = S.placedSoFar + 1 ∧
      ((U.placedSoFar - 1 : Nat) : Int) < U.totalSquares ∧
      (U.placements.length : Int) = U.totalSquares ∧
      (0 : Int) ≤ W.boardSize ∧ BoardWF W.board W.boardSize.toNat ∧
      ∀ rr cc, rr < i + 1 → cc < i + 1 →
        ((r + rr : Nat) : Int) < W.boardSize ∧ ((c + cc : Nat) : Int) < W.boardSize)) ∧
    (1 ≤ 46340 ∧ 46340 * (46340 + 1) < 2147483648 ∧ sumOf1toN 46340 < 1073720971 ∧
      ∃ T, runSearchInt 46340 (fun _ => ⟨0, 0, 0, 0⟩) 1073720971 = some T) :=
  ⟨by decide, by decide, by decide,
   callSite_toInt (by decide) callSite_two_second
     (reachable_toInt (by decide) (callSite_reachable callSite_two_first)),
   searchPath_toInt (by decide) searchPath_two,
   dfs_terminates_bounded_in_range 2 (by decide) (by decide) _ 4 (by decide),
   by decide, by decide, by decide,
   (dfs_terminates_bounded_in_range 46340 (by decide) (by decide) (fun _ => ⟨0, 0, 0, 0⟩)
     1073720971 (by decide)).1⟩

/-- C15 (emission order).  For every `n ≥ 1` the search returns, and for any
two solutions `A` and `B` it reported, `A` before `B`, the sequences of tile
sizes of `A` and `B` in placement order differ at some position `j`; they
agree before `j`, and at `j` the tile of `A` is the larger one and both tiles
are anchored at the same `(row, col)`: the solutions are emitted in strictly
decreasing lexicographic order of their size sequences. -/
theorem emission_order (n : Nat) (hn : 1 ≤ n) (mem : Nat → PiecePlacement) (fuel : Nat)
    (hfuel : sumOf1toN n < fuel) :
    ∃ t, runSearch n mem fuel = some t ∧
      ∀ (a b : Nat) (A B : Report), a < b → t.output[a]? = some A →
        t.output[b]? = some B →
        A.solIndex < B.solIndex ∧
        ∃ (j : Nat) (p q : PiecePlacement),
          (∀ k, k < j → (A.placements.map (fun x => x.size))[k]?
            = (B.placements.map (fun x => x.size))[k]?) ∧
          A.placements[j]? = some p ∧ B.placements[j]? = some q ∧
          q.size < p.size ∧ p.row = q.row ∧ p.col = q.col := by
  obtain ⟨t, L, hrun, hout, _, _, hord, _⟩ := run_summary n hn mem fuel hfuel
  refine ⟨t, hrun, ?_⟩
  intro a b A B hab hA hB
  rw [hout, number_getElem] at hA hB
  cases hLa : L[a]? with
  | none => simp [hLa] at hA
  | some sa =>
    cases hLb : L[b]? with
    | none => simp [hLb] at hB
    | some sb =>
      simp only [hLa, Option.map_some', Option.some.injEq] at hA
      simp only [hLb, Option.map_some', Option.some.injEq] at hB
      subst hA hB
      obtain ⟨ha, hea⟩ := List.getElem?_eq_some_iff.mp hLa
      obtain ⟨hb, heb⟩ := List.getElem?_eq_some_iff.mp hLb
      have hrel := (List.pairwise_iff_getElem.mp hord) a b ha hb hab
      rw [hea, heb] at hrel
      exact ⟨by simp only; omega, emittedBefore_sizes hrel⟩

theorem emission_order_witness :
    1 ≤ 8 ∧ sumOf1toN 8 < 37 ∧
    ∃ t, runSearch 8 (fun _ => ⟨0, 0, 0, 0⟩) 37 = some t ∧
      (∀ (a b : Nat) (A B : Report), a < b → t.output[a]? = some A →
        t.output[b]? = some B →
        A.solIndex < B.solIndex ∧
        ∃ (j : Nat) (p q : PiecePlacement),
          (∀ k, k < j → (A.placements.map (fun x => x.size))[k]?
            = (B.placements.map (fun x => x.size))[k]?) ∧
          A.placements[j]? = some p ∧ B.placements[j]? = some q ∧
          q.size < p.size ∧ p.row = q.row ∧ p.col = q.col) ∧
      ∃ a b, a < b ∧
        t.output[a]? = some (⟨a + 1, tilingEightA⟩ : Report) ∧
        t.output[b]? = some (⟨b + 1, tilingEightB⟩ : Report) ∧
        a + 1 < b + 1 ∧
        ∃ (j : Nat) (p q : PiecePlacement),
          (∀ k, k < j → (tilingEightA.map (fun x => x.size))[k]?
            = (tilingEightB.map (fun x => x.size))[k]?) ∧
          tilingEightA[j]? = some p ∧ tilingEightB[j]? = some q ∧
          q.size < p.size ∧ p.row = q.row ∧ p.col = q.col := by
  obtain ⟨t, ht, hord⟩ := emission_order 8 (by decide) (fun _ => ⟨0, 0, 0, 0⟩) 37 (by decide)
  obtain ⟨t1, a, b, ht1, hab, hA, hB⟩ := reports_eight (fun _ => ⟨0, 0, 0, 0⟩) 37 (by decide)
  have e : t1 = t := Option.some.inj (ht1.symm.trans ht)
  subst e
  exact ⟨by decide, by decide, t1, ht, hord, a, b, hab, hA, hB, hord a b _ _ hab hA hB⟩

/-- C19 (canonical placement order).  In every state the search for `n` goes
through, the top-left corners of the first `placedSoFar` placement records
increase strictly in row-major order: for records `i < j`, `row_i < row_j`, or
`row_i = row_j` and `col_i < col_j`; two such states with the same set of
squares have the same placement sequence.  For `n ≥ 1` the search returns, the
same order holds in every reported solution, and two reported solutions with
the same set of squares are the same placement sequence. -/
theorem canonical_placement_order (n : Nat) (hn : 1 ≤ n) (mem : Nat → PiecePlacement)
    (fuel : Nat) (hfuel : sumOf1toN n < fuel) :
    (∀ s, Visited n mem s → ∀ (i j : Nat) (p q : PiecePlacement), i < j →
      (s.placements.take s.placedSoFar)[i]? = some p →
      (s.placements.take s.placedSoFar)[j]? = some q →
      (p.row < q.row ∨ (p.row = q.row ∧ p.col < q.col))) ∧
    (∀ s1 s2, Visited n mem s1 → Visited n mem s2 →
      ((s1.placements.take s1.placedSoFar).map squareOf).toFinset
        = ((s2.placements.take s2.placedSoFar).map squareOf).toFinset →
      s1.placements.take s1.placedSoFar = s2.placements.take s2.placedSoFar) ∧
    ∃ t, runSearch n mem fuel = some t ∧
      (∀ rep ∈ t.output, ∀ (i j : Nat) (p q : PiecePlacement), i < j →
        rep.placements[i]? = some p → rep.placements[j]? = some q →
        (p.row < q.row ∨ (p.row = q.row ∧ p.col < q.col))) ∧
      (∀ A ∈ t.output, ∀ B ∈ t.output,
        (A.placements.map squareOf).toFinset = (B.placements.map squareOf).toFinset →
        A.placements = B.placements) := by
  have hidx : ∀ {l : List PiecePlacement}, l.Pairwise cornerBefore →
      ∀ (i j : Nat) (p q : PiecePlacement), i < j → l[i]? = some p → l[j]? = some q →
      (p.row < q.row ∨ (p.row = q.row ∧ p.col < q.col)) := by
    intro l hl i j p q hij hi hj
    obtain ⟨hi1, hi2⟩ := List.getElem?_eq_some_iff.mp hi
    obtain ⟨hj1, hj2⟩ := List.getElem?_eq_some_iff.mp hj
    have := (List.pairwise_iff_getElem.mp hl) i j hi1 hj1 hij
    rw [hi2, hj2] at this
    exact this
  refine ⟨?_, ?_, ?_⟩
  · intro s hs
    exact hidx (visited_canonical hs).sorted
  · intro s1 s2 h1 h2 hset
    exact canonical_determined (visited_canonical h1).sorted (visited_canonical h2).sorted
      (visited_inv h1).1.hid (visited_inv h2).1.hid hset
  · obtain ⟨t, L, hrun, hout, _, hrep, _, _⟩ := run_summary n hn mem fuel hfuel
    refine ⟨t, hrun, ?_, ?_⟩
    · intro rep hmem
      rw [hout] at hmem
      obtain ⟨_, _, hrf⟩ := hrep _ (mem_number hmem)
      exact hidx (reportedFrom_canonical hrf).1
    · intro A hA B hB hset
      rw [hout] at hA hB
      obtain ⟨_, _, ha⟩ := hrep _ (mem_number hA)
      obtain ⟨_, _, hb⟩ := hrep _ (mem_number hB)
      obtain ⟨hsa, hida, _⟩ := reportedFrom_canonical ha
      obtain ⟨hsb, hidb, _⟩ := reportedFrom_canonical hb
      exact canonical_determined hsa hsb hida hidb hset

theorem canonical_placement_order_witness :
    (1 ≤ 2 ∧ sumOf1toN 2 < 4 ∧
      Visited 2 (fun _ => ⟨0, 0, 0, 0⟩)
        ⟨3, [[1, 1, 2], [1, 1, 0], [0, 0, 0]], [0, 1], 2, 3, 2,
          [⟨1, 2, 0, 0⟩, ⟨2, 1, 0, 2⟩, ⟨0, 0, 0, 0⟩], 0, []⟩ ∧
      (([⟨1, 2, 0, 0⟩, ⟨2, 1, 0, 2⟩, ⟨0, 0, 0, 0⟩] : List PiecePlacement).take 2)[0]?
        = some ⟨1, 2, 0, 0⟩ ∧
      (([⟨1, 2, 0, 0⟩, ⟨2, 1, 0, 2⟩, ⟨0, 0, 0, 0⟩] : List PiecePlacement).take 2)[1]?
        = some ⟨2, 1, 0, 2⟩ ∧
      ((⟨1, 2, 0, 0⟩ : PiecePlacement).row < (⟨2, 1, 0, 2⟩ : PiecePlacement).row ∨
        ((⟨1, 2, 0, 0⟩ : PiecePlacement).row = (⟨2, 1, 0, 2⟩ : PiecePlacement).row ∧
          (⟨1, 2, 0, 0⟩ : PiecePlacement).col < (⟨2, 1, 0, 2⟩ : PiecePlacement).col))) ∧
    (1 ≤ 8 ∧ sumOf1toN 8 < 37 ∧
      ∃ t a, runSearch 8 (fun _ => ⟨0, 0, 0, 0⟩) 37 = some t ∧
        t.output[a]? = some (⟨a + 1, tilingEightA⟩ : Report) ∧
        (∀ (i j : Nat) (p q : PiecePlacement), i < j →
          tilingEightA[i]? = some p → tilingEightA[j]? = some q →
          (p.row < q.row ∨ (p.row = q.row ∧ p.col < q.col))) ∧
        (∀ B ∈ t.output,
          (tilingEightA.map squareOf).toFinset = (B.placements.map squareOf).toFinset →
          tilingEightA = B.placements)) := by
  refine ⟨⟨by decide, by decide, Visited.entry (callSite_reachable callSite_two_second),
    by decide, by decide, ?_⟩, ?_⟩
  · exact (canonical_placement_order 2 (by decide) (fun _ => ⟨0, 0, 0, 0⟩) 4 (by decide)).1
      _ (Visited.entry (callSite_reachable callSite_two_second)) 0 1 _ _
      (by decide) (by decide) (by decide)
  · obtain ⟨t, ht, hsorted, hsame⟩ :=
      (canonical_placement_order 8 (by decide) (fun _ => ⟨0, 0, 0, 0⟩) 37 (by decide)).2.2
    obtain ⟨t1, a, _, ht1, _, hA, _⟩ := reports_eight (fun _ => ⟨0, 0, 0, 0⟩) 37 (by decide)
    have e : t1 = t := Option.some.inj (ht1.symm.trans ht)
    subst e
    exact ⟨by decide, by decide, t1, a, ht, hA, hsorted _ (List.getElem?_mem hA),
      hsame _ (List.getElem?_mem hA)⟩

/-- C20 (no duplicate reports).  For every `n ≥ 1` the search returns; two
reports at different positions have different solution indices and different
sets of `(size, row, col)` records; the sets of the reports are exactly the
valid tilings, so every valid tiling is reported exactly once; and the final
`solutionCount` is the number of valid tilings. -/
theorem no_duplicate_reports (n : Nat) (hn : 1 ≤ n) (mem : Nat → PiecePlacement) (fuel : Nat)
    (hfuel : sumOf1toN n < fuel) :
    ∃ t, runSearch n mem fuel = some t ∧
      (∀ (a b : Nat) (A B : Report), t.output[a]? = some A → t.output[b]? = some B →
        a ≠ b →
        A.solIndex ≠ B.solIndex ∧
        (A.placements.map squareOf).toFinset ≠ (B.placements.map squareOf).toFinset) ∧
      (∀ A ∈ t.output, ∀ B ∈ t.output, A.solIndex ≠ B.solIndex →
        (A.placements.map squareOf).toFinset ≠ (B.placements.map squareOf).toFinset) ∧
      (∀ T, ValidTiling n T ↔
        ∃ rep ∈ t.output, (rep.placements.map squareOf).toFinset = T) ∧
      (∀ T, ValidTiling n T →
        ∃! a : Nat, ∃ rep, t.output[a]? = some rep ∧
          (rep.placements.map squareOf).toFinset = T) ∧
      ∃ V : Finset (Finset (Nat × Nat × Nat)),
        (∀ T, T ∈ V ↔ ValidTiling n T) ∧ t.solutionCount = V.card := by
  obtain ⟨t, L, hrun, hout, hcnt, hrep, hord, hall⟩ := run_summary n hn mem fuel hfuel
  have hdist := distinct_sets hrep hord
  -- the report at the position `a` is the solution `L[a]` with the index `a + 1`
  have hget : ∀ (a : Nat) (A : Report), t.output[a]? = some A →
      A.solIndex = a + 1 ∧ ∃ h : a < L.length, L[a] = A.placements := by
    intro a A hA
    rw [hout, number_getElem] at hA
    cases hLa : L[a]? with
    | none => simp [hLa] at hA
    | some sa =>
      simp only [hLa, Option.map_some', Option.some.injEq] at hA
      subst hA
      obtain ⟨ha, hea⟩ := List.getElem?_eq_some_iff.mp hLa
      exact ⟨by simp only; omega, ha, hea⟩
  have hpos : ∀ (a b : Nat) (A B : Report), t.output[a]? = some A → t.output[b]? = some B →
      a ≠ b →
      A.solIndex ≠ B.solIndex ∧
      (A.placements.map squareOf).toFinset ≠ (B.placements.map squareOf).toFinset := by
    intro a b A B hA hB hab
    obtain ⟨hia, ha, hea⟩ := hget a A hA
    obtain ⟨hib, hb, heb⟩ := hget b B hB
    refine ⟨by omega, ?_⟩
    rcases Nat.lt_or_gt_of_ne hab with hlt | hgt
    · have := (List.pairwise_iff_getElem.mp hdist) a b ha hb hlt
      rw [hea, heb] at this
      exact this
    · have := (List.pairwise_iff_getElem.mp hdist) b a hb ha hgt
      rw [hea, heb] at this
      exact fun e => this e.symm
  have hvalid : ∀ T, ValidTiling n T ↔
      ∃ rep ∈ t.output, (rep.placements.map squareOf).toFinset = T := by
    intro T
    constructor
    · intro hT
      have hnone : ∀ p ∈ placed (initState n mem), squareOf p ∈ T := by
        intro p hp
        simp [placed, initState] at hp
      obtain ⟨sol, hsol, hset⟩ := hall T hT hnone
      obtain ⟨rep, hrepm, hpl⟩ := exists_number_of_mem 0 hsol
      exact ⟨rep, by rw [hout]; exact hrepm, by rw [hpl]; exact hset⟩
    · rintro ⟨rep, hmem, rfl⟩
      rw [hout] at hmem
      obtain ⟨_, _, hrf⟩ := hrep _ (mem_number hmem)
      exact (reportedFrom_canonical hrf).2.2
  refine ⟨t, hrun, hpos, ?_, hvalid, ?_, ?_⟩
  · intro A hA B hB hidx
    obtain ⟨a, ha⟩ := List.mem_iff_getElem?.mp hA
    obtain ⟨b, hb⟩ := List.mem_iff_getElem?.mp hB
    have hab : a ≠ b := by
      intro e
      subst e
      rw [ha] at hb
      cases hb
      exact hidx rfl
    exact (hpos a b A B ha hb hab).2
  · intro T hT
    obtain ⟨rep, hmem, hset⟩ := (hvalid T).mp hT
    obtain ⟨a, ha⟩ := List.mem_iff_getElem?.mp hmem
    refine ⟨a, ⟨rep, ha, hset⟩, ?_⟩
    rintro b ⟨rep2, hb, hset2⟩
    by_contra hne
    exact (hpos b a rep2 rep hb ha hne).2 (hset2.trans hset.symm)
  · refine ⟨(L.map (fun sol => (sol.map squareOf).toFinset)).toFinset, ?_, ?_⟩
    · intro T
      rw [hvalid T, List.mem_toFinset, List.mem_map]
      constructor
      · rintro ⟨sol, hsol, rfl⟩
        obtain ⟨rep, hrepm, hpl⟩ := exists_number_of_mem 0 hsol
        exact ⟨rep, by rw [hout]; exact hrepm, by rw [hpl]⟩
      · rintro ⟨rep, hmem, rfl⟩
        rw [hout] at hmem
        exact ⟨rep.placements, mem_number hmem, rfl⟩
    · have hnd : (L.map (fun sol => (sol.map squareOf).toFinset)).Nodup := by
        unfold List.Nodup
        rw [List.pairwise_map]
        exact hdist
      rw [List.toFinset_card_of_nodup hnd, List.length_map, hcnt]

theorem no_duplicate_reports_witness :
    1 ≤ 1 ∧ sumOf1toN 1 < 2 ∧
    ∃ t, runSearch 1 (fun _ => ⟨0, 0, 0, 0⟩) 2 = some t ∧
      (∀ (a b : Nat) (A B : Report), t.output[a]? = some A → t.output[b]? = some B →
        a ≠ b →
        A.solIndex ≠ B.solIndex ∧
        (A.placements.map squareOf).toFinset ≠ (B.placements.map squareOf).toFinset) ∧
      (∀ A ∈ t.output, ∀ B ∈ t.output, A.solIndex ≠ B.solIndex →
        (A.placements.map squareOf).toFinset ≠ (B.placements.map squareOf).toFinset) ∧
      (∀ T, ValidTiling 1 T ↔
        ∃ rep ∈ t.output, (rep.placements.map squareOf).toFinset = T) ∧
      (∀ T, ValidTiling 1 T →
        ∃! a : Nat, ∃ rep, t.output[a]? = some rep ∧
          (rep.placements.map squareOf).toFinset = T) ∧
      ∃ V : Finset (Finset (Nat × Nat × Nat)),
        (∀ T, T ∈ V ↔ ValidTiling 1 T) ∧ t.solutionCount = V.card :=
  ⟨by decide, by decide, no_duplicate_reports 1 (by decide) _ 2 (by decide)⟩

/-- C18 (counterexample).  For the solution reported for `n = 1`, whose only
record is `{id: 1, size: 1, row: 0, col: 0}`, the rectangle is drawn at
`x = 10`, `y = 10`, not at `x = col * cellSize = 0`, `y = row * cellSize = 0`. -/
theorem svg_origin_counterexample :
    ∃ t, runSearch 1 (fun _ => ⟨0, 0, 0, 0⟩) 2 = some t ∧
      ∃ rep ∈ t.output, ∃ p ∈ rep.placements,
        p = ⟨1, 1, 0, 0⟩ ∧ (svgRect p).x = 10 ∧ (svgRect p).y = 10 ∧ ¬ SvgAtOrigin p :=
  ⟨_, rfl, ⟨1, [⟨1, 1, 0, 0⟩]⟩, by decide, ⟨1, 1, 0, 0⟩, by decide, rfl, rfl, rfl, by decide⟩

/-- C18 (SVG geometry, amended).  When the array `placements` holds
`totalSquares` records, `outputSolutionAsSVG` writes one rectangle and one
label for each of them, in order; for the record `(size, row, col)` the
rectangle is at `x = margin + col * cellSize`, `y = margin + row * cellSize`
with `width = height = size * cellSize`, where `cellSize = 20` and
`margin = 10` are fixed and the grid line `col` (resp. `row`) has the same
`x` (resp. `y`); the label is the tile's size, placed at the centre of the
rectangle. -/
theorem svg_geometry (s : State) (solIndex : Nat)
    (hlen : s.totalSquares ≤ s.placements.length) :
    ∃ f, outputSolutionAsSVG s solIndex = some f ∧
      cellSize = 20 ∧ margin = 10 ∧
      f.rects.length = s.totalSquares ∧ f.texts.length = s.totalSquares ∧
      ∀ (i : Nat) (p : PiecePlacement), (s.placements.take s.totalSquares)[i]? = some p →
        ∃ rc tx, f.rects[i]? = some rc ∧ f.texts[i]? = some tx ∧
          rc.x = margin + p.col * cellSize ∧ rc.y = margin + p.row * cellSize ∧
          rc.width = p.size * cellSize ∧ rc.height = p.size * cellSize ∧
          (p.col ≤ s.boardSize → ⟨rc.x, margin, rc.x, margin + s.boardSize * cellSize⟩ ∈ f.grid) ∧
          (p.row ≤ s.boardSize → ⟨margin, rc.y, margin + s.boardSize * cellSize, rc.y⟩ ∈ f.grid) ∧
          tx.label = p.size ∧
          2 * tx.x = 2 * rc.x + rc.width ∧ 2 * tx.y = 2 * rc.y + rc.height := by
  refine ⟨{ solIndex := solIndex
            svgWidth := margin * 2 + s.boardSize * cellSize
            svgHeight := margin * 2 + s.boardSize * cellSize
            grid := (List.range (s.boardSize + 1)).flatMap (svgGridLines s.boardSize)
            rects := (s.placements.take s.totalSquares).map svgRect
            texts := (s.placements.take s.totalSquares).map svgText },
    by simp only [outputSolutionAsSVG, hlen, if_true], rfl, rfl, ?_, ?_, ?_⟩
  · simp [hlen]
  · simp [hlen]
  · intro i p hi
    refine ⟨svgRect p, svgText p, by rw [List.getElem?_map, hi]; rfl,
      by rw [List.getElem?_map, hi]; rfl, rfl, rfl, rfl, rfl, ?_, ?_, rfl, ?_, ?_⟩
    · intro hc
      simp only [List.mem_flatMap, List.mem_range]
      exact ⟨p.col, by omega, by simp [svgGridLines, svgRect]⟩
    · intro hr
      simp only [List.mem_flatMap, List.mem_range]
      exact ⟨p.row, by omega, by simp [svgGridLines, svgRect]⟩
    · simp only [svgText, svgRect, cellSize]
      omega
    · simp only [svgText, svgRect, cellSize]
      omega

theorem svg_geometry_witness :
    (1 : Nat) ≤ ([⟨1, 1, 0, 0⟩] : List PiecePlacement).length ∧
    ∃ f, outputSolutionAsSVG ⟨1, [[1]], [0], 1, 1, 1, [⟨1, 1, 0, 0⟩], 0, []⟩ 1 = some f ∧
      cellSize = 20 ∧ margin = 10 ∧
      f.rects.length = 1 ∧ f.texts.length = 1 ∧
      ∀ (i : Nat) (p : PiecePlacement),
        (([⟨1, 1, 0, 0⟩] : List PiecePlacement).take 1)[i]? = some p →
        ∃ rc tx, f.rects[i]? = some rc ∧ f.texts[i]? = some tx ∧
          rc.x = margin + p.col * cellSize ∧ rc.y = margin + p.row * cellSize ∧
          rc.width = p.size * cellSize ∧ rc.height = p.size * cellSize ∧
          (p.col ≤ 1 → ⟨rc.x, margin, rc.x, margin + 1 * cellSize⟩ ∈ f.grid) ∧
          (p.row ≤ 1 → ⟨margin, rc.y, margin + 1 * cellSize, rc.y⟩ ∈ f.grid) ∧
          tx.label = p.size ∧
          2 * tx.x = 2 * rc.x + rc.width ∧ 2 * tx.y = 2 * rc.y + rc.height :=
  ⟨by decide,
   svg_geometry ⟨1, [[1]], [0], 1, 1, 1, [⟨1, 1, 0, 0⟩], 0, []⟩ 1 (by decide)⟩

end Tessellation
